import Mathlib

/-!
# octomap_path_planner: surface classification, distance transform, target selection,
steering law and controller

A shallow embedding of `src/octomap_path_planner_node.cpp`.

Conventions of the embedding

* Real-valued quantities (`double`, `float`) are rationals `ℚ`. Where the rounding of machine
  arithmetic decides a branch or a count, the operation is rounded to the nearest value of its
  format (`toDouble`, `toFloat32`: IEEE 754 round to nearest, ties to even, with an unbounded
  exponent range): the quotient of `isGround`, the product of `isObstacle`, and the `float`
  narrowing, the thresholds and the product of the controller tick. Elsewhere the arithmetic is
  exact.
* A `float` intensity that may hold `+infinity` is an `Option ℚ`, with `none` standing for
  `+infinity` (see `Intensity`).
* The occupancy octree and the two point-cloud search indices are external libraries; they are
  represented by the data the planner reads from them.
* Loops whose termination is not structural carry a fuel argument and return `none` when the fuel
  is exhausted; the theorems show that the fuel supplied by the callers is always enough.
* The library functions `sqrt` and `atan2` and the transform listener are parameters; a division
  by zero, whose result is not a finite number, is `none`.
-/

namespace OctomapPathPlanner

/-! ## Data model -/

/-- Modelled from the spec: `octomap::OcTreeKey` is declared outside this repository; the spec
describes a voxel key as a discrete 3-D integer coordinate at the map resolution. -/
structure OcTreeKey where
  x : Int
  y : Int
  z : Int
deriving DecidableEq, Repr

/-- The key one voxel above (`key[2]++`). -/
def OcTreeKey.up (k : OcTreeKey) : OcTreeKey := { k with z := k.z + 1 }

/-- The key one voxel below (`key[2]--`). -/
def OcTreeKey.down (k : OcTreeKey) : OcTreeKey := { k with z := k.z - 1 }

/-- The key `i` voxels above `k` in the same vertical column (`i` may be negative). -/
def OcTreeKey.shift (k : OcTreeKey) (i : Int) : OcTreeKey := { k with z := k.z + i }

/-- A point of `pcl::PointXYZ`. -/
structure PointXYZ where
  x : ℚ
  y : ℚ
  z : ℚ
deriving DecidableEq

/-- A `float` that is either finite or `+infinity` (`none`). -/
abbrev Intensity := Option ℚ

/-- The test `std::isfinite`. -/
def isfinite (v : Intensity) : Bool := v.isSome

/-- A point of `pcl::PointXYZI`: a position and the intensity channel that stores the distance. -/
structure PointXYZI where
  x : ℚ
  y : ℚ
  z : ℚ
  intensity : Intensity
deriving DecidableEq

/-- The position of a ground point. -/
def PointXYZI.pos (p : PointXYZI) : PointXYZ := ⟨p.x, p.y, p.z⟩

/-- The expanded occupancy octree as the planner reads it: its resolution, its leaves (key and
`isNodeOccupied`) in iteration order, and the voxel-centre accessor `getX/getY/getZ`. A key with
no leaf is unknown space. -/
structure OcTree where
  resolution : ℚ
  leaves : List (OcTreeKey × Bool)
  keyToCoord : OcTreeKey → PointXYZ

/-- Lookup of a key among the leaves: `octree_ptr_->search(key)` followed by `isNodeOccupied`;
`none` is the null node. -/
def searchLeaves (k : OcTreeKey) : List (OcTreeKey × Bool) → Option Bool
  | [] => none
  | (k1, occ) :: rest => if k1 = k then some occ else searchLeaves k rest

/-- The node of a key: `some true` occupied, `some false` free, `none` unknown. -/
def OcTree.search (t : OcTree) (k : OcTreeKey) : Option Bool := searchLeaves k t.leaves

/-- The parameters of the node (members of `OctomapPathPlanner` read from the parameter
server). -/
structure Params where
  treat_unknown_as_free : Bool
  robot_height : ℚ
  robot_radius : ℚ
  goal_reached_threshold : ℚ
  local_target_radius : ℚ
  twist_linear_gain : ℚ
  twist_angular_gain : ℚ
  max_superable_height : ℚ

/-! ## Rounding of machine arithmetic -/

/-- The power of two `2 ^ k` for an integer exponent `k`. -/
def pow2 (k : Int) : ℚ :=
  if 0 ≤ k then (2 : ℚ) ^ k.toNat else 1 / (2 : ℚ) ^ (-k).toNat

/-- The position of the leading binary digit of `n`, by halving `n` at most `fuel` times. -/
def log2Fuel : Nat → Nat → Nat
  | 0, _ => 0
  | fuel + 1, n => if n < 2 then 0 else log2Fuel fuel (n / 2) + 1

/-- The integer part of the binary logarithm of `n`; `n` halvings are always enough. -/
def floorLog2 (n : Nat) : Nat := log2Fuel n n

/-- The binary exponent of a positive rational `a`: the integer `e` with
`2 ^ e ≤ a < 2 ^ (e + 1)`. -/
def binaryExponent (a : ℚ) : Int :=
  let e0 : Int := (floorLog2 a.num.natAbs : Int) - (floorLog2 a.den : Int)
  if a < pow2 e0 then e0 - 1 else e0

/-- Rounding to the nearest integer, a tie going to the even integer. -/
def roundNearestEven (x : ℚ) : Int :=
  let f : Int := ⌊x⌋
  let r : ℚ := x - f
  if r < 1 / 2 then f
  else if r > 1 / 2 then f + 1
  else if f % 2 = 0 then f else f + 1

/-- Rounding to the nearest binary floating-point number with `p` significant bits, a tie going
to the even significand (IEEE 754 `roundTiesToEven`); the exponent range is unbounded. -/
def roundToPrecision (p : Nat) (q : ℚ) : ℚ :=
  if q = 0 then 0
  else
    let a := |q|
    let e := binaryExponent a
    let ulp := pow2 (e - ((p : Int) - 1))
    let m := roundNearestEven (a / ulp)
    if q < 0 then -((m : ℚ) * ulp) else (m : ℚ) * ulp

/-- The result of an operation of type `double` (binary64, 53 significant bits) whose exact
result is `q`. -/
def toDouble (q : ℚ) : ℚ := roundToPrecision 53 q

/-- The conversion of a value to `float` (binary32, 24 significant bits), as in the assignment
of a `double` to the `data` field of a `std_msgs::Float32`. -/
def toFloat32 (q : ℚ) : ℚ := roundToPrecision 24 q

/-! ## isGround -/

/-- The `while(steps-- > 0)` loop of `isGround`: `steps` voxels above `key1` are inspected. -/
def isGroundColumn (t : OcTree) (treat_unknown_as_free : Bool) : Nat → OcTreeKey → Bool
  | 0, _ => true
  | steps + 1, key1 =>
    match t.search key1.up with
    | none => if !treat_unknown_as_free then false
              else isGroundColumn t treat_unknown_as_free steps key1.up
    | some occ => if occ then false
                  else isGroundColumn t treat_unknown_as_free steps key1.up

/-- The function `OctomapPathPlanner::isGround`. The quotient `robot_height_ / res` is a
`double` division, so `steps` is the ceiling of the rounded quotient. -/
def isGround (P : Params) (t : OcTree) (key : OcTreeKey) : Bool :=
  match t.search key with
  | none => false
  | some occ =>
    if !occ then false
    else
      let res := t.resolution
      let steps : Int := ⌈toDouble (P.robot_height / res)⌉
      isGroundColumn t P.treat_unknown_as_free steps.toNat key

/-- A voxel state that lets the clearance column pass: free, or unknown while unknown space is
treated as free. -/
def nonOccupied (treat_unknown_as_free : Bool) (s : Option Bool) : Prop :=
  s = some false ∨ (s = none ∧ treat_unknown_as_free = true)


/-! ## isObstacle -/

/-- The "look up" loop of `isObstacle`: `num_voxels` is incremented for every occupied voxel met
going up from `key1`, until a null or non-occupied node stops the scan. -/
def lookUp (t : OcTree) : Nat → OcTreeKey → Nat → Option Nat
  | 0, _, _ => none
  | fuel + 1, key1, num_voxels =>
    match t.search key1.up with
    | none => some num_voxels
    | some occ => if !occ then some num_voxels else lookUp t fuel key1.up (num_voxels + 1)

/-- The "look down" loop of `isObstacle`. -/
def lookDown (t : OcTree) : Nat → OcTreeKey → Nat → Option Nat
  | 0, _, _ => none
  | fuel + 1, key2, num_voxels =>
    match t.search key2.down with
    | none => some num_voxels
    | some occ => if !occ then some num_voxels else lookDown t fuel key2.down (num_voxels + 1)

/-- The value of `num_voxels` when `isObstacle` reaches its `return`. Each scan is given one
step of fuel more than the tree has leaves. -/
def countVoxels (t : OcTree) (key : OcTreeKey) : Option Nat :=
  match lookUp t (t.leaves.length + 1) key 1 with
  | none => none
  | some num_voxels => lookDown t (t.leaves.length + 1) key num_voxels

/-- The function `OctomapPathPlanner::isObstacle`. The product `res * num_voxels` is a `double`
product, so the rounded product is compared with `max_superable_height_`. -/
def isObstacle (P : Params) (t : OcTree) (key : OcTreeKey) : Option Bool :=
  let res := t.resolution
  match countVoxels t key with
  | none => none
  | some num_voxels =>
    some (decide (toDouble (res * (num_voxels : ℚ)) > P.max_superable_height))

/-! ## Nearest-obstacle test and inflation filter -/

/-- Squared Euclidean distance of two positions. -/
def sqDist (a b : PointXYZ) : ℚ := (a.x - b.x) ^ 2 + (a.y - b.y) ^ 2 + (a.z - b.z) ^ 2

/-- Scan of a cloud for the point nearest to `p`, keeping the first of equally near points. -/
def nearestFrom (p : PointXYZ) : List PointXYZ → Nat → Option (Nat × ℚ) → Option (Nat × ℚ)
  | [], _, best => best
  | c :: cs, i, none => nearestFrom p cs (i + 1) (some (i, sqDist c p))
  | c :: cs, i, some (bi, bd) =>
    if sqDist c p < bd then nearestFrom p cs (i + 1) (some (i, sqDist c p))
    else nearestFrom p cs (i + 1) (some (bi, bd))

/-- Modelled from the spec: the `SpatialIndex` k-nearest query of PCL, which is outside this
repository, for `k = 1`: the index and squared distance of a point of the cloud nearest to `p`,
or `none` when the cloud has no point. -/
def nearestKSearch (cloud : List PointXYZ) (p : PointXYZ) : Option (Nat × ℚ) :=
  nearestFrom p cloud 0 none

/-- The function `OctomapPathPlanner::isNearObstacle`, on the index built from
`obstacles_pcl_`. -/
def isNearObstacle (P : Params) (obstacles_pcl : List PointXYZ) (point : PointXYZ) : Bool :=
  match nearestKSearch obstacles_pcl point with
  | none => false
  | some (_, pointDistSq2) => decide (pointDistSq2 < P.robot_radius * P.robot_radius)

/-- The `std::swap` of element `i` with `back()` followed by `pop_back()`. -/
def swapPop {α : Type} (g : List α) (i : Nat) : List α :=
  match g.getLast? with
  | none => g
  | some b => (g.set i b).dropLast

/-- The loop of `filterInflatedRegionFromGround`, with loop variable `i`. -/
def filterLoop {α : Type} (near : α → Bool) : Nat → Nat → List α → Option (List α)
  | 0, i, g => if i < g.length then none else some g
  | fuel + 1, i, g =>
    if h : i < g.length then
      if near (g.get ⟨i, h⟩) then filterLoop near fuel i (swapPop g i)
      else filterLoop near fuel (i + 1) g
    else some g

/-- The function `OctomapPathPlanner::filterInflatedRegionFromGround`. -/
def filterInflatedRegionFromGround (P : Params) (obstacles_pcl : List PointXYZ)
    (ground_pcl : List PointXYZI) : Option (List PointXYZI) :=
  filterLoop (fun p => isNearObstacle P obstacles_pcl p.pos) ground_pcl.length 0 ground_pcl

/-! ## computeGround -/

/-- The ground point pushed for a leaf: the voxel centre with intensity `+infinity`. -/
def groundPoint (t : OcTree) (k : OcTreeKey) : PointXYZI :=
  ⟨(t.keyToCoord k).x, (t.keyToCoord k).y, (t.keyToCoord k).z, none⟩

/-- The obstacle point pushed for a leaf. -/
def obstaclePoint (t : OcTree) (k : OcTreeKey) : PointXYZ :=
  ⟨(t.keyToCoord k).x, (t.keyToCoord k).y, (t.keyToCoord k).z⟩

/-- The leaf loop of `computeGround`: the two clouds are threaded through the iteration. -/
def classifyLeaves (P : Params) (t : OcTree) :
    List (OcTreeKey × Bool) → List PointXYZI × List PointXYZ →
      Option (List PointXYZI × List PointXYZ)
  | [], clouds => some clouds
  | (key, occ) :: rest, (ground_pcl, obstacles_pcl) =>
    if !occ then classifyLeaves P t rest (ground_pcl, obstacles_pcl)
    else if isGround P t key then
      classifyLeaves P t rest (ground_pcl ++ [groundPoint t key], obstacles_pcl)
    else
      match isObstacle P t key with
      | none => none
      | some true => classifyLeaves P t rest (ground_pcl, obstacles_pcl ++ [obstaclePoint t key])
      | some false => classifyLeaves P t rest (ground_pcl, obstacles_pcl)

/-- The function `OctomapPathPlanner::computeGround` for a loaded octree: the pair
`(ground_pcl_, obstacles_pcl_)` it leaves. -/
def computeGround (P : Params) (t : OcTree) : Option (List PointXYZI × List PointXYZ) :=
  match classifyLeaves P t t.leaves ([], []) with
  | none => none
  | some (ground_pcl, obstacles_pcl) =>
    match filterInflatedRegionFromGround P obstacles_pcl ground_pcl with
    | none => none
    | some ground_filtered => some (ground_filtered, obstacles_pcl)

/-! ## computeDistanceTransform -/

/-- The queries the planner makes on `ground_octree_ptr_`, the search index over the ground
cloud: the nearest point (`k = 1`, `none` when fewer than one point is returned) and the indices
within a radius of a position. -/
structure GroundIndex where
  nearestKSearch : PointXYZ → Option Nat
  radiusSearch : PointXYZ → ℚ → List Nat

/-- Intensity of point `j` of an intensity channel. -/
def intensityAt (I : List Intensity) (j : Nat) : Intensity := I.getD j none

/-- The value `intensity + 1.0`. -/
def addOne (v : Intensity) : Intensity := v.map (fun x => x + 1)

/-- The `for` loop over the neighbours of the popped index `i`: unlabelled neighbours are
labelled and pushed on the queue. -/
def labelNeighbours (i : Nat) : List Nat → List Intensity × List Nat → List Intensity × List Nat
  | [], s => s
  | j :: rest, (I, q) =>
    if isfinite (intensityAt I j) then labelNeighbours i rest (I, q)
    else labelNeighbours i rest (I.set j (addOne (intensityAt I i)), q ++ [j])

/-- The `while(!q.empty())` loop of `computeDistanceTransform` on the intensity channel, with
`nbrs i` the result of the radius query at point `i`. -/
def wavefront (nbrs : Nat → List Nat) : Nat → List Intensity → List Nat → Option (List Intensity)
  | _, I, [] => some I
  | 0, _, _ :: _ => none
  | fuel + 1, I, i :: q =>
    wavefront nbrs fuel (labelNeighbours i (nbrs i) (I, q)).1 (labelNeighbours i (nbrs i) (I, q)).2

/-- The running minimum `imin = fmin(imin, v)` over the finite intensities; `none` is the
initial `+infinity`. -/
def scanMin : List Intensity → Option ℚ → Option ℚ
  | [], imin => imin
  | none :: rest, imin => scanMin rest imin
  | some v :: rest, none => scanMin rest (some v)
  | some v :: rest, some m => scanMin rest (some (min m v))

/-- The running maximum `imax = fmax(imax, v)` over the finite intensities; `none` is the
initial `-infinity`. -/
def scanMax : List Intensity → Option ℚ → Option ℚ
  | [], imax => imax
  | none :: rest, imax => scanMax rest imax
  | some v :: rest, none => scanMax rest (some v)
  | some v :: rest, some m => scanMax rest (some (max m v))

/-- The constant `eps`. -/
def eps : ℚ := 1 / 100

/-- The normalisation of the intensity channel; `none` when the divisor `d` is zero, where the
quotients are not finite numbers. When no intensity is finite every point takes the `else`
branch and nothing is divided. -/
def normalize (I : List Intensity) : Option (List Intensity) :=
  match scanMin I none, scanMax I none with
  | some imin, some imax =>
    let d := imax - imin + eps
    if d = 0 then none
    else
      some (I.map (fun v => match v with
        | some x => some ((x - imin) / d)
        | none => some 1))
  | _, _ => some (I.map (fun _ => some 1))

/-- The neighbour lists used by the wavefront: the radius query at `1.8 * res` around each
ground point (positions are never written by the loop). -/
def groundNbrs (idx : GroundIndex) (res : ℚ) (ground_pcl : List PointXYZI) (i : Nat) : List Nat :=
  match ground_pcl.get? i with
  | some p => idx.radiusSearch p.pos (18 / 10 * res)
  | none => []

/-- The intensity channel when the wavefront loop of `computeDistanceTransform` has finished,
before normalisation, for goal index `goal_idx`. -/
def rawDistances (nbrs : Nat → List Nat) (goal_idx : Nat) (I : List Intensity) :
    Option (List Intensity) :=
  wavefront nbrs I.length (I.set goal_idx (some 0)) [goal_idx]

/-- Write an intensity channel back into the cloud. -/
def withIntensities (ground_pcl : List PointXYZI) (I : List Intensity) : List PointXYZI :=
  List.zipWith (fun p v => { p with intensity := v }) ground_pcl I

/-- The function `OctomapPathPlanner::computeDistanceTransform`: the ground cloud it leaves;
`none` when the wavefront runs out of fuel or the normalisation divides by zero. -/
def computeDistanceTransform (idx : GroundIndex) (res : ℚ) (goal : PointXYZ)
    (ground_pcl : List PointXYZI) : Option (List PointXYZI) :=
  if ground_pcl.length = 0 then some ground_pcl
  else
    match idx.nearestKSearch goal with
    | none => some ground_pcl
    | some goal_idx =>
      match rawDistances (groundNbrs idx res ground_pcl) goal_idx
          (ground_pcl.map PointXYZI.intensity) with
      | none => none
      | some I =>
        match normalize I with
        | none => none
        | some J => some (withIntensities ground_pcl J)

/-- Modelled from the spec: the `SpatialIndex` radius query of PCL, which is outside this
repository: the indices of the points of the cloud within `radius` of `p`. -/
def radiusSearch (cloud : List PointXYZ) (p : PointXYZ) (radius : ℚ) : List Nat :=
  (List.range cloud.length).filter
    (fun j => match cloud.get? j with
      | some c => decide (sqDist c p ≤ radius * radius)
      | none => false)

/-- The search index built by `setInputCloud` and `addPointsFromInputCloud` over a cloud of
positions. -/
def buildIndex (cloud : List PointXYZ) : GroundIndex where
  nearestKSearch := fun p => (nearestKSearch cloud p).map Prod.fst
  radiusSearch := fun p r => radiusSearch cloud p r

/-! ## generateTarget -/

/-- The comparison `a < b` of two intensities. -/
def Intensity.lt : Intensity → Intensity → Bool
  | some a, some b => decide (a < b)
  | some _, none => true
  | none, _ => false

/-- The loop of `generateTarget` over the indices returned by the radius query. -/
def generateTargetLoop (ground_pcl : List PointXYZI) : List Nat → Int → Intensity → Int
  | [], best_index, _ => best_index
  | idx :: rest, best_index, best_value =>
    let intensity : Intensity := (ground_pcl.get? idx).bind PointXYZI.intensity
    if best_index = -1 ∨ Intensity.lt intensity best_value = true then
      generateTargetLoop ground_pcl rest (idx : Int) intensity
    else generateTargetLoop ground_pcl rest best_index best_value

/-- The function `OctomapPathPlanner::generateTarget`: the radius query around the robot position
followed by the selection loop; `-1` when no index is selected. -/
def generateTarget (P : Params) (idx : GroundIndex) (robot_position : PointXYZ)
    (ground_pcl : List PointXYZI) : Int :=
  generateTargetLoop ground_pcl (idx.radiusSearch robot_position P.local_target_radius) (-1) none

/-! ## Auxiliary definitions for the column scans -/

/-- A scan of the column of `key1` in steps of `s` voxels; `lookUp` is the scan with `s = 1` and
`lookDown` the scan with `s = -1`. -/
def scanColumn (t : OcTree) (s : Int) : Nat → OcTreeKey → Nat → Option Nat
  | 0, _, _ => none
  | fuel + 1, key1, num_voxels =>
    match t.search (key1.shift s) with
    | none => some num_voxels
    | some occ =>
      if !occ then some num_voxels else scanColumn t s fuel (key1.shift s) (num_voxels + 1)

/-- The occupied voxels of the column of `k` extend exactly `a` steps of `s` voxels from `k`:
the `a` voxels after `k` are occupied and the next one is not. -/
def ColumnRun (t : OcTree) (k : OcTreeKey) (s : Int) (a : Nat) : Prop :=
  (∀ i : Nat, 1 ≤ i → i ≤ a → t.search (k.shift (s * i)) = some true) ∧
    t.search (k.shift (s * ((a + 1 : Nat) : Int))) ≠ some true


/-- Intensity of the ground point with index `i`, as read by `generateTarget`. -/
def valueAt (ground_pcl : List PointXYZI) (i : Nat) : Intensity :=
  (ground_pcl.get? i).bind PointXYZI.intensity

/-- Position `pos` of the index list holds index `i`, no listed index has a smaller value than
`i`, and every index listed before `pos` has a strictly larger value. -/
def IsFirstMin (ground_pcl : List PointXYZI) (pointIdx : List Nat) (pos i : Nat) : Prop :=
  pointIdx.get? pos = some i ∧
  (∀ q j, pointIdx.get? q = some j →
    Intensity.lt (valueAt ground_pcl j) (valueAt ground_pcl i) = false) ∧
  (∀ q j, q < pos → pointIdx.get? q = some j →
    Intensity.lt (valueAt ground_pcl i) (valueAt ground_pcl j) = true)

/-! ## Auxiliary definitions for the wavefront -/

/-- A walk of `k` edges from `s` to `v` in the graph whose edges join a point to the points
returned by its radius query. -/
inductive Walk (nbrs : Nat → List Nat) (s : Nat) : Nat → Nat → Prop
  | nil : Walk nbrs s s 0
  | snoc {u v k : Nat} : Walk nbrs s u k → v ∈ nbrs u → Walk nbrs s v (k + 1)

/-- The number `k` is the length of a shortest path from `s` to `v`. -/
def ShortestPath (nbrs : Nat → List Nat) (s v k : Nat) : Prop :=
  Walk nbrs s v k ∧ ∀ k1, Walk nbrs s v k1 → k ≤ k1

/-- Number of points whose intensity is still `+infinity`. -/
def countInf : List Intensity → Nat
  | [] => 0
  | none :: rest => countInf rest + 1
  | some _ :: rest => countInf rest

/-- The invariant of the `for` loop over the neighbours of the popped index `i`, whose label is
`a`; `done` are the neighbours already handled. -/
structure InnerInv (nbrs : Nat → List Nat) (s n i : Nat) (a : ℚ) (done : List Nat)
    (I : List Intensity) (q : List Nat) : Prop where
  len : I.length = n
  seed : intensityAt I s = some 0
  sound : ∀ v r, intensityAt I v = some r → ∃ k : Nat, r = (k : ℚ) ∧ Walk nbrs s v k
  cur : intensityAt I i = some a
  queued : ∀ x ∈ q, ∃ r, intensityAt I x = some r ∧ a ≤ r
  sorted : q.Pairwise (fun x y => ∀ rx ry, intensityAt I x = some rx →
    intensityAt I y = some ry → rx ≤ ry)
  bound : ∀ v r, intensityAt I v = some r → r ≤ a + 1
  closed : ∀ u ru, intensityAt I u = some ru → u ∉ q → u ≠ i →
    ∀ v ∈ nbrs u, ∃ rv, intensityAt I v = some rv ∧ rv ≤ ru + 1
  handled : ∀ v ∈ done, ∃ rv, intensityAt I v = some rv ∧ rv ≤ a + 1

/-- The invariant of the `while` loop of the wavefront. -/
structure WaveInv (nbrs : Nat → List Nat) (s n : Nat) (I : List Intensity) (q : List Nat) :
    Prop where
  len : I.length = n
  seed : intensityAt I s = some 0
  sound : ∀ v r, intensityAt I v = some r → ∃ k : Nat, r = (k : ℚ) ∧ Walk nbrs s v k
  queued : ∀ x ∈ q, ∃ r, intensityAt I x = some r
  sorted : q.Pairwise (fun x y => ∀ rx ry, intensityAt I x = some rx →
    intensityAt I y = some ry → rx ≤ ry)
  bound : ∀ x ∈ q, ∀ v rx rv, intensityAt I x = some rx → intensityAt I v = some rv →
    rv ≤ rx + 1
  closed : ∀ u ru, intensityAt I u = some ru → u ∉ q →
    ∀ v ∈ nbrs u, ∃ rv, intensityAt I v = some rv ∧ rv ≤ ru + 1

/-! ## Example inputs -/

/-- Voxel centre of a key for a map of resolution `res`, used by the example maps. -/
def voxelCentre (res : ℚ) (k : OcTreeKey) : PointXYZ :=
  ⟨((k.x : ℚ) + 1 / 2) * res, ((k.y : ℚ) + 1 / 2) * res, ((k.z : ℚ) + 1 / 2) * res⟩

/-- Parameters of the example maps: robot height one voxel, superable height one voxel. -/
def exampleParams : Params where
  treat_unknown_as_free := false
  robot_height := 1 / 10
  robot_radius := 1 / 20
  goal_reached_threshold := 1 / 5
  local_target_radius := 2
  twist_linear_gain := 1 / 2
  twist_angular_gain := 1
  max_superable_height := 1 / 10

/-- A map at resolution 0.1 with a stack of two occupied voxels and a free voxel above it. -/
def stackTree : OcTree where
  resolution := 1 / 10
  leaves := [(⟨0, 0, 0⟩, true), (⟨0, 0, 1⟩, true), (⟨0, 0, 2⟩, false)]
  keyToCoord := voxelCentre (1 / 10)

/-- A column at resolution `res`: an occupied voxel at height 0, `n` free voxels above it and an
occupied voxel above those. -/
def clearanceTree (res : ℚ) (n : Nat) : OcTree where
  resolution := res
  leaves := (⟨0, 0, 0⟩, true) ::
    ((List.range n).map (fun i => ((⟨0, 0, (i : Int) + 1⟩ : OcTreeKey), false)) ++
      [(⟨0, 0, (n : Int) + 1⟩, true)])
  keyToCoord := voxelCentre res

/-- A column of `n` occupied voxels at resolution `res`, from height 0 upwards, in unknown
space. -/
def occupiedStack (res : ℚ) (n : Nat) : OcTree where
  resolution := res
  leaves := (List.range n).map (fun i => ((⟨0, 0, (i : Int)⟩ : OcTreeKey), true))
  keyToCoord := voxelCentre res

/-- Three ground points on a line with infinite intensities; the third is out of reach of the
other two at resolution 1. -/
def threePoints : List PointXYZI := [⟨0, 0, 0, none⟩, ⟨1, 0, 0, none⟩, ⟨5, 0, 0, none⟩]

/-- The search index over `threePoints`. -/
def threePointsIndex : GroundIndex := buildIndex (threePoints.map PointXYZI.pos)

/-- Two ground points one unit apart with infinite intensities. -/
def twoPoints : List PointXYZI := [⟨0, 0, 0, none⟩, ⟨1, 0, 0, none⟩]

/-- The search index over `twoPoints`. -/
def twoPointsIndex : GroundIndex := buildIndex (twoPoints.map PointXYZI.pos)

/-- Three ground points around the robot with field values 0.9, 0.3 and 0.6. -/
def fieldPoints : List PointXYZI :=
  [⟨0, 0, 0, some (9 / 10)⟩, ⟨1, 0, 0, some (3 / 10)⟩, ⟨0, 1, 0, some (6 / 10)⟩]

/-- The search index over `fieldPoints`. -/
def fieldPointsIndex : GroundIndex := buildIndex (fieldPoints.map PointXYZI.pos)

/-! ## Poses, twists and the steering law -/

/-- A quaternion of `geometry_msgs::Quaternion`. -/
structure Quaternion where
  x : ℚ
  y : ℚ
  z : ℚ
  w : ℚ
deriving DecidableEq

/-- A pose of `geometry_msgs::Pose`. -/
structure Pose where
  position : PointXYZ
  orientation : Quaternion
deriving DecidableEq

/-- A vector of `geometry_msgs::Vector3`. -/
structure Vector3 where
  x : ℚ
  y : ℚ
  z : ℚ
deriving DecidableEq

/-- A velocity command of `geometry_msgs::Twist`. -/
structure Twist where
  linear : Vector3
  angular : Vector3
deriving DecidableEq

/-- A point of `geometry_msgs::PointStamped`: the frame of its header and the point. -/
structure PointStamped where
  frame_id : String
  point : PointXYZ
deriving DecidableEq

/-- The twist with all six components zero. -/
def zeroTwist : Twist := ⟨⟨0, 0, 0⟩, ⟨0, 0, 0⟩⟩

/-- The branch test of `generateTwistCommand`: `p.x < 0 || fabs(p.y) > p.x` (turn in place). -/
def turnInPlace (p : PointXYZ) : Bool := decide (p.x < 0 ∨ |p.y| > p.x)

/-- The value `center_y` of the arc branch, `(x^2 + y^2) / (2 y)`; `none` when the divisor `2 y`
is zero, where the quotient is not a finite number. -/
def arcCenterY (p : PointXYZ) : Option ℚ :=
  if 2 * p.y = 0 then none else some ((p.x ^ 2 + p.y ^ 2) / (2 * p.y))

/-- The function `OctomapPathPlanner::generateTwistCommand`: the twist it leaves in its output
argument. The library function `atan2` is a parameter. The result is `none` when the arc formula
divides by zero, so that the components computed from it are not finite numbers. -/
def generateTwistCommand (P : Params) (robot_frame_id : String) (atan2 : ℚ → ℚ → ℚ)
    (local_target : PointStamped) (twist : Twist) : Option Twist :=
  if local_target.frame_id ≠ robot_frame_id then some twist
  else
    let p := local_target.point
    if turnInPlace p = true then
      some ⟨⟨0, 0, 0⟩, ⟨0, 0, (if p.y > 0 then 1 else -1) * P.twist_angular_gain⟩⟩
    else
      match arcCenterY p with
      | none => none
      | some center_y =>
        let theta := |atan2 p.x (|center_y| - |p.y|)|
        let arc_length := |center_y * theta|
        some ⟨⟨P.twist_linear_gain * arc_length, 0, 0⟩,
          ⟨0, 0, P.twist_angular_gain * (if p.y ≥ 0 then 1 else -1) * theta⟩⟩

/-! ## Errors and the controller tick -/

/-- The function `OctomapPathPlanner::positionError`; the library function `sqrt` is a
parameter. -/
def positionError (sqrt : ℚ → ℚ) (robot_pose goal : Pose) : ℚ :=
  sqrt ((robot_pose.position.x - goal.position.x) ^ 2 +
    (robot_pose.position.y - goal.position.y) ^ 2 +
    (robot_pose.position.z - goal.position.z) ^ 2)

/-- The value `qnorm` of `orientationError`: the sum of the squares of the four components. -/
def qnorm (q : Quaternion) : ℚ := q.w ^ 2 + q.x ^ 2 + q.y ^ 2 + q.z ^ 2

/-- The function `OctomapPathPlanner::orientationError`: zero for a goal given by position
only, else the third component of `ne * ed - nd * ee - ed.cross(ee)`. -/
def orientationError (robot_pose goal : Pose) : ℚ :=
  if qnorm goal.orientation < 1 / 100000 then 0
  else
    let nd := goal.orientation.w
    let ne := robot_pose.orientation.w
    let ed := goal.orientation
    let ee := robot_pose.orientation
    ne * ed.z - nd * ee.z - (ed.x * ee.y - ed.y * ee.x)

/-- The external collaborators of a controller tick: the library functions `sqrt` and `atan2`,
the robot frame, the transform of a map point into the robot frame (`none` when the transform
lookup throws) and the search index over the ground cloud. -/
structure TickEnv where
  sqrt : ℚ → ℚ
  atan2 : ℚ → ℚ → ℚ
  robot_frame_id : String
  transformPoint : PointXYZ → Option PointStamped
  ground_index : GroundIndex

/-- The function `OctomapPathPlanner::generateLocalTarget`: the local target in the robot
frame, or `none` for the result `false`. -/
def generateLocalTarget (P : Params) (E : TickEnv) (robot_pose : Pose)
    (ground_pcl : List PointXYZI) : Option PointStamped :=
  let i := generateTarget P E.ground_index robot_pose.position ground_pcl
  if i = -1 then none
  else
    match ground_pcl.get? i.toNat with
    | none => none
    | some p => E.transformPoint p.pos

/-- The controller members that a tick reads and writes: the flag `reached_position_` and
whether `controller_timer_` is running. -/
structure ControllerState where
  reached_position : Bool
  timer_running : Bool
deriving DecidableEq

/-- What a tick sends to `twist_pub_`: nothing (the tick returned early), a twist, or a twist
with components that are not finite numbers. -/
inductive Command where
  | silent : Command
  | publish (twist : Twist) : Command
  | publishNonFinite : Command
deriving DecidableEq

/-- The test that selects position regulation in `controllerCallback`, on the value `ep` of
`ep.data`; the product `2 * goal_reached_threshold_` is a `double` product. -/
def regulatingPosition (P : Params) (reached_position : Bool) (ep : ℚ) : Bool :=
  decide ((reached_position = false ∧ ep > P.goal_reached_threshold) ∨
    (reached_position = true ∧ ep > toDouble (2 * P.goal_reached_threshold)))

/-- The function `OctomapPathPlanner::controllerCallback` after a successful pose lookup
(`getRobotPose` returned `true` and left `robot_pose`): the controller state and the command
of the tick. The values `ep` and `eo` are the fields `ep.data` and `eo.data` of two
`std_msgs::Float32`: the two errors narrowed to `float`. The literal `0.02` is a `double` and the
product `twist_angular_gain_ * eo.data` is a `double` product. -/
def controllerCallback (P : Params) (E : TickEnv) (goal robot_pose : Pose)
    (ground_pcl : List PointXYZI) (s : ControllerState) : ControllerState × Command :=
  let ep := toFloat32 (positionError E.sqrt robot_pose goal)
  let eo := toFloat32 (orientationError robot_pose goal)
  if regulatingPosition P s.reached_position ep = true then
    match generateLocalTarget P E robot_pose ground_pcl with
    | none => ({ s with reached_position := false }, Command.silent)
    | some local_target =>
      match generateTwistCommand P E.robot_frame_id E.atan2 local_target zeroTwist with
      | some twist => ({ s with reached_position := false }, Command.publish twist)
      | none => ({ s with reached_position := false }, Command.publishNonFinite)
  else
    if |eo| > toDouble (1 / 50) then
      ({ s with reached_position := true },
        Command.publish ⟨⟨0, 0, 0⟩, ⟨0, 0, toDouble (P.twist_angular_gain * eo)⟩⟩)
    else
      ({ reached_position := true, timer_running := false }, Command.publish zeroTwist)

/-- A sequence of ticks, one per robot pose, for a fixed goal and ground cloud; no tick runs
once the timer is stopped. The commands are listed in tick order. -/
def runTicks (P : Params) (E : TickEnv) (goal : Pose) (ground_pcl : List PointXYZI) :
    List Pose → ControllerState → ControllerState × List Command
  | [], s => (s, [])
  | robot_pose :: rest, s =>
    if s.timer_running = false then runTicks P E goal ground_pcl rest s
    else
      ((runTicks P E goal ground_pcl rest
          (controllerCallback P E goal robot_pose ground_pcl s).1).1,
        (controllerCallback P E goal robot_pose ground_pcl s).2 ::
          (runTicks P E goal ground_pcl rest
            (controllerCallback P E goal robot_pose ground_pcl s).1).2)

/-! ## Goal handler -/

/-- The members that the goal handler reads and writes: `goal_`, `ground_pcl_` and the
controller state. -/
structure PlannerState where
  goal : Pose
  ground_pcl : List PointXYZI
  controller : ControllerState
deriving DecidableEq

/-- The function `OctomapPathPlanner::projectGoalPositionToGround`. -/
def projectGoalPositionToGround (idx : GroundIndex) (s : PlannerState) : PlannerState :=
  match idx.nearestKSearch s.goal.position with
  | none => s
  | some i =>
    match s.ground_pcl.get? i with
    | none => s
    | some p => { s with goal := { s.goal with position := p.pos } }

/-- The function `OctomapPathPlanner::startController`. -/
def startController (s : PlannerState) : PlannerState :=
  { s with controller := { reached_position := false, timer_running := true } }

/-- The `try` block of both `onGoal` handlers for the transformed goal pose `transformed`
(`none` when the transform lookup throws). -/
def onGoalTry (idx : GroundIndex) (transformed : Option Pose) (s : PlannerState) :
    PlannerState :=
  match transformed with
  | none => s
  | some pose => startController (projectGoalPositionToGround idx { s with goal := pose })

/-- The function `OctomapPathPlanner::onGoal` for a pose goal: `transformed` is the goal pose
in the map frame. -/
def onGoalPose (idx : GroundIndex) (res : ℚ) (transformed : Option Pose) (s : PlannerState) :
    Option PlannerState :=
  match computeDistanceTransform idx res (onGoalTry idx transformed s).goal.position
      (onGoalTry idx transformed s).ground_pcl with
  | none => none
  | some ground_pcl => some { onGoalTry idx transformed s with ground_pcl := ground_pcl }

/-- The function `OctomapPathPlanner::onGoal` for a point goal: the orientation of the stored
goal is the all-zero quaternion. -/
def onGoalPoint (idx : GroundIndex) (res : ℚ) (transformed : Option PointXYZ)
    (s : PlannerState) : Option PlannerState :=
  onGoalPose idx res (transformed.map (fun p => ⟨p, ⟨0, 0, 0, 0⟩⟩)) s

/-! ## Example inputs for the steering law and the controller -/

/-- The arctangent approximation `z / (1 + 0.28 z^2)` for `|z| ≤ 1`. -/
def approxAtan (z : ℚ) : ℚ := z / (1 + 28 / 100 * z ^ 2)

/-- A rational approximation of the library function `atan2 y x`, used by the examples. -/
def approxAtan2 (y x : ℚ) : ℚ :=
  if x = 0 ∧ y = 0 then 0
  else if |y| ≤ |x| then
    if 0 < x then approxAtan (y / x)
    else if 0 ≤ y then approxAtan (y / x) + 355 / 113
    else approxAtan (y / x) - 355 / 113
  else
    if 0 < y then 355 / 226 - approxAtan (x / y)
    else -(355 / 226) - approxAtan (x / y)

/-- The collaborators of the example ticks: `Rat.sqrt` (exact on squares of rationals), the
approximate `atan2`, a robot frame that coincides with the map frame and the index over
`fieldPoints`. -/
def exampleEnv : TickEnv where
  sqrt := Rat.sqrt
  atan2 := approxAtan2
  robot_frame_id := "/base_link"
  transformPoint := fun p => some ⟨"/base_link", p⟩
  ground_index := fieldPointsIndex

/-- The example parameters with every value of type `double`. -/
def doubleParams : Params where
  treat_unknown_as_free := false
  robot_height := toDouble (1 / 10)
  robot_radius := toDouble (1 / 20)
  goal_reached_threshold := toDouble (1 / 5)
  local_target_radius := 2
  twist_linear_gain := 1 / 2
  twist_angular_gain := 1
  max_superable_height := toDouble (1 / 10)

/-- A ground cloud of one point, ahead of the robot and to its left. -/
def sidePoints : List PointXYZI := [⟨1, 1, 0, some (1 / 2)⟩]

/-- The collaborators of the example ticks with the index over `sidePoints`. -/
def sideEnv : TickEnv :=
  { exampleEnv with ground_index := buildIndex (sidePoints.map PointXYZI.pos) }

/-- A pose at position `(x, y, 0)` with the identity orientation. -/
def poseAt (x y : ℚ) : Pose := ⟨⟨x, y, 0⟩, ⟨0, 0, 0, 1⟩⟩

/-- A goal at position `(x, y, 0)` given by position only. -/
def pointGoalAt (x y : ℚ) : Pose := ⟨⟨x, y, 0⟩, ⟨0, 0, 0, 0⟩⟩

/-- A goal at the origin whose orientation is a half turn about z. -/
def turnedGoal : Pose := ⟨⟨0, 0, 0⟩, ⟨0, 0, 1, 0⟩⟩

/-- The `for` loop over the neighbours of the popped index `i` with a log: every index `j`
whose intensity is written, and which is pushed in the same iteration, is appended to `log`. -/
def labelNeighboursLog (i : Nat) :
    List Nat → List Intensity × List Nat × List Nat → List Intensity × List Nat × List Nat
  | [], s => s
  | j :: rest, (I, q, log) =>
    if isfinite (intensityAt I j) then labelNeighboursLog i rest (I, q, log)
    else labelNeighboursLog i rest (I.set j (addOne (intensityAt I i)), q ++ [j], log ++ [j])

/-- The `while(!q.empty())` loop with a log: the result holds the intensities, the indices
written and pushed inside the loop (in order) and the indices popped (in order). -/
def wavefrontLog (nbrs : Nat → List Nat) :
    Nat → List Intensity → List Nat → List Nat → List Nat →
      Option (List Intensity × List Nat × List Nat)
  | _, I, [], log, popped => some (I, log, popped)
  | 0, _, _ :: _, _, _ => none
  | fuel + 1, I, i :: q, log, popped =>
    wavefrontLog nbrs fuel (labelNeighboursLog i (nbrs i) (I, q, log)).1
      (labelNeighboursLog i (nbrs i) (I, q, log)).2.1
      (labelNeighboursLog i (nbrs i) (I, q, log)).2.2 (popped ++ [i])

/-- The seeding and the wavefront loop of `computeDistanceTransform` with the log. -/
def rawDistancesLog (nbrs : Nat → List Nat) (goal_idx : Nat) (I : List Intensity) :
    Option (List Intensity × List Nat × List Nat) :=
  wavefrontLog nbrs I.length (I.set goal_idx (some 0)) [goal_idx] [] []

/-- The invariant of the logged wavefront: queued, logged and seed indices have finite
intensity, no index is logged twice, the seed is not logged, and the popped indices followed by the queue are the seed
followed by the logged indices (the queue is first in, first out). -/
structure LogInv (seed n : Nat) (I : List Intensity) (q log popped : List Nat) : Prop where
  len : I.length = n
  seedFinite : isfinite (intensityAt I seed) = true
  queued : ∀ x ∈ q, isfinite (intensityAt I x) = true
  logged : ∀ j ∈ log, isfinite (intensityAt I j) = true
  nodup : log.Nodup
  seedFresh : seed ∉ log
  fifo : popped ++ q = seed :: log

/-! ## Theorems -/

/-! ### Rounding of machine arithmetic -/

/-- With fuel at least `n` the halving loop computes the binary logarithm of `n`. -/
theorem log2Fuel_eq (fuel n : Nat) (h : n ≤ fuel) : log2Fuel fuel n = Nat.log2 n := by
  induction fuel generalizing n with
  | zero =>
    have : n = 0 := by omega
    subst this
    rw [log2Fuel, Nat.log2]
    simp
  | succ k ih =>
    rw [log2Fuel, Nat.log2]
    by_cases h2 : n < 2
    · rw [if_pos h2, if_neg (by omega)]
    · rw [if_neg h2, if_pos (by omega), ih (n / 2) (by omega)]

theorem floorLog2_eq (n : Nat) : floorLog2 n = Nat.log2 n :=
  log2Fuel_eq n n (le_refl n)

theorem floorLog2_spec (n : Nat) (hn : 0 < n) :
    2 ^ floorLog2 n ≤ n ∧ n < 2 ^ (floorLog2 n + 1) := by
  rw [floorLog2_eq, Nat.log2_eq_log_two]
  exact ⟨Nat.pow_log_le_self 2 (by omega), Nat.lt_pow_succ_log_self (by decide) n⟩

theorem pow2_eq_zpow (k : Int) : pow2 k = (2 : ℚ) ^ k := by
  unfold pow2
  by_cases h : 0 ≤ k
  · rw [if_pos h]
    obtain ⟨n, rfl⟩ := Int.eq_ofNat_of_zero_le h
    simp
  · rw [if_neg h]
    obtain ⟨n, hn⟩ : ∃ n : Nat, k = -(n : Int) := ⟨(-k).toNat, by omega⟩
    subst hn
    simp

theorem pow2_pos (k : Int) : 0 < pow2 k := by
  rw [pow2_eq_zpow]; positivity

theorem pow2_succ (k : Int) : pow2 (k + 1) = 2 * pow2 k := by
  rw [pow2_eq_zpow, pow2_eq_zpow, zpow_add_one₀ (by norm_num)]; ring

/-- The binary exponent brackets a positive rational between two consecutive powers of two. -/
theorem binaryExponent_spec (a : ℚ) (ha : 0 < a) :
    pow2 (binaryExponent a) ≤ a ∧ a < pow2 (binaryExponent a + 1) := by
  have hnum : 0 < a.num := Rat.num_pos.2 ha
  have hden : 0 < a.den := a.den_pos
  obtain ⟨n1, n2⟩ := floorLog2_spec a.num.natAbs (by omega)
  obtain ⟨d1, d2⟩ := floorLog2_spec a.den hden
  have hnat : (a.num.natAbs : ℚ) = a.num := by
    have h0 : (a.num.natAbs : Int) = a.num := Int.natAbs_of_nonneg hnum.le
    calc (a.num.natAbs : ℚ) = ((a.num.natAbs : Int) : ℚ) := (Int.cast_natCast _).symm
      _ = a.num := by rw [h0]
  have ha_eq : a = (a.num.natAbs : ℚ) / (a.den : ℚ) := by
    rw [hnat]; exact (Rat.num_div_den a).symm
  have hdq : (0 : ℚ) < a.den := by exact_mod_cast hden
  have N1 : (2 : ℚ) ^ floorLog2 a.num.natAbs ≤ a.num.natAbs := by exact_mod_cast n1
  have N2 : (a.num.natAbs : ℚ) < 2 ^ (floorLog2 a.num.natAbs + 1) := by exact_mod_cast n2
  have D1 : (2 : ℚ) ^ floorLog2 a.den ≤ a.den := by exact_mod_cast d1
  have D2 : (a.den : ℚ) < 2 ^ (floorLog2 a.den + 1) := by exact_mod_cast d2
  set ln := floorLog2 a.num.natAbs with hln
  set ld := floorLog2 a.den with hld
  have hp : ∀ k : Nat, (0 : ℚ) < 2 ^ k := fun k => by positivity
  -- bounds of a between 2^(e0-1) and 2^(e0+1)
  have e0m : pow2 ((ln : Int) - ld - 1) ≤ a := by
    rw [pow2_eq_zpow, ha_eq, le_div_iff₀ hdq]
    have : (2 : ℚ) ^ ((ln : Int) - ld - 1) * 2 ^ (ld + 1) = 2 ^ ln := by
      rw [← zpow_natCast (2 : ℚ) (ld + 1), ← zpow_add₀ (by norm_num)]
      rw [← zpow_natCast (2 : ℚ) ln]
      congr 1; push_cast; ring
    calc (2 : ℚ) ^ ((ln : Int) - ld - 1) * a.den
        ≤ (2 : ℚ) ^ ((ln : Int) - ld - 1) * 2 ^ (ld + 1) := by
          apply mul_le_mul_of_nonneg_left D2.le; positivity
      _ = 2 ^ ln := this
      _ ≤ _ := N1
  have e0p : a < pow2 ((ln : Int) - ld + 1) := by
    rw [pow2_eq_zpow, ha_eq, div_lt_iff₀ hdq]
    have : (2 : ℚ) ^ ((ln : Int) - ld + 1) * 2 ^ ld = 2 ^ (ln + 1) := by
      rw [← zpow_natCast (2 : ℚ) ld, ← zpow_add₀ (by norm_num)]
      rw [← zpow_natCast (2 : ℚ) (ln + 1)]
      congr 1; push_cast; ring
    calc (a.num.natAbs : ℚ) < 2 ^ (ln + 1) := N2
      _ = (2 : ℚ) ^ ((ln : Int) - ld + 1) * 2 ^ ld := this.symm
      _ ≤ (2 : ℚ) ^ ((ln : Int) - ld + 1) * a.den := by
          apply mul_le_mul_of_nonneg_left D1; positivity
  unfold binaryExponent
  simp only [← hln, ← hld]
  by_cases hlt : a < pow2 ((ln : Int) - ld)
  · rw [if_pos hlt]
    refine ⟨e0m, ?_⟩
    have : (ln : Int) - ld - 1 + 1 = (ln : Int) - ld := by ring
    rw [this]; exact hlt
  · rw [if_neg hlt]
    exact ⟨not_lt.1 hlt, e0p⟩

/-- Rounding to the nearest integer moves a rational by at most one half. -/
theorem roundNearestEven_spec (x : ℚ) : |((roundNearestEven x : Int) : ℚ) - x| ≤ 1 / 2 := by
  have h1 : ((⌊x⌋ : Int) : ℚ) ≤ x := Int.floor_le x
  have h2 : x < ((⌊x⌋ : Int) : ℚ) + 1 := Int.lt_floor_add_one x
  unfold roundNearestEven
  simp only
  rw [abs_le]
  split_ifs <;> push_cast <;> constructor <;> linarith

/-- Rounding to `p` significant bits: the result is an integer multiple of the unit in the last
place of `q` and differs from `q` by at most half that unit. -/
theorem roundToPrecision_spec (p : Nat) (q : ℚ) (hq : q ≠ 0) :
    pow2 (binaryExponent |q|) ≤ |q| ∧ |q| < pow2 (binaryExponent |q| + 1) ∧
    (∃ m : Int, roundToPrecision p q = (m : ℚ) * pow2 (binaryExponent |q| - ((p : Int) - 1))) ∧
    |roundToPrecision p q - q| ≤ pow2 (binaryExponent |q| - ((p : Int) - 1)) / 2 := by
  have ha : 0 < |q| := abs_pos.2 hq
  obtain ⟨b1, b2⟩ := binaryExponent_spec |q| ha
  refine ⟨b1, b2, ?_, ?_⟩
  · unfold roundToPrecision
    rw [if_neg hq]
    simp only
    split_ifs
    · exact ⟨-roundNearestEven (|q| / pow2 (binaryExponent |q| - ((p : Int) - 1))), by
        push_cast; ring⟩
    · exact ⟨_, rfl⟩
  · have hu := pow2_pos (binaryExponent |q| - ((p : Int) - 1))
    have hr := roundNearestEven_spec (|q| / pow2 (binaryExponent |q| - ((p : Int) - 1)))
    set u := pow2 (binaryExponent |q| - ((p : Int) - 1)) with hu_def
    set m := roundNearestEven (|q| / u) with hm
    have key : abs ((m : ℚ) * u - abs q) ≤ u / 2 := by
      have : (m : ℚ) * u - abs q = ((m : ℚ) - abs q / u) * u := by
        field_simp
      rw [this, abs_mul, abs_of_pos hu]
      calc abs ((m : ℚ) - abs q / u) * u ≤ 1 / 2 * u := by
            apply mul_le_mul_of_nonneg_right hr hu.le
        _ = u / 2 := by ring
    unfold roundToPrecision
    rw [if_neg hq]
    simp only [← hu_def, ← hm]
    split_ifs with hneg
    · have hqa : |q| = -q := abs_of_neg hneg
      have : -((m : ℚ) * u) - q = -((m : ℚ) * u - |q|) := by rw [hqa]; ring
      rw [this, abs_neg]; exact key
    · have hqa : |q| = q := abs_of_nonneg (not_lt.1 hneg)
      rw [hqa] at key; exact key

theorem roundNearestEven_bounds (x : ℚ) :
    ⌊x⌋ ≤ roundNearestEven x ∧ roundNearestEven x ≤ ⌊x⌋ + 1 := by
  unfold roundNearestEven
  simp only
  split_ifs <;> constructor <;> omega

/-- Rounding to `p ≥ 1` significant bits keeps the magnitude between the two powers of two that
bracket `q`, so the result is an integer of at most `p` bits (or `2 ^ p`) times the unit in the
last place. -/
theorem roundToPrecision_significand (p : Nat) (hp : 1 ≤ p) (q : ℚ) (hq : q ≠ 0) :
    ∃ m : Int, (2 : Int) ^ (p - 1) ≤ m ∧ m ≤ 2 ^ p ∧
      abs (roundToPrecision p q) = (m : ℚ) * pow2 (binaryExponent |q| - ((p : Int) - 1)) := by
  have ha : 0 < |q| := abs_pos.2 hq
  obtain ⟨b1, b2⟩ := binaryExponent_spec |q| ha
  have hu := pow2_pos (binaryExponent |q| - ((p : Int) - 1))
  set e := binaryExponent |q| with he
  set u := pow2 (e - ((p : Int) - 1)) with hu_def
  set m := roundNearestEven (|q| / u) with hm
  have hue : u * (2 : ℚ) ^ (p - 1) = pow2 e := by
    rw [hu_def, pow2_eq_zpow, pow2_eq_zpow, ← zpow_natCast (2 : ℚ) (p - 1),
      ← zpow_add₀ (by norm_num)]
    congr 1
    have : ((p - 1 : Nat) : Int) = (p : Int) - 1 := by omega
    rw [this]; ring
  have hue1 : u * (2 : ℚ) ^ p = pow2 (e + 1) := by
    rw [hu_def, pow2_eq_zpow, pow2_eq_zpow, ← zpow_natCast (2 : ℚ) p,
      ← zpow_add₀ (by norm_num)]
    congr 1; ring
  have x1 : ((2 : Int) ^ (p - 1) : Int) ≤ ⌊|q| / u⌋ := by
    rw [Int.le_floor, le_div_iff₀ hu]
    push_cast
    rw [mul_comm, hue]; exact b1
  have x2 : ⌊|q| / u⌋ < ((2 : Int) ^ p : Int) := by
    rw [Int.floor_lt, div_lt_iff₀ hu]
    push_cast
    rw [mul_comm, hue1]; exact b2
  obtain ⟨r1, r2⟩ := roundNearestEven_bounds (|q| / u)
  have hm0 : (0 : ℚ) ≤ (m : ℚ) := by
    have : (0 : Int) ≤ m := le_trans (by positivity) (le_trans x1 r1)
    exact_mod_cast this
  refine ⟨m, le_trans x1 r1, by omega, ?_⟩
  unfold roundToPrecision
  rw [if_neg hq]
  simp only [← he, ← hu_def, ← hm]
  split_ifs
  · rw [abs_neg, abs_of_nonneg (mul_nonneg hm0 hu.le)]
  · rw [abs_of_nonneg (mul_nonneg hm0 hu.le)]

/-- Values of the rounding functions: the `double` nearest 0.1 and 0.3, the `double` products
`0.1 * 3` and `0.1 * 10`, the `float` nearest the `double` 0.2, 0.4 and 0.02, and ties going to the
even significand at three significant bits. -/
theorem roundToPrecision_examples :
    toDouble (1 / 10) = 3602879701896397 / 36028797018963968 ∧
    toDouble (3 / 10) = 5404319552844595 / 18014398509481984 ∧
    toDouble (toDouble (1 / 10) * 3) = 5404319552844596 / 18014398509481984 ∧
    toDouble (toDouble (1 / 10) * 10) = 1 ∧
    toDouble (-(1 / 10)) = -toDouble (1 / 10) ∧
    toDouble (toDouble (1 / 10)) = toDouble (1 / 10) ∧
    toDouble (3 / 4) = 3 / 4 ∧
    toFloat32 (toDouble (1 / 5)) = 13421773 / 67108864 ∧
    toFloat32 (toDouble (2 / 5)) = 13421773 / 33554432 ∧
    toFloat32 (toDouble (1 / 50)) = 5368709 / 268435456 ∧
    roundToPrecision 3 (9 / 8) = 1 ∧ roundToPrecision 3 (11 / 8) = 3 / 2 ∧
    roundToPrecision 3 (15 / 8) = 2 := by
  decide!

/-! ### isGround -/

theorem shift_up (k : OcTreeKey) (i : Int) : (k.shift i).up = k.shift (i + 1) := by
  simp [OcTreeKey.shift, OcTreeKey.up, add_assoc]

theorem shift_down (k : OcTreeKey) (i : Int) : (k.shift i).down = k.shift (i - 1) := by
  simp [OcTreeKey.shift, OcTreeKey.down]; ring

theorem shift_zero (k : OcTreeKey) : k.shift 0 = k := by
  simp [OcTreeKey.shift]

theorem isGroundColumn_iff (t : OcTree) (u : Bool) (steps : Nat) (key1 : OcTreeKey) :
    isGroundColumn t u steps key1 = true ↔
      ∀ i : Nat, 1 ≤ i → i ≤ steps → nonOccupied u (t.search (key1.shift i)) := by
  induction steps generalizing key1 with
  | zero =>
    simp only [isGroundColumn, true_iff]
    intro i h1 h2; omega
  | succ n ih =>
    have hstep : ∀ k : OcTreeKey,
        (∀ i : Nat, 1 ≤ i → i ≤ n → nonOccupied u (t.search (k.up.shift i))) ↔
        (∀ i : Nat, 2 ≤ i → i ≤ n + 1 → nonOccupied u (t.search (k.shift i))) := by
      intro k
      have hk : ∀ j : Nat, k.up.shift (j : Int) = k.shift ((j + 1 : Nat) : Int) := by
        intro j
        simp [OcTreeKey.shift, OcTreeKey.up]; ring
      constructor
      · intro h i h2 hi
        obtain ⟨j, rfl⟩ : ∃ j, i = j + 1 := ⟨i - 1, by omega⟩
        rw [← hk]; exact h j (by omega) (by omega)
      · intro h i h1 hi
        rw [hk]; exact h (i + 1) (by omega) (by omega)
    have hone : key1.shift ((1 : Nat) : Int) = key1.up := by
      simp [OcTreeKey.shift, OcTreeKey.up]
    have hsplit : (∀ i : Nat, 1 ≤ i → i ≤ n + 1 → nonOccupied u (t.search (key1.shift i))) ↔
        nonOccupied u (t.search key1.up) ∧
        (∀ i : Nat, 2 ≤ i → i ≤ n + 1 → nonOccupied u (t.search (key1.shift i))) := by
      constructor
      · intro h
        exact ⟨hone ▸ h 1 (by omega) (by omega), fun i h2 hi => h i (by omega) hi⟩
      · rintro ⟨h1, h2⟩ i hi1 hi2
        rcases Nat.eq_or_lt_of_le hi1 with heq | hlt
        · subst heq; rw [hone]; exact h1
        · exact h2 i hlt hi2
    rw [hsplit, ← hstep key1, ← ih key1.up, isGroundColumn]
    cases hs : t.search key1.up with
    | none =>
      cases u <;> simp [nonOccupied]
    | some occ =>
      cases occ <;> simp [nonOccupied]

/-- A voxel with an occupied voxel directly above it is not ground as soon as the clearance
column has at least one voxel. -/
theorem isGround_false_of_occupied_above (P : Params) (t : OcTree) (k : OcTreeKey)
    (hsteps : 1 ≤ ⌈toDouble (P.robot_height / t.resolution)⌉)
    (habove : t.search (k.shift 1) = some true) : isGround P t k = false := by
  cases hgr : isGround P t k with
  | false => rfl
  | true =>
    unfold isGround at hgr
    cases hs : t.search k with
    | none => simp [hs] at hgr
    | some occ =>
      cases occ with
      | false => simp [hs] at hgr
      | true =>
        simp only [hs, Bool.not_true, Bool.false_eq_true, if_false] at hgr
        have h1 := (isGroundColumn_iff t _ _ k).1 hgr 1 (le_refl _) (by omega)
        have e : k.shift ((1 : Nat) : Int) = k.shift 1 := by simp
        rw [e, habove] at h1
        simp [nonOccupied] at h1

/-- C4 (ground column rule, amended): `isGround` holds for a key exactly when its voxel is
occupied and each of the `N` voxels directly above it is non-occupied, that is free, or unknown
while `treat_unknown_as_free` is set, where `N` is the ceiling of the quotient
`robot_height / resolution` rounded to `double`. -/
theorem isGround_iff_column_clear (P : Params) (t : OcTree) (k : OcTreeKey) :
    isGround P t k = true ↔
      t.search k = some true ∧
      ∀ i : Int, 1 ≤ i → i ≤ ⌈toDouble (P.robot_height / t.resolution)⌉ →
        nonOccupied P.treat_unknown_as_free (t.search (k.shift i)) := by
  unfold isGround
  cases hs : t.search k with
  | none => simp
  | some occ =>
    cases occ with
    | false => simp
    | true =>
      simp only [Bool.not_true, Bool.false_eq_true, if_false, true_and]
      rw [isGroundColumn_iff]
      constructor
      · intro h i h1 h2
        obtain ⟨j, rfl⟩ : ∃ j : Nat, i = (j : Int) := ⟨i.toNat, by omega⟩
        exact h j (by omega) (by omega)
      · intro h i h1 h2
        exact h i (by omega) (by omega)

/-! ### isObstacle -/

theorem searchLeaves_mem (k : OcTreeKey) (b : Bool) (l : List (OcTreeKey × Bool))
    (h : searchLeaves k l = some b) : (k, b) ∈ l := by
  induction l with
  | nil => simp [searchLeaves] at h
  | cons hd tl ih =>
    obtain ⟨k1, occ⟩ := hd
    by_cases hk : k1 = k
    · simp [searchLeaves, hk] at h
      simp [hk, h]
    · simp [searchLeaves, hk] at h
      exact List.mem_cons_of_mem _ (ih h)

theorem shift_shift (k : OcTreeKey) (i j : Int) : (k.shift i).shift j = k.shift (i + j) := by
  simp [OcTreeKey.shift, add_assoc]

theorem shift_injective (k : OcTreeKey) (i j : Int) (h : k.shift i = k.shift j) : i = j := by
  simp [OcTreeKey.shift] at h
  exact h

theorem up_eq_shift (k : OcTreeKey) : k.up = k.shift 1 := rfl

theorem down_eq_shift (k : OcTreeKey) : k.down = k.shift (-1) := rfl

theorem lookUp_eq_scan (t : OcTree) (f : Nat) (k : OcTreeKey) (n : Nat) :
    lookUp t f k n = scanColumn t 1 f k n := by
  induction f generalizing k n with
  | zero => rfl
  | succ f ih =>
    simp only [lookUp, scanColumn, up_eq_shift, ih]

theorem lookDown_eq_scan (t : OcTree) (f : Nat) (k : OcTreeKey) (n : Nat) :
    lookDown t f k n = scanColumn t (-1) f k n := by
  induction f generalizing k n with
  | zero => rfl
  | succ f ih =>
    simp only [lookDown, scanColumn, down_eq_shift, ih]

/-- A column of `f` pairwise distinct occupied voxels needs `f` leaves. -/
theorem occupied_column_le_leaves (t : OcTree) (k : OcTreeKey) (s : Int) (f : Nat)
    (h : ∀ i : Nat, 1 ≤ i → i ≤ f → t.search (k.shift (s * i)) = some true)
    (hs : s ≠ 0) : f ≤ t.leaves.length := by
  let L : List OcTreeKey := (List.range f).map (fun i => k.shift (s * ((i + 1 : Nat) : Int)))
  have hnd : L.Nodup := by
    refine (List.nodup_range f).map ?_
    intro i j hij
    have := shift_injective _ _ _ hij
    have h2 : ((i + 1 : Nat) : Int) = ((j + 1 : Nat) : Int) := mul_left_cancel₀ hs this
    omega
  have hsub : L ⊆ t.leaves.map Prod.fst := by
    intro x hx
    simp only [L, List.mem_map, List.mem_range] at hx
    obtain ⟨i, hi, rfl⟩ := hx
    have := searchLeaves_mem _ _ _ (h (i + 1) (by omega) (by omega))
    exact List.mem_map.2 ⟨_, this, rfl⟩
  have := (List.subperm_of_subset hnd hsub).length_le
  simpa [L] using this

theorem shift_step (k : OcTreeKey) (s : Int) (i : Nat) :
    (k.shift s).shift (s * (i : Int)) = k.shift (s * ((i + 1 : Nat) : Int)) := by
  rw [shift_shift]; congr 1; push_cast; ring

theorem scanColumn_none (t : OcTree) (s : Int) (f : Nat) (k : OcTreeKey) (n : Nat)
    (h : scanColumn t s f k n = none) :
    ∀ i : Nat, 1 ≤ i → i ≤ f → t.search (k.shift (s * i)) = some true := by
  induction f generalizing k n with
  | zero => intro i h1 h2; omega
  | succ f ih =>
    rw [scanColumn] at h
    cases hs : t.search (k.shift s) with
    | none => simp [hs] at h
    | some occ =>
      cases occ with
      | false => simp [hs] at h
      | true =>
        simp [hs] at h
        intro i h1 h2
        obtain ⟨j, rfl⟩ : ∃ j, i = j + 1 := ⟨i - 1, by omega⟩
        rcases Nat.eq_zero_or_pos j with h0 | hpos
        · subst h0; simpa using hs
        · rw [← shift_step]; exact ih (k.shift s) (n + 1) h j hpos (by omega)

theorem scanColumn_some (t : OcTree) (s : Int) (f : Nat) (k : OcTreeKey) (n m : Nat)
    (h : scanColumn t s f k n = some m) : ∃ a, m = n + a ∧ ColumnRun t k s a := by
  induction f generalizing k n with
  | zero => simp [scanColumn] at h
  | succ f ih =>
    rw [scanColumn] at h
    have stop : t.search (k.shift s) ≠ some true → n = m → ∃ a, m = n + a ∧ ColumnRun t k s a := by
      intro hne hnm
      refine ⟨0, by omega, ?_, by simpa using hne⟩
      intro i h1 h2; omega
    cases hs : t.search (k.shift s) with
    | none =>
      simp [hs] at h
      exact stop (by simp [hs]) h
    | some occ =>
      cases occ with
      | false =>
        simp [hs] at h
        exact stop (by simp [hs]) h
      | true =>
        simp [hs] at h
        obtain ⟨a, ha, hrun, hend⟩ := ih (k.shift s) (n + 1) h
        refine ⟨a + 1, by omega, ?_, ?_⟩
        · intro i h1 h2
          obtain ⟨j, rfl⟩ : ∃ j, i = j + 1 := ⟨i - 1, by omega⟩
          rcases Nat.eq_zero_or_pos j with h0 | hpos
          · subst h0; simpa using hs
          · rw [← shift_step]; exact hrun j hpos (by omega)
        · rw [← shift_step]; exact hend

theorem scanColumn_total (t : OcTree) (s : Int) (hs : s ≠ 0) (k : OcTreeKey) (n : Nat) :
    ∃ a, scanColumn t s (t.leaves.length + 1) k n = some (n + a) ∧ ColumnRun t k s a := by
  cases h : scanColumn t s (t.leaves.length + 1) k n with
  | none =>
    have := occupied_column_le_leaves t k s _ (scanColumn_none t s _ k n h) hs
    omega
  | some m =>
    obtain ⟨a, rfl, hrun⟩ := scanColumn_some t s _ k n m h
    exact ⟨a, rfl, hrun⟩

theorem columnRun_unique (t : OcTree) (k : OcTreeKey) (s : Int) (a b : Nat)
    (ha : ColumnRun t k s a) (hb : ColumnRun t k s b) : a = b := by
  rcases Nat.lt_trichotomy a b with h | h | h
  · exact absurd (hb.1 (a + 1) (by omega) (by omega)) ha.2
  · exact h
  · exact absurd (ha.1 (b + 1) (by omega) (by omega)) hb.2

/-- Moving `j` voxels along a run shortens the run ahead by `j`. -/
theorem columnRun_ahead (t : OcTree) (k : OcTreeKey) (s : Int) (a j : Nat) (hj : j ≤ a)
    (h : ColumnRun t k s a) : ColumnRun t (k.shift (s * j)) s (a - j) := by
  have e : ∀ i : Nat, (k.shift (s * j)).shift (s * (i : Int)) = k.shift (s * ((j + i : Nat) : Int)) := by
    intro i; rw [shift_shift]; congr 1; push_cast; ring
  refine ⟨?_, ?_⟩
  · intro i h1 h2
    rw [e]; exact h.1 (j + i) (by omega) (by omega)
  · rw [e]
    have : j + (a - j + 1) = a + 1 := by omega
    rw [this]; exact h.2

/-- Moving `j` voxels along a run lengthens the run behind by `j`. -/
theorem columnRun_behind (t : OcTree) (k : OcTreeKey) (s : Int) (a b j : Nat) (hj : j ≤ a)
    (hk : t.search k = some true)
    (ha : ColumnRun t k s a) (hb : ColumnRun t k (-s) b) :
    ColumnRun t (k.shift (s * j)) (-s) (b + j) := by
  have e : ∀ i : Nat, (k.shift (s * j)).shift (-s * (i : Int)) = k.shift (s * ((j : Int) - i)) := by
    intro i; rw [shift_shift]; congr 1; ring
  refine ⟨?_, ?_⟩
  · intro i h1 h2
    rw [e]
    rcases Nat.lt_trichotomy i j with hlt | heq | hgt
    · have : s * ((j : Int) - i) = s * ((j - i : Nat) : Int) := by
        congr 1; omega
      rw [this]; exact ha.1 (j - i) (by omega) (by omega)
    · subst heq; simpa [shift_zero] using hk
    · have : s * ((j : Int) - i) = -s * ((i - j : Nat) : Int) := by
        have : ((i - j : Nat) : Int) = (i : Int) - j := by omega
        rw [this]; ring
      rw [this]; exact hb.1 (i - j) (by omega) (by omega)
  · rw [e]
    have : s * ((j : Int) - ((b + j + 1 : Nat) : Int)) = -s * ((b + 1 : Nat) : Int) := by
      push_cast; ring
    rw [this]; exact hb.2

theorem countVoxels_of_runs (t : OcTree) (k : OcTreeKey) (a b : Nat)
    (ha : ColumnRun t k 1 a) (hb : ColumnRun t k (-1) b) :
    countVoxels t k = some (a + b + 1) := by
  unfold countVoxels
  obtain ⟨a1, h1, hr1⟩ := scanColumn_total t 1 (by decide) k 1
  rw [lookUp_eq_scan, h1]
  obtain ⟨b1, h2, hr2⟩ := scanColumn_total t (-1) (by decide) k (1 + a1)
  simp only [lookDown_eq_scan, h2]
  have := columnRun_unique _ _ _ _ _ ha hr1
  have := columnRun_unique _ _ _ _ _ hb hr2
  subst_vars; congr 1; omega

theorem columnRuns_exist (t : OcTree) (k : OcTreeKey) :
    ∃ a b, ColumnRun t k 1 a ∧ ColumnRun t k (-1) b := by
  obtain ⟨a1, _, hr1⟩ := scanColumn_total t 1 (by decide) k 1
  obtain ⟨b1, _, hr2⟩ := scanColumn_total t (-1) (by decide) k 1
  exact ⟨a1, b1, hr1, hr2⟩

/-- Every voxel of the run through `k` has the same pair of total extent. -/
theorem countVoxels_along_run (t : OcTree) (k : OcTreeKey) (a b : Nat)
    (hk : t.search k = some true)
    (ha : ColumnRun t k 1 a) (hb : ColumnRun t k (-1) b) (i : Int)
    (h1 : -(b : Int) ≤ i) (h2 : i ≤ a) :
    countVoxels t (k.shift i) = some (a + b + 1) := by
  rcases lt_or_ge i 0 with hneg | hpos
  · obtain ⟨j, rfl⟩ : ∃ j : Nat, i = -1 * (j : Int) := ⟨(-i).toNat, by omega⟩
    have hj : j ≤ b := by omega
    have r1 := columnRun_ahead t k (-1) b j hj hb
    have r2 := columnRun_behind t k (-1) b a j hj hk hb (by simpa using ha)
    simp only [neg_neg] at r2
    rw [countVoxels_of_runs t _ _ _ r2 r1]
    congr 1; omega
  · obtain ⟨j, rfl⟩ : ∃ j : Nat, i = 1 * (j : Int) := ⟨i.toNat, by omega⟩
    have hj : j ≤ a := by omega
    have r1 := columnRun_ahead t k 1 a j hj ha
    have r2 := columnRun_behind t k 1 a b j hj hk ha hb
    rw [countVoxels_of_runs t _ _ _ r1 r2]
    congr 1; omega

theorem run_occupied (t : OcTree) (k : OcTreeKey) (a b : Nat)
    (hk : t.search k = some true)
    (ha : ColumnRun t k 1 a) (hb : ColumnRun t k (-1) b) (i : Int)
    (h1 : -(b : Int) ≤ i) (h2 : i ≤ a) : t.search (k.shift i) = some true := by
  rcases Int.lt_trichotomy i 0 with hneg | hz | hpos
  · obtain ⟨j, rfl⟩ : ∃ j : Nat, i = -1 * (j : Int) := ⟨(-i).toNat, by omega⟩
    exact hb.1 j (by omega) (by omega)
  · subst hz; simpa [shift_zero] using hk
  · obtain ⟨j, rfl⟩ : ∃ j : Nat, i = 1 * (j : Int) := ⟨i.toNat, by omega⟩
    exact ha.1 j (by omega) (by omega)

/-- C6 (isObstacle predicate, amended): for an occupied voxel `k` the count computed by
`isObstacle` is the length `a + b + 1` of the maximal run of occupied voxels of the column
through `k` (it extends `a` voxels up and `b` voxels down and the voxels beyond either end are
not occupied), the answer is `true` exactly when the product of resolution and count, rounded to
`double`, exceeds `max_superable_height` strictly, and every voxel of the run gets the same
answer. -/
theorem isObstacle_counts_run (P : Params) (t : OcTree) (k : OcTreeKey)
    (hk : t.search k = some true) :
    ∃ a b : Nat,
      (∀ i : Int, -(b : Int) ≤ i → i ≤ a → t.search (k.shift i) = some true) ∧
      t.search (k.shift ((a : Int) + 1)) ≠ some true ∧
      t.search (k.shift (-(b : Int) - 1)) ≠ some true ∧
      countVoxels t k = some (a + b + 1) ∧
      1 ≤ a + b + 1 ∧
      (isObstacle P t k = some true ↔
        toDouble (t.resolution * ((a + b + 1 : Nat) : ℚ)) > P.max_superable_height) ∧
      (isObstacle P t k = some false ↔
        ¬ toDouble (t.resolution * ((a + b + 1 : Nat) : ℚ)) > P.max_superable_height) ∧
      ∀ i : Int, -(b : Int) ≤ i → i ≤ a → isObstacle P t (k.shift i) = isObstacle P t k := by
  obtain ⟨a, b, ha, hb⟩ := columnRuns_exist t k
  have hc := countVoxels_of_runs t k a b ha hb
  refine ⟨a, b, run_occupied t k a b hk ha hb, ?_, ?_, hc, by omega, ?_, ?_, ?_⟩
  · have := ha.2
    simpa using this
  · have := hb.2
    have e : (-1 : Int) * ((b + 1 : Nat) : Int) = -(b : Int) - 1 := by push_cast; ring
    rwa [e] at this
  · simp only [isObstacle, hc, Option.some.injEq, decide_eq_true_eq]
  · simp only [isObstacle, hc, Option.some.injEq, decide_eq_false_iff_not]
  · intro i h1 h2
    simp only [isObstacle, hc, countVoxels_along_run t k a b hk ha hb i h1 h2]


/-! ### Inflation filter -/

/-- Swap-and-pop at position `i` keeps the first `i` points and leaves a rearrangement of the
points after position `i`. -/
theorem swapPop_spec {α : Type} (A B : List α) (x : α) :
    ∃ R, swapPop (A ++ x :: B) A.length = A ++ R ∧ R.Perm B := by
  rcases List.eq_nil_or_concat B with rfl | ⟨B1, b, hB⟩
  · refine ⟨[], ?_, List.Perm.refl _⟩
    have h1 : (A ++ [x]).getLast? = some x := by simp
    simp [swapPop, h1]
  · rw [List.concat_eq_append] at hB
    subst hB
    refine ⟨b :: B1, ?_, ?_⟩
    · have h0 : A ++ x :: (B1 ++ [b]) = (A ++ x :: B1) ++ [b] := by simp
      have h1 : (A ++ x :: (B1 ++ [b])).getLast? = some b := by
        rw [h0]; exact List.getLast?_concat _
      have h2 : (A ++ x :: (B1 ++ [b])).set A.length b = (A ++ b :: B1) ++ [b] := by
        simp
      simp only [swapPop, h1, h2, List.dropLast_concat]
    · exact (List.perm_append_singleton b B1).symm

theorem filterLoop_spec {α : Type} (near : α → Bool) (fuel : Nat) (A rest : List α)
    (hf : rest.length ≤ fuel) :
    ∃ g, filterLoop near fuel A.length (A ++ rest) = some g ∧
      g.Perm (A ++ rest.filter (fun p => !near p)) := by
  induction fuel generalizing A rest with
  | zero =>
    have : rest = [] := List.length_eq_zero.1 (by omega)
    subst this
    exact ⟨A, by simp [filterLoop], by simp⟩
  | succ fuel ih =>
    cases rest with
    | nil => exact ⟨A, by simp [filterLoop], by simp⟩
    | cons x B =>
      have hlt : A.length < (A ++ x :: B).length := by simp
      have hget : (A ++ x :: B).get ⟨A.length, hlt⟩ = x :=
        List.getElem_of_append rfl rfl
      rw [filterLoop, dif_pos hlt, hget]
      by_cases hn : near x = true
      · rw [if_pos hn]
        obtain ⟨R, hR, hperm⟩ := swapPop_spec A B x
        rw [hR]
        have hlen : R.length ≤ fuel := by
          rw [hperm.length_eq]; simpa using hf
        obtain ⟨g, hg, hgp⟩ := ih A R hlen
        refine ⟨g, hg, hgp.trans ?_⟩
        rw [List.perm_append_left_iff]
        simpa [List.filter_cons, hn] using hperm.filter _
      · rw [if_neg hn]
        have hlen : B.length ≤ fuel := by simpa using hf
        obtain ⟨g, hg, hgp⟩ := ih (A ++ [x]) B hlen
        refine ⟨g, by simpa using hg, ?_⟩
        simpa [List.filter_cons, hn] using hgp

/-- The inflation filter returns a rearrangement of the ground points that are not near an
obstacle. -/
theorem filterInflatedRegionFromGround_perm (P : Params) (obstacles_pcl : List PointXYZ)
    (ground_pcl : List PointXYZI) :
    ∃ g, filterInflatedRegionFromGround P obstacles_pcl ground_pcl = some g ∧
      g.Perm (ground_pcl.filter (fun p => !isNearObstacle P obstacles_pcl p.pos)) := by
  have := filterLoop_spec (fun p => isNearObstacle P obstacles_pcl p.pos) ground_pcl.length []
    ground_pcl (le_refl _)
  simpa [filterInflatedRegionFromGround] using this

theorem countVoxels_total (t : OcTree) (k : OcTreeKey) :
    ∃ a b, ColumnRun t k 1 a ∧ ColumnRun t k (-1) b ∧ countVoxels t k = some (a + b + 1) := by
  obtain ⟨a, b, ha, hb⟩ := columnRuns_exist t k
  exact ⟨a, b, ha, hb, countVoxels_of_runs t k a b ha hb⟩

theorem isObstacle_total (P : Params) (t : OcTree) (k : OcTreeKey) :
    ∃ r, isObstacle P t k = some r := by
  obtain ⟨a, b, _, _, hc⟩ := countVoxels_total t k
  simp [isObstacle, hc]

/-- The leaf loop terminates; it appends a ground point for exactly the occupied leaves that
`isGround` accepts and an obstacle point for exactly the occupied leaves that `isGround` rejects
and `isObstacle` accepts. -/
theorem classifyLeaves_spec (P : Params) (t : OcTree) (l : List (OcTreeKey × Bool))
    (g : List PointXYZI) (o : List PointXYZ) :
    ∃ g1 o1, classifyLeaves P t l (g, o) = some (g ++ g1, o ++ o1) ∧
      (∀ p, p ∈ g1 ↔ ∃ k, (k, true) ∈ l ∧ isGround P t k = true ∧ p = groundPoint t k) ∧
      (∀ q, q ∈ o1 ↔ ∃ k, (k, true) ∈ l ∧ isGround P t k = false ∧
        isObstacle P t k = some true ∧ q = obstaclePoint t k) := by
  induction l generalizing g o with
  | nil => exact ⟨[], [], by simp [classifyLeaves], by simp, by simp⟩
  | cons hd tl ih =>
    obtain ⟨key, occ⟩ := hd
    cases occ with
    | false =>
      obtain ⟨g1, o1, h, hg, ho⟩ := ih g o
      refine ⟨g1, o1, by simpa [classifyLeaves] using h, ?_, ?_⟩
      · intro p; rw [hg]; simp
      · intro q; rw [ho]; simp
    | true =>
      by_cases hgr : isGround P t key = true
      · obtain ⟨g1, o1, h, hg, ho⟩ := ih (g ++ [groundPoint t key]) o
        refine ⟨groundPoint t key :: g1, o1, by simpa [classifyLeaves, hgr] using h, ?_, ?_⟩
        · intro p
          rw [List.mem_cons, hg]
          constructor
          · rintro (rfl | ⟨k, hk, h1, h2⟩)
            · exact ⟨key, by simp, hgr, rfl⟩
            · exact ⟨k, by simp [hk], h1, h2⟩
          · rintro ⟨k, hk, h1, h2⟩
            simp only [List.mem_cons, Prod.mk.injEq, and_true] at hk
            rcases hk with rfl | hk
            · exact Or.inl h2
            · exact Or.inr ⟨k, hk, h1, h2⟩
        · intro q
          rw [ho]
          constructor
          · rintro ⟨k, hk, h1, h2⟩
            exact ⟨k, by simp [hk], h1, h2⟩
          · rintro ⟨k, hk, h1, h2⟩
            simp only [List.mem_cons, Prod.mk.injEq, and_true] at hk
            rcases hk with rfl | hk
            · rw [h1] at hgr; exact absurd hgr (by simp)
            · exact ⟨k, hk, h1, h2⟩
      · have hgf : isGround P t key = false := by simpa using hgr
        obtain ⟨r, hr⟩ := isObstacle_total P t key
        cases r with
        | false =>
          obtain ⟨g1, o1, h, hg, ho⟩ := ih g o
          refine ⟨g1, o1, by simpa [classifyLeaves, hgf, hr] using h, ?_, ?_⟩
          · intro p
            rw [hg]
            constructor
            · rintro ⟨k, hk, h1, h2⟩
              exact ⟨k, by simp [hk], h1, h2⟩
            · rintro ⟨k, hk, h1, h2⟩
              simp only [List.mem_cons, Prod.mk.injEq, and_true] at hk
              rcases hk with rfl | hk
              · rw [h1] at hgf; exact absurd hgf (by simp)
              · exact ⟨k, hk, h1, h2⟩
          · intro q
            rw [ho]
            constructor
            · rintro ⟨k, hk, h1, h2⟩
              exact ⟨k, by simp [hk], h1, h2⟩
            · rintro ⟨k, hk, h1, h2, h3⟩
              simp only [List.mem_cons, Prod.mk.injEq, and_true] at hk
              rcases hk with rfl | hk
              · rw [hr] at h2; exact absurd h2 (by simp)
              · exact ⟨k, hk, h1, h2, h3⟩
        | true =>
          obtain ⟨g1, o1, h, hg, ho⟩ := ih g (o ++ [obstaclePoint t key])
          refine ⟨g1, obstaclePoint t key :: o1, by simpa [classifyLeaves, hgf, hr] using h,
            ?_, ?_⟩
          · intro p
            rw [hg]
            constructor
            · rintro ⟨k, hk, h1, h2⟩
              exact ⟨k, by simp [hk], h1, h2⟩
            · rintro ⟨k, hk, h1, h2⟩
              simp only [List.mem_cons, Prod.mk.injEq, and_true] at hk
              rcases hk with rfl | hk
              · rw [h1] at hgf; exact absurd hgf (by simp)
              · exact ⟨k, hk, h1, h2⟩
          · intro q
            rw [List.mem_cons, ho]
            constructor
            · rintro (rfl | ⟨k, hk, h1, h2, h3⟩)
              · exact ⟨key, by simp, hgf, hr, rfl⟩
              · exact ⟨k, by simp [hk], h1, h2, h3⟩
            · rintro ⟨k, hk, h1, h2, h3⟩
              simp only [List.mem_cons, Prod.mk.injEq, and_true] at hk
              rcases hk with rfl | hk
              · exact Or.inl h3
              · exact Or.inr ⟨k, hk, h1, h2, h3⟩

/-- The clouds left by `computeGround`: the obstacle cloud of the leaf loop, and the ground
cloud of the leaf loop with the points near an obstacle removed. -/
theorem computeGround_spec (P : Params) (t : OcTree) :
    ∃ g0 g o, classifyLeaves P t t.leaves ([], []) = some (g0, o) ∧
      computeGround P t = some (g, o) ∧
      (∀ p, p ∈ g → p ∈ g0) ∧
      (∀ p, p ∈ g0 ↔ ∃ k, (k, true) ∈ t.leaves ∧ isGround P t k = true ∧ p = groundPoint t k) ∧
      (∀ q, q ∈ o ↔ ∃ k, (k, true) ∈ t.leaves ∧ isGround P t k = false ∧
        isObstacle P t k = some true ∧ q = obstaclePoint t k) := by
  obtain ⟨g0, o, h, hg, ho⟩ := classifyLeaves_spec P t t.leaves [] []
  simp only [List.nil_append] at h
  obtain ⟨g, hf, hperm⟩ := filterInflatedRegionFromGround_perm P o g0
  refine ⟨g0, g, o, h, by simp only [computeGround, h, hf], ?_, hg, ho⟩
  intro p hp
  exact (List.mem_filter.1 (hperm.subset hp)).1

theorem obstaclePoint_injective (t : OcTree) (hinj : Function.Injective t.keyToCoord)
    (k1 k2 : OcTreeKey) (h : obstaclePoint t k1 = obstaclePoint t k2) : k1 = k2 := by
  apply hinj
  have e : ∀ k, obstaclePoint t k = t.keyToCoord k := fun k => rfl
  rw [← e, ← e]; exact h

theorem groundPoint_pos (t : OcTree) (k : OcTreeKey) :
    (groundPoint t k).pos = obstaclePoint t k := rfl

/-- C7 (classification disjointness): when distinct voxels have distinct centres,
`computeGround` terminates and no voxel has its point both in the ground cloud and in the
obstacle cloud, neither in the clouds built by the leaf loop (before the inflation filter) nor in
the clouds left after the filter; the positions of the two clouds are disjoint. -/
theorem computeGround_disjoint (P : Params) (t : OcTree)
    (hinj : Function.Injective t.keyToCoord) :
    ∃ g0 g o, classifyLeaves P t t.leaves ([], []) = some (g0, o) ∧
      computeGround P t = some (g, o) ∧
      (∀ k, ¬ (groundPoint t k ∈ g0 ∧ obstaclePoint t k ∈ o)) ∧
      (∀ k, ¬ (groundPoint t k ∈ g ∧ obstaclePoint t k ∈ o)) ∧
      (∀ p ∈ g0, p.pos ∉ o) ∧ (∀ p ∈ g, p.pos ∉ o) := by
  obtain ⟨g0, g, o, h0, h1, hsub, hg, ho⟩ := computeGround_spec P t
  have key : ∀ p ∈ g0, p.pos ∉ o := by
    intro p hp hq
    obtain ⟨k1, _, hk1, rfl⟩ := (hg p).1 hp
    obtain ⟨k2, _, hk2, _, he⟩ := (ho _).1 hq
    rw [groundPoint_pos] at he
    have := obstaclePoint_injective t hinj _ _ he
    subst this
    rw [hk1] at hk2; exact absurd hk2 (by simp)
  refine ⟨g0, g, o, h0, h1, ?_, ?_, key, fun p hp => key p (hsub p hp)⟩
  · rintro k ⟨hk1, hk2⟩
    exact key _ hk1 (by simpa [groundPoint_pos] using hk2)
  · rintro k ⟨hk1, hk2⟩
    exact key _ (hsub _ hk1) (by simpa [groundPoint_pos] using hk2)

/-- The voxels of a stack of `n` occupied voxels on `base`, bounded by non-occupied voxels, all
count `n` voxels. -/
theorem countVoxels_stack (t : OcTree) (base : OcTreeKey) (n : Nat) (hn : 1 ≤ n)
    (hocc : ∀ i : Nat, i < n → t.search (base.shift i) = some true)
    (hbelow : t.search (base.shift (-1)) ≠ some true)
    (habove : t.search (base.shift n) ≠ some true) (i : Nat) (hi : i < n) :
    countVoxels t (base.shift i) = some n := by
  have hb0 : t.search base = some true := by simpa [shift_zero] using hocc 0 (by omega)
  have ha : ColumnRun t base 1 (n - 1) := by
    refine ⟨?_, ?_⟩
    · intro j h1 h2
      simpa using hocc j (by omega)
    · have : ((n - 1 + 1 : Nat) : Int) = (n : Int) := by omega
      rw [this]; simpa using habove
  have hb : ColumnRun t base (-1) 0 := by
    refine ⟨?_, ?_⟩
    · intro j h1 h2; omega
    · simpa using hbelow
  have := countVoxels_along_run t base (n - 1) 0 hb0 ha hb i (by simp) (by omega)
  rw [this]; congr 1; omega

/-- C5 (obstacle height rule, amended): for a stack of `n` contiguous occupied voxels on `base`,
bounded above and below by non-occupied voxels, with `H` the product `resolution * n` rounded to
`double`, `computeGround` puts the point of a voxel of the stack in the obstacle cloud exactly
when `isGround` rejects the voxel and `H > max_superable_height`; when the clearance column,
of `ceil` of the rounded quotient `robot_height / resolution` voxels, has at least one voxel this
covers every voxel below the top of the stack; and for `H ≤ max_superable_height`, in particular
for `H = max_superable_height`, no voxel of the stack is put in the obstacle cloud. -/
theorem computeGround_obstacle_stack (P : Params) (t : OcTree)
    (hinj : Function.Injective t.keyToCoord) (base : OcTreeKey) (n : Nat) (hn : 1 ≤ n)
    (hocc : ∀ i : Nat, i < n → t.search (base.shift i) = some true)
    (hbelow : t.search (base.shift (-1)) ≠ some true)
    (habove : t.search (base.shift n) ≠ some true) :
    ∃ g o, computeGround P t = some (g, o) ∧
      (∀ i : Nat, i < n →
        (obstaclePoint t (base.shift i) ∈ o ↔
          isGround P t (base.shift i) = false ∧
            toDouble (t.resolution * (n : ℚ)) > P.max_superable_height)) ∧
      (1 ≤ ⌈toDouble (P.robot_height / t.resolution)⌉ → ∀ i : Nat, i + 1 < n →
        (obstaclePoint t (base.shift i) ∈ o ↔
          toDouble (t.resolution * (n : ℚ)) > P.max_superable_height)) ∧
      (toDouble (t.resolution * (n : ℚ)) ≤ P.max_superable_height →
        ∀ i : Nat, i < n → obstaclePoint t (base.shift i) ∉ o) ∧
      (toDouble (t.resolution * (n : ℚ)) = P.max_superable_height →
        ∀ i : Nat, i < n → obstaclePoint t (base.shift i) ∉ o) := by
  obtain ⟨g0, g, o, _, h1, _, _, ho⟩ := computeGround_spec P t
  have hobs : ∀ i : Nat, i < n → (isObstacle P t (base.shift i) = some true ↔
      toDouble (t.resolution * (n : ℚ)) > P.max_superable_height) := by
    intro i hi
    simp only [isObstacle, countVoxels_stack t base n hn hocc hbelow habove i hi,
      Option.some.injEq, decide_eq_true_eq]
  have main : ∀ i : Nat, i < n →
      (obstaclePoint t (base.shift i) ∈ o ↔
        isGround P t (base.shift i) = false ∧
          toDouble (t.resolution * (n : ℚ)) > P.max_superable_height) := by
    intro i hi
    rw [ho]
    constructor
    · rintro ⟨k, _, hk1, hk2, he⟩
      have := obstaclePoint_injective t hinj _ _ he
      subst this
      exact ⟨hk1, (hobs i hi).1 hk2⟩
    · rintro ⟨hk1, hk2⟩
      exact ⟨_, searchLeaves_mem _ _ _ (hocc i hi), hk1, (hobs i hi).2 hk2, rfl⟩
  have hle : toDouble (t.resolution * (n : ℚ)) ≤ P.max_superable_height →
      ∀ i : Nat, i < n → obstaclePoint t (base.shift i) ∉ o := by
    intro hle i hi hmem
    exact absurd ((main i hi).1 hmem).2 (not_lt.2 hle)
  refine ⟨g, o, h1, main, ?_, hle, fun heq => hle (le_of_eq heq)⟩
  intro hsteps i hi
  rw [main i (by omega)]
  have hng : isGround P t (base.shift i) = false := by
    apply isGround_false_of_occupied_above P t _ hsteps
    have hocc1 := hocc (i + 1) hi
    push_cast at hocc1
    rw [shift_shift]; exact hocc1
  simp [hng]

/-! ### generateTarget -/

theorem Intensity.lt_of_lt_of_not_lt (x b q : Intensity) (h1 : Intensity.lt x b = true)
    (h2 : Intensity.lt q b = false) : Intensity.lt x q = true := by
  cases x <;> cases b <;> cases q <;> simp_all [Intensity.lt]
  linarith

theorem Intensity.not_lt_of_lt (x q : Intensity) (h : Intensity.lt x q = true) :
    Intensity.lt q x = false := by
  cases x <;> cases q <;> simp_all [Intensity.lt]
  linarith

theorem Intensity.lt_irrefl (x : Intensity) : Intensity.lt x x = false := by
  cases x <;> simp [Intensity.lt]

theorem generateTargetLoop_spec (ground_pcl : List PointXYZI) (rest pre : List Nat)
    (pos i : Nat) (h : IsFirstMin ground_pcl pre pos i) :
    ∃ pos1 i1 : Nat, generateTargetLoop ground_pcl rest (i : Int) (valueAt ground_pcl i) = (i1 : Int) ∧
      IsFirstMin ground_pcl (pre ++ rest) pos1 i1 := by
  induction rest generalizing pre pos i with
  | nil => exact ⟨pos, i, rfl, by simpa using h⟩
  | cons x rest ih =>
    obtain ⟨hpos, hmin, hfirst⟩ := h
    have hposlt : pos < pre.length := by
      rcases Nat.lt_or_ge pos pre.length with hl | hl
      · exact hl
      · rw [List.get?_eq_none.2 hl] at hpos; exact absurd hpos (by simp)
    have hne : ¬ ((i : Int) = -1) := by omega
    have happ : pre ++ x :: rest = (pre ++ [x]) ++ rest := by simp
    have hget : ∀ q j, (pre ++ [x]).get? q = some j →
        (q < pre.length ∧ pre.get? q = some j) ∨ (q = pre.length ∧ j = x) := by
      intro q j hq
      rcases Nat.lt_trichotomy q pre.length with hl | he | hg
      · left
        rw [List.get?_eq_getElem?, List.getElem?_append_left hl, ← List.get?_eq_getElem?] at hq
        exact ⟨hl, hq⟩
      · right
        subst he
        simp at hq
        exact ⟨rfl, hq.symm⟩
      · rw [List.get?_eq_none.2 (by simp; omega)] at hq
        exact absurd hq (by simp)
    rw [generateTargetLoop]
    simp only [hne, false_or]
    have hv : (ground_pcl.get? x).bind PointXYZI.intensity = valueAt ground_pcl x := rfl
    rw [hv]
    by_cases hlt : Intensity.lt (valueAt ground_pcl x) (valueAt ground_pcl i) = true
    · rw [if_pos hlt, happ]
      apply ih (pre ++ [x]) pre.length x
      refine ⟨by simp, ?_, ?_⟩
      · intro q j hq
        rcases hget q j hq with ⟨_, hq1⟩ | ⟨_, rfl⟩
        · exact Intensity.not_lt_of_lt _ _
            (Intensity.lt_of_lt_of_not_lt _ _ _ hlt (hmin q j hq1))
        · exact Intensity.lt_irrefl _
      · intro q j hql hq
        rcases hget q j hq with ⟨_, hq1⟩ | ⟨he, _⟩
        · exact Intensity.lt_of_lt_of_not_lt _ _ _ hlt (hmin q j hq1)
        · omega
    · rw [if_neg hlt, happ]
      apply ih (pre ++ [x]) pos i
      refine ⟨by rw [List.get?_eq_getElem?, List.getElem?_append_left hposlt,
        ← List.get?_eq_getElem?]; exact hpos, ?_, ?_⟩
      · intro q j hq
        rcases hget q j hq with ⟨_, hq1⟩ | ⟨_, rfl⟩
        · exact hmin q j hq1
        · simpa using hlt
      · intro q j hql hq
        rcases hget q j hq with ⟨_, hq1⟩ | ⟨he, _⟩
        · exact hfirst q j hql hq1
        · omega

/-- The selection loop on the list of indices returned by the radius query. -/
theorem generateTargetLoop_first_min (ground_pcl : List PointXYZI) (pointIdx : List Nat) :
    (generateTargetLoop ground_pcl pointIdx (-1) none = -1 ↔ pointIdx = []) ∧
    (pointIdx ≠ [] → ∃ pos i : Nat, generateTargetLoop ground_pcl pointIdx (-1) none = (i : Int) ∧
      IsFirstMin ground_pcl pointIdx pos i) := by
  cases pointIdx with
  | nil => simp [generateTargetLoop]
  | cons x rest =>
    have h0 : IsFirstMin ground_pcl [x] 0 x := by
      refine ⟨rfl, ?_, ?_⟩
      · intro q j hq
        cases q with
        | zero =>
          simp at hq
          subst hq
          exact Intensity.lt_irrefl _
        | succ q => simp at hq
      · intro q j hq; omega
    obtain ⟨pos1, i1, h1, h2⟩ := generateTargetLoop_spec ground_pcl rest [x] 0 x h0
    have hstep : generateTargetLoop ground_pcl (x :: rest) (-1) none =
        generateTargetLoop ground_pcl rest (x : Int) (valueAt ground_pcl x) := by
      rw [generateTargetLoop]
      simp [valueAt]
    rw [hstep, h1]
    refine ⟨?_, fun _ => ⟨pos1, i1, rfl, by simpa using h2⟩⟩
    constructor
    · intro h; omega
    · intro h; exact absurd h (by simp)

/-- C10 (target selection picks the minimum): `generateTarget` returns `-1` exactly when the
radius query around the robot returns no index; otherwise it returns an index of the returned
list whose intensity no listed index undercuts, and every index listed before its position has a
strictly larger intensity (the first of equal minima is selected). -/
theorem generateTarget_first_min (P : Params) (idx : GroundIndex) (robot_position : PointXYZ)
    (ground_pcl : List PointXYZI) :
    (generateTarget P idx robot_position ground_pcl = -1 ↔
      idx.radiusSearch robot_position P.local_target_radius = []) ∧
    (idx.radiusSearch robot_position P.local_target_radius ≠ [] →
      ∃ pos i : Nat, generateTarget P idx robot_position ground_pcl = (i : Int) ∧
        (idx.radiusSearch robot_position P.local_target_radius).get? pos = some i ∧
        (∀ q j, (idx.radiusSearch robot_position P.local_target_radius).get? q = some j →
          Intensity.lt (valueAt ground_pcl j) (valueAt ground_pcl i) = false) ∧
        (∀ q j, q < pos →
          (idx.radiusSearch robot_position P.local_target_radius).get? q = some j →
          Intensity.lt (valueAt ground_pcl i) (valueAt ground_pcl j) = true)) :=
  generateTargetLoop_first_min ground_pcl _

/-! ### Wavefront -/

theorem intensityAt_set (I : List Intensity) (j v : Nat) (x : Intensity) (hj : j < I.length) :
    intensityAt (I.set j x) v = if v = j then x else intensityAt I v := by
  unfold intensityAt
  by_cases hv : v = j
  · subst hv
    simp [List.getD_eq_getElem?_getD, List.getElem?_set, hj]
  · simp [List.getD_eq_getElem?_getD, List.getElem?_set, hv, Ne.symm hv]

theorem intensityAt_lt_length (I : List Intensity) (v : Nat) (r : ℚ)
    (h : intensityAt I v = some r) : v < I.length := by
  rcases Nat.lt_or_ge v I.length with hl | hl
  · exact hl
  · simp [intensityAt, List.getD_eq_getElem?_getD, List.getElem?_eq_none hl] at h

theorem countInf_set (I : List Intensity) (j : Nat) (x : ℚ) (hj : j < I.length)
    (h : intensityAt I j = none) : countInf (I.set j (some x)) + 1 = countInf I := by
  induction I generalizing j with
  | nil => simp at hj
  | cons hd tl ih =>
    cases j with
    | zero =>
      simp [intensityAt] at h
      subst h
      simp [countInf]
    | succ j =>
      have h1 : intensityAt tl j = none := by simpa [intensityAt] using h
      have := ih j (by simpa using hj) h1
      cases hd with
      | none => simp [countInf]; omega
      | some y => simpa [countInf] using this

theorem countInf_le_length (I : List Intensity) : countInf I ≤ I.length := by
  induction I with
  | nil => simp [countInf]
  | cons hd tl ih => cases hd <;> simp [countInf] <;> omega

theorem countInf_lt_length (I : List Intensity) (v : Nat) (r : ℚ)
    (h : intensityAt I v = some r) : countInf I < I.length := by
  induction I generalizing v with
  | nil => simp [intensityAt] at h
  | cons hd tl ih =>
    cases v with
    | zero =>
      simp [intensityAt] at h
      subst h
      have := countInf_le_length tl
      simp [countInf]; omega
    | succ v =>
      have h1 : intensityAt tl v = some r := by simpa [intensityAt] using h
      have := ih v h1
      cases hd <;> simp [countInf] <;> omega

theorem InnerInv.skip {nbrs : Nat → List Nat} {s n i : Nat} {a : ℚ} {done : List Nat}
    {I : List Intensity} {q : List Nat} (h : InnerInv nbrs s n i a done I q) (j : Nat)
    (hj : isfinite (intensityAt I j) = true) : InnerInv nbrs s n i a (done ++ [j]) I q := by
  refine { h with handled := ?_ }
  intro v hv
  rcases List.mem_append.1 hv with hv | hv
  · exact h.handled v hv
  · have : v = j := by simpa using hv
    subst this
    cases hr : intensityAt I v with
    | none => simp [hr, isfinite] at hj
    | some r => exact ⟨r, rfl, h.bound v r hr⟩

theorem InnerInv.label {nbrs : Nat → List Nat} {s n i : Nat} {a : ℚ} {done : List Nat}
    {I : List Intensity} {q : List Nat} (h : InnerInv nbrs s n i a done I q) (j : Nat)
    (hj : intensityAt I j = none) (hnb : j ∈ nbrs i) (hjn : j < n) :
    InnerInv nbrs s n i a (done ++ [j]) (I.set j (addOne (intensityAt I i))) (q ++ [j]) := by
  have hjl : j < I.length := by rw [h.len]; exact hjn
  have hnew : addOne (intensityAt I i) = some (a + 1) := by simp [addOne, h.cur]
  rw [hnew]
  -- labels that exist are kept
  have keep : ∀ v r, intensityAt I v = some r → intensityAt (I.set j (some (a + 1))) v = some r := by
    intro v r hv
    rw [intensityAt_set _ _ _ _ hjl]
    have : v ≠ j := by rintro rfl; rw [hj] at hv; exact absurd hv (by simp)
    simp [this, hv]
  have old : ∀ v r, intensityAt (I.set j (some (a + 1))) v = some r → v ≠ j →
      intensityAt I v = some r := by
    intro v r hv hne
    rw [intensityAt_set _ _ _ _ hjl] at hv
    simpa [hne] using hv
  have atj : intensityAt (I.set j (some (a + 1))) j = some (a + 1) := by
    rw [intensityAt_set _ _ _ _ hjl]; simp
  refine ⟨by simp [h.len], keep _ _ h.seed, ?_, keep _ _ h.cur, ?_, ?_, ?_, ?_, ?_⟩
  · -- sound
    intro v r hv
    by_cases hvj : v = j
    · subst hvj
      rw [atj] at hv
      obtain ⟨k, hk, hw⟩ := h.sound i a h.cur
      refine ⟨k + 1, ?_, Walk.snoc hw hnb⟩
      have : r = a + 1 := by simpa using hv.symm
      rw [this, hk]; push_cast; ring
    · exact h.sound v r (old v r hv hvj)
  · -- queued
    intro x hx
    rcases List.mem_append.1 hx with hx | hx
    · obtain ⟨r, hr, har⟩ := h.queued x hx
      exact ⟨r, keep _ _ hr, har⟩
    · have : x = j := by simpa using hx
      subst this
      exact ⟨a + 1, atj, by linarith⟩
  · -- sorted
    rw [List.pairwise_append]
    refine ⟨?_, by simp, ?_⟩
    · refine h.sorted.imp_of_mem ?_
      intro x y hx hy hxy rx ry hrx hry
      obtain ⟨r1, hr1, _⟩ := h.queued x hx
      obtain ⟨r2, hr2, _⟩ := h.queued y hy
      have e1 := keep _ _ hr1
      have e2 := keep _ _ hr2
      rw [e1] at hrx; rw [e2] at hry
      have : r1 = rx := by simpa using hrx
      have : r2 = ry := by simpa using hry
      subst_vars
      exact hxy _ _ hr1 hr2
    · intro x hx y hy rx ry hrx hry
      have : y = j := by simpa using hy
      subst this
      rw [atj] at hry
      have hry1 : ry = a + 1 := by simpa using hry.symm
      obtain ⟨r1, hr1, _⟩ := h.queued x hx
      have e1 := keep _ _ hr1
      rw [e1] at hrx
      have : r1 = rx := by simpa using hrx
      subst this
      rw [hry1]; exact h.bound x r1 hr1
  · -- bound
    intro v r hv
    by_cases hvj : v = j
    · subst hvj
      rw [atj] at hv
      have : r = a + 1 := by simpa using hv.symm
      linarith
    · exact h.bound v r (old v r hv hvj)
  · -- closed
    intro u ru hu huq hui v hv
    have huj : u ≠ j := by
      rintro rfl
      exact huq (List.mem_append.2 (Or.inr (by simp)))
    have huq1 : u ∉ q := fun hm => huq (List.mem_append.2 (Or.inl hm))
    obtain ⟨rv, hrv, hle⟩ := h.closed u ru (old u ru hu huj) huq1 hui v hv
    exact ⟨rv, keep _ _ hrv, hle⟩
  · -- handled
    intro v hv
    rcases List.mem_append.1 hv with hv | hv
    · obtain ⟨rv, hrv, hle⟩ := h.handled v hv
      exact ⟨rv, keep _ _ hrv, hle⟩
    · have : v = j := by simpa using hv
      subst this
      exact ⟨a + 1, atj, le_refl _⟩

/-- The neighbour loop keeps its invariant and the potential `countInf + queue length`. -/
theorem labelNeighbours_inv (nbrs : Nat → List Nat) (s n i : Nat) (a : ℚ) (js : List Nat) :
    ∀ (done : List Nat) (I : List Intensity) (q : List Nat),
      InnerInv nbrs s n i a done I q → (∀ j ∈ js, j ∈ nbrs i) → (∀ j ∈ js, j < n) →
      InnerInv nbrs s n i a (done ++ js) (labelNeighbours i js (I, q)).1
        (labelNeighbours i js (I, q)).2 ∧
      countInf (labelNeighbours i js (I, q)).1 + (labelNeighbours i js (I, q)).2.length =
        countInf I + q.length ∧
      (∀ x ∈ q, x ∈ (labelNeighbours i js (I, q)).2) := by
  induction js with
  | nil =>
    intro done I q h _ _
    exact ⟨by simpa [labelNeighbours] using h, by simp [labelNeighbours], by simp [labelNeighbours]⟩
  | cons j rest ih =>
    intro done I q h hnb hlt
    have hnb1 : ∀ j ∈ rest, j ∈ nbrs i := fun x hx => hnb x (List.mem_cons_of_mem _ hx)
    have hlt1 : ∀ j ∈ rest, j < n := fun x hx => hlt x (List.mem_cons_of_mem _ hx)
    have happ : done ++ j :: rest = (done ++ [j]) ++ rest := by simp
    rw [labelNeighbours, happ]
    by_cases hf : isfinite (intensityAt I j) = true
    · rw [if_pos hf]
      exact ih _ _ _ (h.skip j hf) hnb1 hlt1
    · rw [if_neg hf]
      have hnone : intensityAt I j = none := by
        cases hr : intensityAt I j with
        | none => rfl
        | some r => simp [hr, isfinite] at hf
      have hjn : j < n := hlt j (List.mem_cons_self _ _)
      have hstep := h.label j hnone (hnb j (List.mem_cons_self _ _)) hjn
      obtain ⟨h1, h2, h3⟩ := ih _ _ _ hstep hnb1 hlt1
      refine ⟨h1, ?_, ?_⟩
      · rw [h2]
        have hnew : addOne (intensityAt I i) = some (a + 1) := by simp [addOne, h.cur]
        rw [hnew]
        have := countInf_set I j (a + 1) (by rw [h.len]; exact hjn) hnone
        simp only [List.length_append, List.length_singleton]
        omega
      · intro x hx
        exact h3 x (List.mem_append.2 (Or.inl hx))

theorem WaveInv.toInner {nbrs : Nat → List Nat} {s n i : Nat} {I : List Intensity}
    {rest : List Nat} (h : WaveInv nbrs s n I (i :: rest)) :
    ∃ a, InnerInv nbrs s n i a [] I rest := by
  obtain ⟨a, ha⟩ := h.queued i (List.mem_cons_self _ _)
  have hs := List.pairwise_cons.1 h.sorted
  refine ⟨a, h.len, h.seed, h.sound, ha, ?_, hs.2, ?_, ?_, by simp⟩
  · intro x hx
    obtain ⟨r, hr⟩ := h.queued x (List.mem_cons_of_mem _ hx)
    exact ⟨r, hr, hs.1 x hx a r ha hr⟩
  · intro v r hv
    exact h.bound i (List.mem_cons_self _ _) v a r ha hv
  · intro u ru hu huq hui v hv
    exact h.closed u ru hu (by simp [huq, hui]) v hv

theorem InnerInv.toWave {nbrs : Nat → List Nat} {s n i : Nat} {a : ℚ} {I : List Intensity}
    {q : List Nat} (h : InnerInv nbrs s n i a (nbrs i) I q) : WaveInv nbrs s n I q := by
  refine ⟨h.len, h.seed, h.sound, ?_, h.sorted, ?_, ?_⟩
  · intro x hx
    obtain ⟨r, hr, _⟩ := h.queued x hx
    exact ⟨r, hr⟩
  · intro x hx v rx rv hrx hrv
    obtain ⟨r, hr, har⟩ := h.queued x hx
    rw [hr] at hrx
    have : r = rx := by simpa using hrx
    subst this
    have := h.bound v rv hrv
    linarith
  · intro u ru hu huq v hv
    by_cases hui : u = i
    · subst hui
      rw [h.cur] at hu
      have : a = ru := by simpa using hu
      subst this
      exact h.handled v hv
    · exact h.closed u ru hu huq hui v hv

/-- With enough fuel the wavefront loop runs until the queue is empty, and the invariant holds
for the intensities it leaves. -/
theorem wavefront_inv (nbrs : Nat → List Nat) (s n : Nat)
    (hvalid : ∀ i j, j ∈ nbrs i → j < n) (fuel : Nat) :
    ∀ (I : List Intensity) (q : List Nat), WaveInv nbrs s n I q →
      countInf I + q.length ≤ fuel →
      ∃ D, wavefront nbrs fuel I q = some D ∧ WaveInv nbrs s n D [] := by
  induction fuel with
  | zero =>
    intro I q h hf
    have : q = [] := List.length_eq_zero.1 (by omega)
    subst this
    exact ⟨I, by simp [wavefront], h⟩
  | succ fuel ih =>
    intro I q h hf
    cases q with
    | nil => exact ⟨I, by simp [wavefront], h⟩
    | cons i rest =>
      obtain ⟨a, hin⟩ := h.toInner
      obtain ⟨h1, h2, _⟩ := labelNeighbours_inv nbrs s n i a (nbrs i) [] I rest hin
        (fun j hj => hj) (fun j hj => hvalid i j hj)
      rw [wavefront]
      have h1w : InnerInv nbrs s n i a (nbrs i) (labelNeighbours i (nbrs i) (I, rest)).1
          (labelNeighbours i (nbrs i) (I, rest)).2 := by simpa using h1
      apply ih _ _ h1w.toWave
      rw [h2]
      simp only [List.length_cons] at hf
      omega

theorem countInf_replicate_set (I : List Intensity) (s : Nat) (hs : s < I.length) :
    countInf (I.set s (some 0)) + 1 ≤ I.length := by
  have h1 : intensityAt (I.set s (some 0)) s = some 0 := by
    rw [intensityAt_set _ _ _ _ hs]; simp
  have := countInf_lt_length _ _ _ h1
  simpa using this

theorem WaveInv.init (nbrs : Nat → List Nat) (s : Nat) (I : List Intensity)
    (hs : s < I.length) (hinf : ∀ v, intensityAt I v = none) :
    WaveInv nbrs s I.length (I.set s (some 0)) [s] := by
  have hat : ∀ v r, intensityAt (I.set s (some 0)) v = some r → v = s ∧ r = 0 := by
    intro v r hv
    rw [intensityAt_set _ _ _ _ hs] at hv
    by_cases hvs : v = s
    · simp [hvs] at hv
      exact ⟨hvs, hv.symm⟩
    · simp [hvs, hinf v] at hv
  have hseed : intensityAt (I.set s (some 0)) s = some 0 := by
    rw [intensityAt_set _ _ _ _ hs]; simp
  refine ⟨by simp, hseed, ?_, ?_, by simp, ?_, ?_⟩
  · intro v r hv
    obtain ⟨rfl, rfl⟩ := hat v r hv
    exact ⟨0, by simp, Walk.nil⟩
  · intro x hx
    have : x = s := by simpa using hx
    subst this
    exact ⟨0, hseed⟩
  · intro x hx v rx rv hrx hrv
    obtain ⟨_, rfl⟩ := hat x rx hrx
    obtain ⟨_, rfl⟩ := hat v rv hrv
    norm_num
  · intro u ru hu huq
    obtain ⟨rfl, _⟩ := hat u ru hu
    simp at huq

/-- When the queue is empty every point that a walk from the seed reaches carries a label not
larger than the length of the walk. -/
theorem WaveInv.complete {nbrs : Nat → List Nat} {s n : Nat} {D : List Intensity}
    (h : WaveInv nbrs s n D []) (v k : Nat) (hw : Walk nbrs s v k) :
    ∃ r, intensityAt D v = some r ∧ r ≤ (k : ℚ) := by
  induction hw with
  | nil => exact ⟨0, h.seed, by simp⟩
  | snoc hw hv ih =>
    obtain ⟨ru, hru, hle⟩ := ih
    obtain ⟨rv, hrv, hle2⟩ := h.closed _ ru hru (by simp) _ hv
    exact ⟨rv, hrv, by push_cast; linarith⟩

/-- The intensities left by the wavefront from an all-infinite channel are the shortest-path
lengths from the seed. -/
theorem rawDistances_spec (nbrs : Nat → List Nat) (goal_idx : Nat) (I : List Intensity)
    (hinf : ∀ v, intensityAt I v = none) (hgoal : goal_idx < I.length)
    (hvalid : ∀ i j, j ∈ nbrs i → j < I.length) :
    ∃ D, rawDistances nbrs goal_idx I = some D ∧ D.length = I.length ∧
      (∀ v k : Nat, intensityAt D v = some (k : ℚ) ↔ ShortestPath nbrs goal_idx v k) ∧
      (∀ v, intensityAt D v = none ↔ ∀ k, ¬ Walk nbrs goal_idx v k) ∧
      (∀ v r, intensityAt D v = some r → ∃ k : Nat, r = (k : ℚ)) ∧
      (∀ v, intensityAt D v = some 0 ↔ v = goal_idx) := by
  obtain ⟨D, hD, hinv⟩ := wavefront_inv nbrs goal_idx I.length hvalid I.length _ _
    (WaveInv.init nbrs goal_idx I hgoal hinf)
    (by have := countInf_replicate_set I goal_idx hgoal; simpa using this)
  have hshort : ∀ v k : Nat, intensityAt D v = some (k : ℚ) → ShortestPath nbrs goal_idx v k := by
    intro v k hv
    obtain ⟨k0, hk0, hw⟩ := hinv.sound v _ hv
    have : k = k0 := by exact_mod_cast hk0
    subst this
    refine ⟨hw, ?_⟩
    intro k1 hw1
    obtain ⟨r, hr, hle⟩ := hinv.complete v k1 hw1
    rw [hv] at hr
    have : (k : ℚ) = r := by simpa using hr
    rw [← this] at hle
    exact_mod_cast hle
  refine ⟨D, hD, hinv.len, ?_, ?_, ?_, ?_⟩
  · intro v k
    refine ⟨hshort v k, ?_⟩
    rintro ⟨hw, hmin⟩
    obtain ⟨r, hr, _⟩ := hinv.complete v k hw
    obtain ⟨k0, hk0, hw0⟩ := hinv.sound v r hr
    subst hk0
    have h1 := (hshort v k0 hr).2 k hw
    have h2 := hmin k0 hw0
    have : k0 = k := by omega
    subst this; exact hr
  · intro v
    constructor
    · intro hnone k hw
      obtain ⟨r, hr, _⟩ := hinv.complete v k hw
      rw [hnone] at hr; exact absurd hr (by simp)
    · intro hno
      cases hr : intensityAt D v with
      | none => rfl
      | some r =>
        obtain ⟨k, _, hw⟩ := hinv.sound v r hr
        exact absurd hw (hno k)
  · intro v r hr
    obtain ⟨k, hk, _⟩ := hinv.sound v r hr
    exact ⟨k, hk⟩
  · intro v
    constructor
    · intro hv
      obtain ⟨k, hk, hw⟩ := hinv.sound v 0 hv
      have hk0 : k = 0 := by exact_mod_cast hk.symm
      subst hk0
      cases hw
      rfl
    · rintro rfl
      exact hinv.seed

/-! ### Normalisation -/

theorem scanMin_some (I : List Intensity) (m : ℚ) :
    ∃ r, scanMin I (some m) = some r ∧ r ≤ m ∧ (∀ x, some x ∈ I → r ≤ x) ∧
      (r = m ∨ some r ∈ I) := by
  induction I generalizing m with
  | nil => exact ⟨m, rfl, le_refl _, by simp, Or.inl rfl⟩
  | cons hd tl ih =>
    cases hd with
    | none =>
      obtain ⟨r, h1, h2, h3, h4⟩ := ih m
      refine ⟨r, by simpa [scanMin] using h1, h2, ?_, ?_⟩
      · intro x hx
        exact h3 x (by simpa using hx)
      · rcases h4 with h4 | h4
        · exact Or.inl h4
        · exact Or.inr (List.mem_cons_of_mem _ h4)
    | some v =>
      obtain ⟨r, h1, h2, h3, h4⟩ := ih (min m v)
      refine ⟨r, by simpa [scanMin] using h1, le_trans h2 (min_le_left _ _), ?_, ?_⟩
      · intro x hx
        rcases List.mem_cons.1 hx with hx | hx
        · have : x = v := by simpa using hx
          subst this
          exact le_trans h2 (min_le_right _ _)
        · exact h3 x hx
      · rcases h4 with h4 | h4
        · rcases min_choice m v with hm | hm
          · exact Or.inl (by rw [h4, hm])
          · exact Or.inr (by rw [h4, hm]; exact List.mem_cons_self _ _)
        · exact Or.inr (List.mem_cons_of_mem _ h4)

theorem scanMax_some (I : List Intensity) (m : ℚ) :
    ∃ r, scanMax I (some m) = some r ∧ m ≤ r ∧ (∀ x, some x ∈ I → x ≤ r) ∧
      (r = m ∨ some r ∈ I) := by
  induction I generalizing m with
  | nil => exact ⟨m, rfl, le_refl _, by simp, Or.inl rfl⟩
  | cons hd tl ih =>
    cases hd with
    | none =>
      obtain ⟨r, h1, h2, h3, h4⟩ := ih m
      refine ⟨r, by simpa [scanMax] using h1, h2, ?_, ?_⟩
      · intro x hx
        exact h3 x (by simpa using hx)
      · rcases h4 with h4 | h4
        · exact Or.inl h4
        · exact Or.inr (List.mem_cons_of_mem _ h4)
    | some v =>
      obtain ⟨r, h1, h2, h3, h4⟩ := ih (max m v)
      refine ⟨r, by simpa [scanMax] using h1, le_trans (le_max_left _ _) h2, ?_, ?_⟩
      · intro x hx
        rcases List.mem_cons.1 hx with hx | hx
        · have : x = v := by simpa using hx
          subst this
          exact le_trans (le_max_right _ _) h2
        · exact h3 x hx
      · rcases h4 with h4 | h4
        · rcases max_choice m v with hm | hm
          · exact Or.inl (by rw [h4, hm])
          · exact Or.inr (by rw [h4, hm]; exact List.mem_cons_self _ _)
        · exact Or.inr (List.mem_cons_of_mem _ h4)

/-- The first pass of the normalisation finds the least and the greatest finite intensity as
soon as one intensity is finite. -/
theorem scan_spec (I : List Intensity) (x0 : ℚ) (h0 : some x0 ∈ I) :
    ∃ imin imax, scanMin I none = some imin ∧ scanMax I none = some imax ∧
      some imin ∈ I ∧ some imax ∈ I ∧ ∀ x, some x ∈ I → imin ≤ x ∧ x ≤ imax := by
  induction I with
  | nil => simp at h0
  | cons hd tl ih =>
    cases hd with
    | none =>
      have h1 : some x0 ∈ tl := by simpa using h0
      obtain ⟨imin, imax, e1, e2, m1, m2, hb⟩ := ih h1
      refine ⟨imin, imax, by simpa [scanMin] using e1, by simpa [scanMax] using e2,
        List.mem_cons_of_mem _ m1, List.mem_cons_of_mem _ m2, ?_⟩
      intro x hx
      exact hb x (by simpa using hx)
    | some v =>
      obtain ⟨lo, e1, l1, l2, l3⟩ := scanMin_some tl v
      obtain ⟨hi, e2, u1, u2, u3⟩ := scanMax_some tl v
      refine ⟨lo, hi, by simpa [scanMin] using e1, by simpa [scanMax] using e2, ?_, ?_, ?_⟩
      · rcases l3 with l3 | l3
        · rw [l3]; exact List.mem_cons_self _ _
        · exact List.mem_cons_of_mem _ l3
      · rcases u3 with u3 | u3
        · rw [u3]; exact List.mem_cons_self _ _
        · exact List.mem_cons_of_mem _ u3
      · intro x hx
        rcases List.mem_cons.1 hx with hx | hx
        · have : x = v := by simpa using hx
          subst this
          exact ⟨l1, u1⟩
        · exact ⟨l2 x hx, u2 x hx⟩

theorem mem_iff_intensityAt (I : List Intensity) (x : ℚ) :
    some x ∈ I ↔ ∃ v, intensityAt I v = some x := by
  rw [List.mem_iff_getElem?]
  constructor
  · rintro ⟨v, hv⟩
    exact ⟨v, by simp [intensityAt, List.getD_eq_getElem?_getD, hv]⟩
  · rintro ⟨v, hv⟩
    refine ⟨v, ?_⟩
    unfold intensityAt at hv
    rw [List.getD_eq_getElem?_getD] at hv
    cases h : I[v]? with
    | none => simp [h] at hv
    | some y => simp [h] at hv; simp [hv]

theorem intensityAt_map (I : List Intensity) (f : Intensity → Intensity) (v : Nat)
    (hv : v < I.length) : intensityAt (I.map f) v = f (intensityAt I v) := by
  simp [intensityAt, List.getD_eq_getElem?_getD, List.getElem?_eq_getElem hv]

theorem valueAt_withIntensities (ground_pcl : List PointXYZI) (J : List Intensity) (v : Nat)
    (hlen : J.length = ground_pcl.length) (hv : v < ground_pcl.length) :
    valueAt (withIntensities ground_pcl J) v = intensityAt J v := by
  have hv2 : v < J.length := by omega
  simp [valueAt, withIntensities, intensityAt, List.getD_eq_getElem?_getD,
    List.getElem?_eq_getElem hv, List.getElem?_eq_getElem hv2, List.getElem?_zipWith]

/-- The normalisation rescales every finite intensity with the least and greatest finite
intensity and writes one for every infinite intensity. -/
theorem normalize_spec (I : List Intensity) (x0 : ℚ) (h0 : some x0 ∈ I) :
    ∃ imin imax N, some imin ∈ I ∧ some imax ∈ I ∧
      (∀ x, some x ∈ I → imin ≤ x ∧ x ≤ imax) ∧
      normalize I = some N ∧ N.length = I.length ∧
      ∀ v, v < I.length →
        (∀ x, intensityAt I v = some x →
          intensityAt N v = some ((x - imin) / (imax - imin + 1 / 100))) ∧
        (intensityAt I v = none → intensityAt N v = some 1) := by
  obtain ⟨imin, imax, e1, e2, m1, m2, hb⟩ := scan_spec I x0 h0
  have hd : ¬ imax - imin + eps = 0 := by
    have := (hb imin m1).2
    unfold eps
    intro h
    linarith
  have hN : normalize I = some (I.map (fun v => match v with
      | some x => some ((x - imin) / (imax - imin + eps))
      | none => some 1)) := by
    simp only [normalize, e1, e2, if_neg hd]
  refine ⟨imin, imax, _, m1, m2, hb, hN, by simp, ?_⟩
  intro v hv
  rw [intensityAt_map _ _ _ hv]
  simp only [eps]
  constructor
  · intro x hx; rw [hx]
  · intro hx; rw [hx]

theorem scanMin_all_inf (I : List Intensity) (h : ∀ x, some x ∉ I) : scanMin I none = none := by
  induction I with
  | nil => rfl
  | cons hd tl ih =>
    cases hd with
    | none =>
      rw [scanMin]
      exact ih (fun x hx => h x (List.mem_cons_of_mem _ hx))
    | some v => exact absurd (List.mem_cons_self _ _) (h v)

/-- The normalisation never divides by zero: the divisor is at least `eps`, which is positive. -/
theorem normalize_total (I : List Intensity) : ∃ N, normalize I = some N := by
  by_cases h : ∃ x, some x ∈ I
  · obtain ⟨x0, h0⟩ := h
    obtain ⟨_, _, N, _, _, _, hN, _⟩ := normalize_spec I x0 h0
    exact ⟨N, hN⟩
  · have hmin := scanMin_all_inf I (fun x hx => h ⟨x, hx⟩)
    exact ⟨I.map (fun _ => some 1), by simp only [normalize, hmin]⟩

/-! ### computeDistanceTransform -/

theorem groundNbrs_valid (idx : GroundIndex) (res : ℚ) (ground_pcl : List PointXYZI)
    (hvalid : ∀ p r j, j ∈ idx.radiusSearch p r → j < ground_pcl.length) :
    ∀ i j, j ∈ groundNbrs idx res ground_pcl i →
      j < (ground_pcl.map PointXYZI.intensity).length := by
  intro i j hj
  unfold groundNbrs at hj
  cases h : ground_pcl.get? i with
  | none =>
    rw [h] at hj
    exact absurd hj (List.not_mem_nil _)
  | some p =>
    rw [h] at hj
    simpa using hvalid _ _ _ hj

theorem intensityAt_all_inf (ground_pcl : List PointXYZI)
    (hinf : ∀ p ∈ ground_pcl, p.intensity = none) (v : Nat) :
    intensityAt (ground_pcl.map PointXYZI.intensity) v = none := by
  unfold intensityAt
  rw [List.getD_eq_getElem?_getD]
  cases h : (ground_pcl.map PointXYZI.intensity)[v]? with
  | none => rfl
  | some x =>
    have hm : x ∈ ground_pcl.map PointXYZI.intensity := List.mem_iff_getElem?.2 ⟨v, h⟩
    obtain ⟨p, hp, rfl⟩ := List.mem_map.1 hm
    simp [hinf p hp]

theorem computeDistanceTransform_eq (idx : GroundIndex) (res : ℚ) (goal : PointXYZ)
    (ground_pcl : List PointXYZI) (goal_idx : Nat) (D N : List Intensity)
    (hne : ground_pcl.length ≠ 0) (hgoal : idx.nearestKSearch goal = some goal_idx)
    (hD : rawDistances (groundNbrs idx res ground_pcl) goal_idx
      (ground_pcl.map PointXYZI.intensity) = some D)
    (hN : normalize D = some N) :
    computeDistanceTransform idx res goal ground_pcl =
      some (withIntensities ground_pcl N) := by
  simp only [computeDistanceTransform, if_neg hne, hgoal, hD, hN]

/-- C1 (wavefront is breadth-first search): on a ground cloud whose intensities are all
`+infinity`, with `goal_idx` the index returned by the nearest-point query for the goal, the
wavefront loop terminates and leaves at every ground point the length of a shortest path from
`goal_idx` in the graph whose edges join a point to the points returned by its radius query at
`1.8 * res`; points without a path are still `+infinity`, every label is a natural number, and
`goal_idx` is the only point labelled 0; the function returns these distances normalised, and the
normalisation does not divide by zero. -/
theorem computeDistanceTransform_raw_shortest_path (idx : GroundIndex) (res : ℚ)
    (goal : PointXYZ) (ground_pcl : List PointXYZI) (goal_idx : Nat)
    (hinf : ∀ p ∈ ground_pcl, p.intensity = none)
    (hgoal : idx.nearestKSearch goal = some goal_idx) (hlt : goal_idx < ground_pcl.length)
    (hvalid : ∀ p r j, j ∈ idx.radiusSearch p r → j < ground_pcl.length) :
    ∃ D, rawDistances (groundNbrs idx res ground_pcl) goal_idx
        (ground_pcl.map PointXYZI.intensity) = some D ∧
      (∃ N, normalize D = some N ∧
        computeDistanceTransform idx res goal ground_pcl =
          some (withIntensities ground_pcl N)) ∧
      D.length = ground_pcl.length ∧
      (∀ v k : Nat, intensityAt D v = some (k : ℚ) ↔
        ShortestPath (groundNbrs idx res ground_pcl) goal_idx v k) ∧
      (∀ v, intensityAt D v = none ↔ ∀ k, ¬ Walk (groundNbrs idx res ground_pcl) goal_idx v k) ∧
      (∀ v r, intensityAt D v = some r → ∃ k : Nat, r = (k : ℚ)) ∧
      (∀ v, intensityAt D v = some 0 ↔ v = goal_idx) := by
  obtain ⟨D, hD, hlen, h1, h2, h3, h4⟩ := rawDistances_spec (groundNbrs idx res ground_pcl)
    goal_idx (ground_pcl.map PointXYZI.intensity) (intensityAt_all_inf ground_pcl hinf)
    (by simpa using hlt) (groundNbrs_valid idx res ground_pcl hvalid)
  obtain ⟨N, hN⟩ := normalize_total D
  exact ⟨D, hD,
    ⟨N, hN, computeDistanceTransform_eq idx res goal ground_pcl goal_idx D N (by omega) hgoal
      hD hN⟩,
    by simpa using hlen, h1, h2, h3, h4⟩

/-- C9 (normalisation): after `computeDistanceTransform` on a non-empty ground cloud whose
intensities were all `+infinity`, with `dmin` and `dmax` the least and greatest finite raw
distance, every point with raw distance `d` (the length `k` of a shortest path from the goal
point) holds `(d - dmin) / (dmax - dmin + 0.01)` and every point without a path holds exactly
`1`. -/
theorem computeDistanceTransform_normalised (idx : GroundIndex) (res : ℚ)
    (goal : PointXYZ) (ground_pcl : List PointXYZI) (goal_idx : Nat)
    (hinf : ∀ p ∈ ground_pcl, p.intensity = none)
    (hgoal : idx.nearestKSearch goal = some goal_idx) (hlt : goal_idx < ground_pcl.length)
    (hvalid : ∀ p r j, j ∈ idx.radiusSearch p r → j < ground_pcl.length) :
    ∃ D out dmin dmax,
      rawDistances (groundNbrs idx res ground_pcl) goal_idx
        (ground_pcl.map PointXYZI.intensity) = some D ∧
      computeDistanceTransform idx res goal ground_pcl = some out ∧
      out.length = ground_pcl.length ∧
      (∃ v, intensityAt D v = some dmin) ∧ (∃ v, intensityAt D v = some dmax) ∧
      (∀ v r, intensityAt D v = some r → dmin ≤ r ∧ r ≤ dmax) ∧
      ∀ v, v < ground_pcl.length →
        (∀ d, intensityAt D v = some d →
          valueAt out v = some ((d - dmin) / (dmax - dmin + 1 / 100))) ∧
        (intensityAt D v = none → valueAt out v = some 1) ∧
        (∀ k : Nat, ShortestPath (groundNbrs idx res ground_pcl) goal_idx v k →
          valueAt out v = some (((k : ℚ) - dmin) / (dmax - dmin + 1 / 100))) ∧
        ((∀ k, ¬ Walk (groundNbrs idx res ground_pcl) goal_idx v k) →
          valueAt out v = some 1) := by
  obtain ⟨D, hD, hlen0, h1, h2, _, h4⟩ := rawDistances_spec (groundNbrs idx res ground_pcl)
    goal_idx (ground_pcl.map PointXYZI.intensity) (intensityAt_all_inf ground_pcl hinf)
    (by simpa using hlt) (groundNbrs_valid idx res ground_pcl hvalid)
  have hlen : D.length = ground_pcl.length := by simpa using hlen0
  have hseed : some (0 : ℚ) ∈ D := (mem_iff_intensityAt D 0).2 ⟨goal_idx, (h4 goal_idx).2 rfl⟩
  obtain ⟨imin, imax, N, m1, m2, hb, hN, hnl, hn⟩ := normalize_spec D 0 hseed
  have hout := computeDistanceTransform_eq idx res goal ground_pcl goal_idx D N (by omega) hgoal
    hD hN
  have hval : ∀ v, v < ground_pcl.length →
      valueAt (withIntensities ground_pcl N) v = intensityAt N v :=
    fun v hv => valueAt_withIntensities ground_pcl _ v (by omega) hv
  have hfin : ∀ v, v < ground_pcl.length → ∀ d, intensityAt D v = some d →
      valueAt (withIntensities ground_pcl N) v =
        some ((d - imin) / (imax - imin + 1 / 100)) := by
    intro v hv d hd
    rw [hval v hv]; exact (hn v (by omega)).1 d hd
  have hnone : ∀ v, v < ground_pcl.length → intensityAt D v = none →
      valueAt (withIntensities ground_pcl N) v = some 1 := by
    intro v hv hd
    rw [hval v hv]; exact (hn v (by omega)).2 hd
  refine ⟨D, _, imin, imax, hD, hout, ?_, (mem_iff_intensityAt D imin).1 m1,
    (mem_iff_intensityAt D imax).1 m2, ?_, ?_⟩
  · simp [withIntensities, hnl, hlen]
  · intro v r hr
    exact hb r ((mem_iff_intensityAt D r).2 ⟨v, hr⟩)
  · intro v hv
    exact ⟨hfin v hv, hnone v hv, fun k hk => hfin v hv k ((h1 v k).2 hk),
      fun hno => hnone v hv ((h2 v).2 hno)⟩

/-! ### Examples -/

theorem voxelCentre_injective (res : ℚ) (hres : res ≠ 0) :
    Function.Injective (voxelCentre res) := by
  intro a b h
  simp only [voxelCentre, PointXYZ.mk.injEq] at h
  obtain ⟨h1, h2, h3⟩ := h
  have e1 := mul_right_cancel₀ hres h1
  have e2 := mul_right_cancel₀ hres h2
  have e3 := mul_right_cancel₀ hres h3
  cases a; cases b
  simp only [add_left_inj, Int.cast_inj] at e1 e2 e3
  simp [e1, e2, e3]

theorem radiusSearch_lt (cloud : List PointXYZ) (p : PointXYZ) (r : ℚ) (j : Nat)
    (h : j ∈ radiusSearch cloud p r) : j < cloud.length := by
  unfold radiusSearch at h
  exact List.mem_range.1 (List.mem_filter.1 h).1

theorem buildIndex_valid (ground_pcl : List PointXYZI) :
    ∀ p r j, j ∈ (buildIndex (ground_pcl.map PointXYZI.pos)).radiusSearch p r →
      j < ground_pcl.length := by
  intro p r j h
  simpa using radiusSearch_lt _ p r j h

/-- C1 at `threePoints` with the goal at the first point. -/
theorem computeDistanceTransform_raw_shortest_path_witness :
    (∀ p ∈ threePoints, p.intensity = none) ∧
    threePointsIndex.nearestKSearch ⟨0, 0, 0⟩ = some 0 ∧
    ∃ D, rawDistances (groundNbrs threePointsIndex 1 threePoints) 0
        (threePoints.map PointXYZI.intensity) = some D ∧
      (∃ N, normalize D = some N ∧
        computeDistanceTransform threePointsIndex 1 ⟨0, 0, 0⟩ threePoints =
          some (withIntensities threePoints N)) ∧
      D.length = threePoints.length ∧
      (∀ v k : Nat, intensityAt D v = some (k : ℚ) ↔
        ShortestPath (groundNbrs threePointsIndex 1 threePoints) 0 v k) ∧
      (∀ v, intensityAt D v = none ↔
        ∀ k, ¬ Walk (groundNbrs threePointsIndex 1 threePoints) 0 v k) ∧
      (∀ v r, intensityAt D v = some r → ∃ k : Nat, r = (k : ℚ)) ∧
      (∀ v, intensityAt D v = some 0 ↔ v = 0) :=
  ⟨by decide!, by decide!,
    computeDistanceTransform_raw_shortest_path threePointsIndex 1 ⟨0, 0, 0⟩ threePoints 0
      (by decide!) (by decide!) (by decide) (buildIndex_valid threePoints)⟩

/-- The raw distances of `threePoints`: 0, 1 and `+infinity`. -/
theorem rawDistances_threePoints :
    rawDistances (groundNbrs threePointsIndex 1 threePoints) 0
      (threePoints.map PointXYZI.intensity) = some [some 0, some 1, none] := by
  decide!

/-- C9 at `threePoints` with the goal at the first point. -/
theorem computeDistanceTransform_normalised_witness :
    (∀ p ∈ threePoints, p.intensity = none) ∧
    threePointsIndex.nearestKSearch ⟨0, 0, 0⟩ = some 0 ∧
    ∃ D out dmin dmax,
      rawDistances (groundNbrs threePointsIndex 1 threePoints) 0
        (threePoints.map PointXYZI.intensity) = some D ∧
      computeDistanceTransform threePointsIndex 1 ⟨0, 0, 0⟩ threePoints = some out ∧
      out.length = threePoints.length ∧
      (∃ v, intensityAt D v = some dmin) ∧ (∃ v, intensityAt D v = some dmax) ∧
      (∀ v r, intensityAt D v = some r → dmin ≤ r ∧ r ≤ dmax) ∧
      ∀ v, v < threePoints.length →
        (∀ d, intensityAt D v = some d →
          valueAt out v = some ((d - dmin) / (dmax - dmin + 1 / 100))) ∧
        (intensityAt D v = none → valueAt out v = some 1) ∧
        (∀ k : Nat, ShortestPath (groundNbrs threePointsIndex 1 threePoints) 0 v k →
          valueAt out v = some (((k : ℚ) - dmin) / (dmax - dmin + 1 / 100))) ∧
        ((∀ k, ¬ Walk (groundNbrs threePointsIndex 1 threePoints) 0 v k) →
          valueAt out v = some 1) :=
  ⟨by decide!, by decide!,
    computeDistanceTransform_normalised threePointsIndex 1 ⟨0, 0, 0⟩ threePoints 0
      (by decide!) (by decide!) (by decide) (buildIndex_valid threePoints)⟩

/-- The normalised field of `threePoints`: 0, 1 / 1.01 and 1. -/
theorem computeDistanceTransform_threePoints :
    computeDistanceTransform threePointsIndex 1 ⟨0, 0, 0⟩ threePoints =
      some [⟨0, 0, 0, some 0⟩, ⟨1, 0, 0, some (100 / 101)⟩, ⟨5, 0, 0, some 1⟩] := by
  decide!

/-- C2 at its failing input: a second run on the cloud left by a first run, with the same
index and goal, rescales the field again. -/
theorem computeDistanceTransform_rerun_differs :
    computeDistanceTransform twoPointsIndex 1 ⟨0, 0, 0⟩ twoPoints =
      some [⟨0, 0, 0, some 0⟩, ⟨1, 0, 0, some (100 / 101)⟩] ∧
    computeDistanceTransform twoPointsIndex 1 ⟨0, 0, 0⟩
        [⟨0, 0, 0, some 0⟩, ⟨1, 0, 0, some (100 / 101)⟩] =
      some [⟨0, 0, 0, some 0⟩, ⟨1, 0, 0, some (10000 / 10101)⟩] ∧
    (100 / 101 : ℚ) ≠ 10000 / 10101 := by
  decide!

/-- C3 at its failing input: for the goal at the second point, the solve that starts from
infinite intensities and the solve that starts from the field left for the goal at the first
point give different fields; the stale field keeps its old zero. -/
theorem computeDistanceTransform_stale_field :
    computeDistanceTransform twoPointsIndex 1 ⟨1, 0, 0⟩ twoPoints =
      some [⟨0, 0, 0, some (100 / 101)⟩, ⟨1, 0, 0, some 0⟩] ∧
    computeDistanceTransform twoPointsIndex 1 ⟨0, 0, 0⟩ twoPoints =
      some [⟨0, 0, 0, some 0⟩, ⟨1, 0, 0, some (100 / 101)⟩] ∧
    computeDistanceTransform twoPointsIndex 1 ⟨1, 0, 0⟩
        [⟨0, 0, 0, some 0⟩, ⟨1, 0, 0, some (100 / 101)⟩] =
      some [⟨0, 0, 0, some 0⟩, ⟨1, 0, 0, some 0⟩] := by
  decide!

/-- The clouds of `stackTree`: the top voxel of the stack is ground, the bottom voxel is an
obstacle. -/
theorem computeGround_stackTree :
    computeGround exampleParams stackTree =
      some ([groundPoint stackTree ⟨0, 0, 1⟩], [obstaclePoint stackTree ⟨0, 0, 0⟩]) := by
  decide!

/-- C5 as stated fails at `stackTree`: the stack of the two occupied voxels `(0,0,0)` and
`(0,0,1)` is bounded below by unknown space and above by a free voxel, its height 0.2 exceeds
`max_superable_height = 0.1`, and yet the point of its top voxel is not in the obstacle cloud
(it is in the ground cloud). -/
theorem computeGround_obstacle_stack_counterexample :
    stackTree.search ⟨0, 0, -1⟩ = none ∧
    stackTree.search ⟨0, 0, 0⟩ = some true ∧
    stackTree.search ⟨0, 0, 1⟩ = some true ∧
    stackTree.search ⟨0, 0, 2⟩ = some false ∧
    (2 : ℚ) * stackTree.resolution > exampleParams.max_superable_height ∧
    ∃ g o, computeGround exampleParams stackTree = some (g, o) ∧
      obstaclePoint stackTree ⟨0, 0, 1⟩ ∉ o ∧ groundPoint stackTree ⟨0, 0, 1⟩ ∈ g :=
  ⟨by decide!, by decide!, by decide!, by decide!, by decide!,
    _, _, computeGround_stackTree, by decide!, by decide!⟩

/-- C5 (amended) at the stack of `stackTree`. -/
theorem computeGround_obstacle_stack_witness :
    Function.Injective stackTree.keyToCoord ∧
    ∃ g o, computeGround exampleParams stackTree = some (g, o) ∧
      (∀ i : Nat, i < 2 →
        (obstaclePoint stackTree ((⟨0, 0, 0⟩ : OcTreeKey).shift i) ∈ o ↔
          isGround exampleParams stackTree ((⟨0, 0, 0⟩ : OcTreeKey).shift i) = false ∧
            toDouble (stackTree.resolution * ((2 : Nat) : ℚ)) >
              exampleParams.max_superable_height)) ∧
      (1 ≤ ⌈toDouble (exampleParams.robot_height / stackTree.resolution)⌉ →
        ∀ i : Nat, i + 1 < 2 →
        (obstaclePoint stackTree ((⟨0, 0, 0⟩ : OcTreeKey).shift i) ∈ o ↔
          toDouble (stackTree.resolution * ((2 : Nat) : ℚ)) >
            exampleParams.max_superable_height)) ∧
      (toDouble (stackTree.resolution * ((2 : Nat) : ℚ)) ≤ exampleParams.max_superable_height →
        ∀ i : Nat, i < 2 → obstaclePoint stackTree ((⟨0, 0, 0⟩ : OcTreeKey).shift i) ∉ o) ∧
      (toDouble (stackTree.resolution * ((2 : Nat) : ℚ)) = exampleParams.max_superable_height →
        ∀ i : Nat, i < 2 → obstaclePoint stackTree ((⟨0, 0, 0⟩ : OcTreeKey).shift i) ∉ o) :=
  ⟨voxelCentre_injective (1 / 10) (by norm_num),
    computeGround_obstacle_stack exampleParams stackTree
      (voxelCentre_injective (1 / 10) (by norm_num)) ⟨0, 0, 0⟩ 2 (by decide)
      (by intro i hi; interval_cases i <;> decide!) (by decide!) (by decide!)⟩

/-- C4 as stated fails, at values of type `double`. For robot height 0.55 and resolution 0.05
the ceiling of the quotient is 12, but the `double` quotient is 11 and `isGround` inspects 11
voxels: with 11 free voxels above an occupied voxel and the twelfth voxel occupied it answers
`true`. For robot height 0.07 and resolution 0.01, with quotient 7 in decimal arithmetic, the
`double` quotient exceeds 7 and `isGround` inspects 8 voxels: with 7 free voxels above an occupied
voxel and the eighth voxel occupied it answers `false`. -/
theorem isGround_iff_column_clear_counterexample :
    ⌈toDouble (55 / 100) / toDouble (5 / 100)⌉ = 12 ∧
    ⌈toDouble (toDouble (55 / 100) / toDouble (5 / 100))⌉ = 11 ∧
    (clearanceTree (toDouble (5 / 100)) 11).search ⟨0, 0, 0⟩ = some true ∧
    (clearanceTree (toDouble (5 / 100)) 11).search ⟨0, 0, 12⟩ = some true ∧
    isGround { doubleParams with robot_height := toDouble (55 / 100) }
      (clearanceTree (toDouble (5 / 100)) 11) ⟨0, 0, 0⟩ = true ∧
    ⌈(7 / 100 : ℚ) / (1 / 100)⌉ = 7 ∧
    ⌈toDouble (toDouble (7 / 100) / toDouble (1 / 100))⌉ = 8 ∧
    (clearanceTree (toDouble (1 / 100)) 7).search ⟨0, 0, 0⟩ = some true ∧
    (∀ i : Nat, i < 7 →
      (clearanceTree (toDouble (1 / 100)) 7).search ⟨0, 0, (i : Int) + 1⟩ = some false) ∧
    isGround { doubleParams with robot_height := toDouble (7 / 100) }
      (clearanceTree (toDouble (1 / 100)) 7) ⟨0, 0, 0⟩ = false := by
  decide!

/-- C4 (amended) at the column of 11 free voxels, for robot height 0.55 and resolution 0.05. -/
theorem isGround_iff_column_clear_witness :
    isGround { doubleParams with robot_height := toDouble (55 / 100) }
      (clearanceTree (toDouble (5 / 100)) 11) ⟨0, 0, 0⟩ = true ∧
    (clearanceTree (toDouble (5 / 100)) 11).search ⟨0, 0, 0⟩ = some true ∧
    ∀ i : Int, 1 ≤ i →
      i ≤ ⌈toDouble (({ doubleParams with robot_height := toDouble (55 / 100) } :
        Params).robot_height / (clearanceTree (toDouble (5 / 100)) 11).resolution)⌉ →
      nonOccupied ({ doubleParams with robot_height := toDouble (55 / 100) } :
          Params).treat_unknown_as_free
        ((clearanceTree (toDouble (5 / 100)) 11).search ((⟨0, 0, 0⟩ : OcTreeKey).shift i)) :=
  ⟨by decide!,
    (isGround_iff_column_clear { doubleParams with robot_height := toDouble (55 / 100) }
      (clearanceTree (toDouble (5 / 100)) 11) ⟨0, 0, 0⟩).1 (by decide!)⟩

/-- C6 as stated fails, at values of type `double`. At resolution 0.1 a run of 10 occupied
voxels has count times resolution above 1, yet the `double` product is 1 and `isObstacle` answers
`false` for `max_superable_height = 1`. At resolution 0.1 and `max_superable_height = 0.3` a run
of 3 occupied voxels is at the threshold in decimal arithmetic, yet the `double` product exceeds
the threshold and `isObstacle` answers `true`. -/
theorem isObstacle_counts_run_counterexample :
    (occupiedStack (toDouble (1 / 10)) 10).search ⟨0, 0, 0⟩ = some true ∧
    countVoxels (occupiedStack (toDouble (1 / 10)) 10) ⟨0, 0, 0⟩ = some 10 ∧
    (10 : ℚ) * (occupiedStack (toDouble (1 / 10)) 10).resolution > 1 ∧
    toDouble ((occupiedStack (toDouble (1 / 10)) 10).resolution * 10) = 1 ∧
    isObstacle { doubleParams with max_superable_height := 1 }
      (occupiedStack (toDouble (1 / 10)) 10) ⟨0, 0, 0⟩ = some false ∧
    countVoxels (occupiedStack (toDouble (1 / 10)) 3) ⟨0, 0, 0⟩ = some 3 ∧
    ¬ ((3 : ℚ) * (1 / 10) > 3 / 10) ∧
    toDouble ((occupiedStack (toDouble (1 / 10)) 3).resolution * 3) > toDouble (3 / 10) ∧
    isObstacle { doubleParams with max_superable_height := toDouble (3 / 10) }
      (occupiedStack (toDouble (1 / 10)) 3) ⟨0, 0, 0⟩ = some true := by
  decide!

/-- The obstacle height rule at values of type `double`, on stacks in unknown space with
`treat_unknown_as_free` clear, so that `isGround` rejects every voxel: at resolution 0.1 no voxel
of a stack of ten is put in the obstacle cloud for `max_superable_height = 1`, and the three
voxels of a stack of three are put in the obstacle cloud for `max_superable_height = 0.3`. -/
theorem computeGround_rounded_product :
    computeGround { doubleParams with max_superable_height := 1 }
      (occupiedStack (toDouble (1 / 10)) 10) = some ([], []) ∧
    computeGround { doubleParams with max_superable_height := toDouble (3 / 10) }
      (occupiedStack (toDouble (1 / 10)) 3) =
      some ([], [obstaclePoint (occupiedStack (toDouble (1 / 10)) 3) ⟨0, 0, 0⟩,
        obstaclePoint (occupiedStack (toDouble (1 / 10)) 3) ⟨0, 0, 1⟩,
        obstaclePoint (occupiedStack (toDouble (1 / 10)) 3) ⟨0, 0, 2⟩]) := by
  decide!

/-- C6 (amended) at the bottom voxel of the stack of `stackTree`. -/
theorem isObstacle_counts_run_witness :
    stackTree.search ⟨0, 0, 0⟩ = some true ∧
    ∃ a b : Nat,
      (∀ i : Int, -(b : Int) ≤ i → i ≤ a →
        stackTree.search ((⟨0, 0, 0⟩ : OcTreeKey).shift i) = some true) ∧
      stackTree.search ((⟨0, 0, 0⟩ : OcTreeKey).shift ((a : Int) + 1)) ≠ some true ∧
      stackTree.search ((⟨0, 0, 0⟩ : OcTreeKey).shift (-(b : Int) - 1)) ≠ some true ∧
      countVoxels stackTree ⟨0, 0, 0⟩ = some (a + b + 1) ∧
      1 ≤ a + b + 1 ∧
      (isObstacle exampleParams stackTree ⟨0, 0, 0⟩ = some true ↔
        toDouble (stackTree.resolution * ((a + b + 1 : Nat) : ℚ)) >
          exampleParams.max_superable_height) ∧
      (isObstacle exampleParams stackTree ⟨0, 0, 0⟩ = some false ↔
        ¬ toDouble (stackTree.resolution * ((a + b + 1 : Nat) : ℚ)) >
          exampleParams.max_superable_height) ∧
      ∀ i : Int, -(b : Int) ≤ i → i ≤ a →
        isObstacle exampleParams stackTree ((⟨0, 0, 0⟩ : OcTreeKey).shift i) =
          isObstacle exampleParams stackTree ⟨0, 0, 0⟩ :=
  ⟨by decide!, isObstacle_counts_run exampleParams stackTree ⟨0, 0, 0⟩ (by decide!)⟩

/-- C7 at `stackTree`. -/
theorem computeGround_disjoint_witness :
    Function.Injective stackTree.keyToCoord ∧
    ∃ g0 g o, classifyLeaves exampleParams stackTree stackTree.leaves ([], []) = some (g0, o) ∧
      computeGround exampleParams stackTree = some (g, o) ∧
      (∀ k, ¬ (groundPoint stackTree k ∈ g0 ∧ obstaclePoint stackTree k ∈ o)) ∧
      (∀ k, ¬ (groundPoint stackTree k ∈ g ∧ obstaclePoint stackTree k ∈ o)) ∧
      (∀ p ∈ g0, p.pos ∉ o) ∧ (∀ p ∈ g, p.pos ∉ o) :=
  ⟨voxelCentre_injective (1 / 10) (by norm_num),
    computeGround_disjoint exampleParams stackTree
      (voxelCentre_injective (1 / 10) (by norm_num))⟩

/-- The inflation filter on `threePoints` with an obstacle point at the origin and radius 2:
the two points within the radius are removed by swap-and-pop. -/
theorem filterInflatedRegionFromGround_threePoints :
    filterInflatedRegionFromGround { exampleParams with robot_radius := 2 } [⟨0, 0, 0⟩]
      threePoints = some [⟨5, 0, 0, none⟩] := by
  decide!

/-- C10 at `fieldPoints`: with the values 0.9, 0.3 and 0.6 in reach of the robot the point with
value 0.3 is selected. -/
theorem generateTarget_first_min_witness :
    fieldPointsIndex.radiusSearch ⟨0, 0, 0⟩ exampleParams.local_target_radius = [0, 1, 2] ∧
    generateTarget exampleParams fieldPointsIndex ⟨0, 0, 0⟩ fieldPoints = 1 ∧
    ∃ pos i : Nat, generateTarget exampleParams fieldPointsIndex ⟨0, 0, 0⟩ fieldPoints = (i : Int) ∧
      (fieldPointsIndex.radiusSearch ⟨0, 0, 0⟩ exampleParams.local_target_radius).get? pos =
        some i ∧
      (∀ q j, (fieldPointsIndex.radiusSearch ⟨0, 0, 0⟩ exampleParams.local_target_radius).get? q
          = some j →
        Intensity.lt (valueAt fieldPoints j) (valueAt fieldPoints i) = false) ∧
      (∀ q j, q < pos →
        (fieldPointsIndex.radiusSearch ⟨0, 0, 0⟩ exampleParams.local_target_radius).get? q
          = some j →
        Intensity.lt (valueAt fieldPoints i) (valueAt fieldPoints j) = true) :=
  ⟨by decide!, by decide!,
    (generateTarget_first_min exampleParams fieldPointsIndex ⟨0, 0, 0⟩ fieldPoints).2
      (by decide!)⟩

/-! ### Steering law -/

theorem turnInPlace_eq_true (p : PointXYZ) : turnInPlace p = true ↔ p.x < 0 ∨ |p.y| > p.x := by
  simp [turnInPlace]

theorem turnInPlace_eq_false (p : PointXYZ) :
    turnInPlace p = false ↔ 0 ≤ p.x ∧ |p.y| ≤ p.x := by
  simp [turnInPlace]

/-- In the arc branch a target with `y = 0` makes the arc formula divide by zero. -/
theorem generateTwistCommand_arc_y_zero (P : Params) (frame : String) (atan2 : ℚ → ℚ → ℚ)
    (p : PointXYZ) (twist : Twist) (hx : 0 ≤ p.x) (hy : p.y = 0) :
    turnInPlace p = false ∧ arcCenterY p = none ∧
      generateTwistCommand P frame atan2 ⟨frame, p⟩ twist = none := by
  have hb : turnInPlace p = false := by
    rw [turnInPlace_eq_false]; simp [hy, hx]
  have hc : arcCenterY p = none := by simp [arcCenterY, hy]
  refine ⟨hb, hc, ?_⟩
  simp [generateTwistCommand, hb, hc]

/-- The twist of the turn-in-place branch. -/
theorem generateTwistCommand_turn (P : Params) (frame : String) (atan2 : ℚ → ℚ → ℚ)
    (p : PointXYZ) (twist : Twist) (hb : turnInPlace p = true) :
    generateTwistCommand P frame atan2 ⟨frame, p⟩ twist =
      some ⟨⟨0, 0, 0⟩, ⟨0, 0, (if p.y > 0 then 1 else -1) * P.twist_angular_gain⟩⟩ := by
  simp [generateTwistCommand, hb]

/-- C11 at its failing input: for the target `(1, 0)` straight ahead the arc branch is taken
and `center_y` is a division by zero, so the command is not the finite twist with linear
velocity `twist_linear_gain * 1` and angular velocity 0. -/
theorem generateTwistCommand_straight_ahead_divides_by_zero (P : Params)
    (atan2 : ℚ → ℚ → ℚ) (twist : Twist) :
    turnInPlace ⟨1, 0, 0⟩ = false ∧ arcCenterY ⟨1, 0, 0⟩ = none ∧
      generateTwistCommand P "/base_link" atan2 ⟨"/base_link", ⟨1, 0, 0⟩⟩ twist = none :=
  generateTwistCommand_arc_y_zero P "/base_link" atan2 ⟨1, 0, 0⟩ twist (by norm_num) rfl

/-- C12 (pure-rotation steering): for a target in the robot frame with `x < 0` or `|y| > x`
the command has zero linear velocity and angular velocity `twist_angular_gain` about z for
`y > 0` and `-twist_angular_gain` otherwise; for a positive gain its magnitude is the gain and
its sign is the sign of `y` whenever `y` is not zero. -/
theorem generateTwistCommand_pure_rotation (P : Params) (frame : String)
    (atan2 : ℚ → ℚ → ℚ) (p : PointXYZ) (twist : Twist) (hb : p.x < 0 ∨ |p.y| > p.x) :
    ∃ tw, generateTwistCommand P frame atan2 ⟨frame, p⟩ twist = some tw ∧
      tw.linear = ⟨0, 0, 0⟩ ∧ tw.angular.x = 0 ∧ tw.angular.y = 0 ∧
      (0 < p.y → tw.angular.z = P.twist_angular_gain) ∧
      (p.y ≤ 0 → tw.angular.z = -P.twist_angular_gain) ∧
      |tw.angular.z| = |P.twist_angular_gain| ∧
      (0 < P.twist_angular_gain →
        |tw.angular.z| = P.twist_angular_gain ∧ (0 < p.y → 0 < tw.angular.z) ∧
          (p.y < 0 → tw.angular.z < 0)) := by
  refine ⟨_, generateTwistCommand_turn P frame atan2 p twist ((turnInPlace_eq_true p).2 hb),
    rfl, rfl, rfl, ?_, ?_, ?_, ?_⟩
  · intro hy; simp [hy]
  · intro hy; simp [not_lt.2 hy]
  · by_cases hy : 0 < p.y <;> simp [hy]
  · intro hg
    refine ⟨?_, ?_, ?_⟩
    · by_cases hy : 0 < p.y <;> simp [hy, abs_of_pos hg]
    · intro hy; simp [hy, hg]
    · intro hy; simp [not_lt.2 hy.le, hg]

/-- C12 at the targets `(-1, 0)` and `(0.5, 0.6)`. -/
theorem generateTwistCommand_pure_rotation_witness :
    (((-1 : ℚ) < 0 ∨ |(0 : ℚ)| > -1) ∧
      ∃ tw, generateTwistCommand exampleParams "/base_link" approxAtan2
          ⟨"/base_link", ⟨-1, 0, 0⟩⟩ zeroTwist = some tw ∧
        tw.linear = ⟨0, 0, 0⟩ ∧ tw.angular.x = 0 ∧ tw.angular.y = 0 ∧
        (0 < (0 : ℚ) → tw.angular.z = exampleParams.twist_angular_gain) ∧
        ((0 : ℚ) ≤ 0 → tw.angular.z = -exampleParams.twist_angular_gain) ∧
        |tw.angular.z| = |exampleParams.twist_angular_gain| ∧
        (0 < exampleParams.twist_angular_gain →
          |tw.angular.z| = exampleParams.twist_angular_gain ∧
            (0 < (0 : ℚ) → 0 < tw.angular.z) ∧ ((0 : ℚ) < 0 → tw.angular.z < 0))) ∧
    generateTwistCommand exampleParams "/base_link" approxAtan2
        ⟨"/base_link", ⟨1 / 2, 6 / 10, 0⟩⟩ zeroTwist = some ⟨⟨0, 0, 0⟩, ⟨0, 0, 1⟩⟩ :=
  ⟨⟨by decide!, generateTwistCommand_pure_rotation exampleParams "/base_link" approxAtan2
      ⟨-1, 0, 0⟩ zeroTwist (by decide!)⟩, by decide!⟩

/-- C19 as stated fails at the origin: for the target `(0, 0)` the test
`p.x < 0 || fabs(p.y) > p.x` is false, the arc branch is taken and `center_y` divides by
`2 y = 0`. -/
theorem generateTwistCommand_origin_counterexample :
    (0 : ℚ) ≤ 0 ∧ turnInPlace ⟨0, 0, 0⟩ = false ∧ arcCenterY ⟨0, 0, 0⟩ = none ∧
      generateTwistCommand exampleParams "/base_link" approxAtan2
        ⟨"/base_link", ⟨0, 0, 0⟩⟩ zeroTwist = none := by
  decide!

/-- C19 (arc-branch selection at `y = 0`, amended): for every target `(x, 0)` with `x < 0`
the turn-in-place branch is taken, and the command is the pure rotation that does not evaluate
the arc formula. -/
theorem generateTwistCommand_behind_turns (P : Params) (frame : String)
    (atan2 : ℚ → ℚ → ℚ) (p : PointXYZ) (twist : Twist) (hx : p.x < 0) (hy : p.y = 0) :
    turnInPlace p = true ∧
      generateTwistCommand P frame atan2 ⟨frame, p⟩ twist =
        some ⟨⟨0, 0, 0⟩, ⟨0, 0, -P.twist_angular_gain⟩⟩ := by
  have hb : turnInPlace p = true := (turnInPlace_eq_true p).2 (Or.inl hx)
  refine ⟨hb, ?_⟩
  rw [generateTwistCommand_turn P frame atan2 p twist hb]
  simp [hy]

/-- C19 (amended) at the target `(-1, 0)`. -/
theorem generateTwistCommand_behind_turns_witness :
    (-1 : ℚ) < 0 ∧ turnInPlace ⟨-1, 0, 0⟩ = true ∧
      generateTwistCommand exampleParams "/base_link" approxAtan2
        ⟨"/base_link", ⟨-1, 0, 0⟩⟩ zeroTwist =
        some ⟨⟨0, 0, 0⟩, ⟨0, 0, -exampleParams.twist_angular_gain⟩⟩ :=
  ⟨by decide!, generateTwistCommand_behind_turns exampleParams "/base_link" approxAtan2
    ⟨-1, 0, 0⟩ zeroTwist (by decide!) rfl⟩

/-- C20 (arc geometry): for a target with `y ≠ 0` the value `center_y` is
`Rc = (x^2 + y^2) / (2 y)`, the circle of radius `|Rc|` centred at `(0, Rc)` passes through the
origin and through the target, and in the arc branch (`x ≥ 0` and `|y| ≤ x`) `|Rc| ≥ |y|`, so
the second argument of `atan2` is not negative; the command of the arc branch is computed from
this `Rc`. -/
theorem arcCenterY_circle (P : Params) (frame : String) (atan2 : ℚ → ℚ → ℚ)
    (p : PointXYZ) (twist : Twist) (hy : p.y ≠ 0) :
    ∃ Rc : ℚ, arcCenterY p = some Rc ∧ Rc = (p.x ^ 2 + p.y ^ 2) / (2 * p.y) ∧
      (0 : ℚ) ^ 2 + (0 - Rc) ^ 2 = Rc ^ 2 ∧
      p.x ^ 2 + (p.y - Rc) ^ 2 = Rc ^ 2 ∧
      (0 ≤ p.x → |p.y| ≤ p.x →
        |p.y| ≤ |Rc| ∧ 0 ≤ |Rc| - |p.y| ∧
        generateTwistCommand P frame atan2 ⟨frame, p⟩ twist =
          some ⟨⟨P.twist_linear_gain * abs (Rc * abs (atan2 p.x (|Rc| - |p.y|))), 0, 0⟩,
            ⟨0, 0, P.twist_angular_gain * (if p.y ≥ 0 then 1 else -1) *
              |atan2 p.x (|Rc| - |p.y|)|⟩⟩) := by
  have h2 : 2 * p.y ≠ 0 := by simpa using hy
  have hc : arcCenterY p = some ((p.x ^ 2 + p.y ^ 2) / (2 * p.y)) := by
    simp [arcCenterY, hy]
  refine ⟨_, hc, rfl, by ring, ?_, ?_⟩
  · field_simp; ring
  · intro hx hyx
    have hle : |p.y| ≤ |(p.x ^ 2 + p.y ^ 2) / (2 * p.y)| := by
      have hpos : 0 < |2 * p.y| := abs_pos.2 h2
      rw [abs_div, le_div_iff₀ hpos, abs_mul, abs_of_nonneg (by positivity : (0 : ℚ) ≤ p.x ^ 2 + p.y ^ 2)]
      have h3 : |p.y| ^ 2 ≤ p.x ^ 2 := by nlinarith [abs_nonneg p.y]
      have h4 : |p.y| ^ 2 = p.y ^ 2 := sq_abs _
      have h5 : |(2 : ℚ)| = 2 := by norm_num
      rw [h5]
      nlinarith
    refine ⟨hle, by linarith, ?_⟩
    have hb : turnInPlace p = false := (turnInPlace_eq_false p).2 ⟨hx, hyx⟩
    simp [generateTwistCommand, hb, hc]

/-- C20 at the target `(1, 1)`, where `Rc = 1`. -/
theorem arcCenterY_circle_witness :
    (1 : ℚ) ≠ 0 ∧ arcCenterY ⟨1, 1, 0⟩ = some 1 ∧
    ∃ Rc : ℚ, arcCenterY ⟨1, 1, 0⟩ = some Rc ∧ Rc = ((1 : ℚ) ^ 2 + 1 ^ 2) / (2 * 1) ∧
      (0 : ℚ) ^ 2 + (0 - Rc) ^ 2 = Rc ^ 2 ∧
      (1 : ℚ) ^ 2 + (1 - Rc) ^ 2 = Rc ^ 2 ∧
      ((0 : ℚ) ≤ 1 → |(1 : ℚ)| ≤ 1 →
        |(1 : ℚ)| ≤ |Rc| ∧ 0 ≤ |Rc| - |(1 : ℚ)| ∧
        generateTwistCommand exampleParams "/base_link" approxAtan2
            ⟨"/base_link", ⟨1, 1, 0⟩⟩ zeroTwist =
          some ⟨⟨exampleParams.twist_linear_gain *
              abs (Rc * abs (approxAtan2 1 (|Rc| - |(1 : ℚ)|))), 0, 0⟩,
            ⟨0, 0, exampleParams.twist_angular_gain * (if (1 : ℚ) ≥ 0 then 1 else -1) *
              |approxAtan2 1 (|Rc| - |(1 : ℚ)|)|⟩⟩) :=
  ⟨by decide!, by decide!,
    arcCenterY_circle exampleParams "/base_link" approxAtan2 ⟨1, 1, 0⟩ zeroTwist (by decide!)⟩

/-! ### Controller tick -/

theorem regulatingPosition_reached (P : Params) (ep : ℚ) :
    regulatingPosition P true ep = true ↔ ep > toDouble (2 * P.goal_reached_threshold) := by
  simp [regulatingPosition]

theorem regulatingPosition_not_reached (P : Params) (ep : ℚ) :
    regulatingPosition P false ep = true ↔ ep > P.goal_reached_threshold := by
  simp [regulatingPosition]

/-- A tick outside position regulation: orientation regulation or goal reached. -/
theorem controllerCallback_not_regulating (P : Params) (E : TickEnv) (goal robot_pose : Pose)
    (ground_pcl : List PointXYZI) (s : ControllerState)
    (hnot : regulatingPosition P s.reached_position
      (toFloat32 (positionError E.sqrt robot_pose goal)) = false) :
    (|toFloat32 (orientationError robot_pose goal)| > toDouble (1 / 50) →
      controllerCallback P E goal robot_pose ground_pcl s =
        ({ s with reached_position := true },
          Command.publish ⟨⟨0, 0, 0⟩,
            ⟨0, 0, toDouble (P.twist_angular_gain *
              toFloat32 (orientationError robot_pose goal))⟩⟩)) ∧
    (¬ |toFloat32 (orientationError robot_pose goal)| > toDouble (1 / 50) →
      controllerCallback P E goal robot_pose ground_pcl s =
        ({ reached_position := true, timer_running := false }, Command.publish zeroTwist)) := by
  constructor
  · intro h
    simp only [controllerCallback, hnot, Bool.false_eq_true, if_false, if_pos h]
  · intro h
    simp only [controllerCallback, hnot, Bool.false_eq_true, if_false, if_neg h]

/-- A tick in position regulation clears `reached_position_` whatever follows. -/
theorem controllerCallback_regulating_flag (P : Params) (E : TickEnv) (goal robot_pose : Pose)
    (ground_pcl : List PointXYZI) (s : ControllerState)
    (hreg : regulatingPosition P s.reached_position
      (toFloat32 (positionError E.sqrt robot_pose goal)) = true) :
    (controllerCallback P E goal robot_pose ground_pcl s).1 =
      { s with reached_position := false } := by
  simp only [controllerCallback, hreg, if_true]
  split
  · rfl
  · split <;> rfl

/-- A tick outside position regulation sets `reached_position_` and publishes a twist with zero
linear velocity. -/
theorem controllerCallback_holds (P : Params) (E : TickEnv) (goal robot_pose : Pose)
    (ground_pcl : List PointXYZI) (s : ControllerState)
    (hnot : regulatingPosition P s.reached_position
      (toFloat32 (positionError E.sqrt robot_pose goal)) = false) :
    (controllerCallback P E goal robot_pose ground_pcl s).1.reached_position = true ∧
    ∃ tw, (controllerCallback P E goal robot_pose ground_pcl s).2 = Command.publish tw ∧
      tw.linear = ⟨0, 0, 0⟩ := by
  obtain ⟨h1, h2⟩ := controllerCallback_not_regulating P E goal robot_pose ground_pcl s hnot
  by_cases h : |toFloat32 (orientationError robot_pose goal)| > toDouble (1 / 50)
  · rw [h1 h]; exact ⟨rfl, _, rfl, rfl⟩
  · rw [h2 h]; exact ⟨rfl, _, rfl, rfl⟩

theorem regulatingPosition_false_of_le (P : Params) (ep : ℚ)
    (h : ep ≤ toDouble (2 * P.goal_reached_threshold)) :
    regulatingPosition P true ep = false := by
  cases hr : regulatingPosition P true ep with
  | false => rfl
  | true => exact absurd ((regulatingPosition_reached P ep).1 hr) (not_lt.2 h)

/-- While every tick has narrowed position error at most twice the threshold, a run that starts
with `reached_position_` set keeps it set and publishes only twists with zero linear
velocity. -/
theorem runTicks_holds (P : Params) (E : TickEnv) (goal : Pose) (ground_pcl : List PointXYZI)
    (poses : List Pose) :
    ∀ s : ControllerState, s.reached_position = true →
      (∀ pose ∈ poses, toFloat32 (positionError E.sqrt pose goal) ≤
        toDouble (2 * P.goal_reached_threshold)) →
      (runTicks P E goal ground_pcl poses s).1.reached_position = true ∧
      ∀ c ∈ (runTicks P E goal ground_pcl poses s).2,
        ∃ tw, c = Command.publish tw ∧ tw.linear = ⟨0, 0, 0⟩ := by
  induction poses with
  | nil =>
    intro s hs _
    exact ⟨hs, by simp [runTicks]⟩
  | cons pose rest ih =>
    intro s hs hall
    have hrest : ∀ pose ∈ rest, toFloat32 (positionError E.sqrt pose goal) ≤
        toDouble (2 * P.goal_reached_threshold) :=
      fun q hq => hall q (List.mem_cons_of_mem _ hq)
    rw [runTicks]
    by_cases ht : s.timer_running = false
    · rw [if_pos ht]; exact ih s hs hrest
    · rw [if_neg ht]
      have hnot : regulatingPosition P s.reached_position
          (toFloat32 (positionError E.sqrt pose goal)) = false := by
        rw [hs]
        exact regulatingPosition_false_of_le P _ (hall pose (List.mem_cons_self _ _))
      obtain ⟨h1, tw, h2, h3⟩ := controllerCallback_holds P E goal pose ground_pcl s hnot
      obtain ⟨i1, i2⟩ := ih _ h1 hrest
      refine ⟨i1, ?_⟩
      intro c hc
      rcases List.mem_cons.1 hc with rfl | hc
      · exact ⟨tw, h2, h3⟩
      · exact i2 c hc

/-- C13 (controller hysteresis, amended): the tick tests `ep.data`, the position error narrowed
to `float`. With `reached_position_` set, a tick whose narrowed error is at most the `double`
product `2 * goal_reached_threshold` keeps the flag set and publishes a twist with zero linear
velocity, and so does every run of such ticks; with the flag set the tick clears it, re-entering
position regulation, exactly when the narrowed error exceeds that product; position regulation
is selected with the flag set exactly when the narrowed error exceeds that product, with the flag
clear exactly when it exceeds the threshold; a tick with the flag clear and narrowed error at most
the threshold sets the flag, and a tick in position regulation clears it. -/
theorem controllerCallback_hysteresis (P : Params) (E : TickEnv) (goal : Pose)
    (ground_pcl : List PointXYZI) :
    (∀ (robot_pose : Pose) (s : ControllerState), s.reached_position = true →
      toFloat32 (positionError E.sqrt robot_pose goal) ≤
        toDouble (2 * P.goal_reached_threshold) →
      (controllerCallback P E goal robot_pose ground_pcl s).1.reached_position = true ∧
      ∃ tw, (controllerCallback P E goal robot_pose ground_pcl s).2 = Command.publish tw ∧
        tw.linear = ⟨0, 0, 0⟩) ∧
    (∀ (poses : List Pose) (s : ControllerState), s.reached_position = true →
      (∀ pose ∈ poses, toFloat32 (positionError E.sqrt pose goal) ≤
        toDouble (2 * P.goal_reached_threshold)) →
      (runTicks P E goal ground_pcl poses s).1.reached_position = true ∧
      ∀ c ∈ (runTicks P E goal ground_pcl poses s).2,
        ∃ tw, c = Command.publish tw ∧ tw.linear = ⟨0, 0, 0⟩) ∧
    (∀ (robot_pose : Pose) (s : ControllerState), s.reached_position = true →
      ((controllerCallback P E goal robot_pose ground_pcl s).1.reached_position = false ↔
        toFloat32 (positionError E.sqrt robot_pose goal) >
          toDouble (2 * P.goal_reached_threshold))) ∧
    (∀ ep : ℚ, regulatingPosition P true ep = true ↔
      ep > toDouble (2 * P.goal_reached_threshold)) ∧
    (∀ ep : ℚ, regulatingPosition P false ep = true ↔ ep > P.goal_reached_threshold) ∧
    (∀ (robot_pose : Pose) (s : ControllerState), s.reached_position = false →
      toFloat32 (positionError E.sqrt robot_pose goal) ≤ P.goal_reached_threshold →
      (controllerCallback P E goal robot_pose ground_pcl s).1.reached_position = true) ∧
    (∀ (robot_pose : Pose) (s : ControllerState),
      regulatingPosition P s.reached_position
        (toFloat32 (positionError E.sqrt robot_pose goal)) = true →
      (controllerCallback P E goal robot_pose ground_pcl s).1.reached_position = false) := by
  refine ⟨?_, fun poses => runTicks_holds P E goal ground_pcl poses, ?_,
    regulatingPosition_reached P, regulatingPosition_not_reached P, ?_, ?_⟩
  · intro robot_pose s hs hle
    apply controllerCallback_holds
    rw [hs]; exact regulatingPosition_false_of_le P _ hle
  · intro robot_pose s hs
    constructor
    · intro hflag
      by_contra hgt
      have hnot : regulatingPosition P s.reached_position
          (toFloat32 (positionError E.sqrt robot_pose goal)) = false := by
        rw [hs]; exact regulatingPosition_false_of_le P _ (not_lt.1 hgt)
      have := (controllerCallback_holds P E goal robot_pose ground_pcl s hnot).1
      rw [hflag] at this
      exact absurd this (by simp)
    · intro hgt
      have hreg : regulatingPosition P s.reached_position
          (toFloat32 (positionError E.sqrt robot_pose goal)) = true := by
        rw [hs]; exact (regulatingPosition_reached P _).2 hgt
      rw [controllerCallback_regulating_flag P E goal robot_pose ground_pcl s hreg]
  · intro robot_pose s hs hle
    apply (controllerCallback_holds P E goal robot_pose ground_pcl s ?_).1
    rw [hs]
    cases hr : regulatingPosition P false
        (toFloat32 (positionError E.sqrt robot_pose goal)) with
    | false => rfl
    | true => exact absurd ((regulatingPosition_not_reached P _).1 hr) (not_lt.2 hle)
  · intro robot_pose s hreg
    rw [controllerCallback_regulating_flag P E goal robot_pose ground_pcl s hreg]

theorem orientationError_of_qnorm_lt (robot_pose goal : Pose)
    (h : qnorm goal.orientation < 1 / 100000) : orientationError robot_pose goal = 0 := by
  unfold orientationError
  rw [if_pos h]

theorem qnorm_nonneg (q : Quaternion) : 0 ≤ qnorm q := by
  unfold qnorm; positivity

/-- A quaternion whose norm is below `1e-5` passes the test `qnorm < 1e-5` on the sum of
squares. -/
theorem qnorm_lt_of_norm_lt (q : Quaternion)
    (h : Real.sqrt ((qnorm q : ℚ) : ℝ) < 1 / 100000) : qnorm q < 1 / 100000 := by
  have h0 : (0 : ℝ) ≤ ((qnorm q : ℚ) : ℝ) := by exact_mod_cast qnorm_nonneg q
  have h1 : ((qnorm q : ℚ) : ℝ) < (1 / 100000) ^ 2 :=
    (Real.sqrt_lt' (by norm_num)).1 h
  have h2 : ((qnorm q : ℚ) : ℝ) < 1 / 100000 := by
    refine lt_trans h1 ?_
    norm_num
  have h3 : ((qnorm q : ℚ) : ℝ) < (((1 / 100000 : ℚ)) : ℝ) := by
    push_cast; exact h2
  exact Rat.cast_lt.1 h3

theorem toFloat32_zero : toFloat32 0 = 0 := by
  simp [toFloat32, roundToPrecision]

/-- The position error of a robot at the origin and a goal on the x axis, with the exact square
root of a rational square. -/
theorem positionError_along_x (g : ℚ) :
    positionError Rat.sqrt (poseAt 0 0) (pointGoalAt g 0) = |g| := by
  have e : (0 - g) ^ 2 + (0 - 0) ^ 2 + ((0 : ℚ) - 0) ^ 2 = g * g := by ring
  simp only [positionError, poseAt, pointGoalAt]
  rw [e, Rat.sqrt_eq]

theorem toDouble_fiftieth_pos : 0 < toDouble (1 / 50) := by
  decide!

/-- C15 (position-only goals never block on orientation): for a goal whose orientation
quaternion has norm below `1e-5` and every robot pose `orientationError` is 0, and so is its
narrowing `eo.data`, and a tick that is not regulating position publishes the zero twist, stops
the timer and sets `reached_position_`. -/
theorem orientationError_position_only (P : Params) (E : TickEnv) (goal robot_pose : Pose)
    (ground_pcl : List PointXYZI) (s : ControllerState)
    (hq : Real.sqrt ((qnorm goal.orientation : ℚ) : ℝ) < 1 / 100000) :
    orientationError robot_pose goal = 0 ∧
    toFloat32 (orientationError robot_pose goal) = 0 ∧
    (regulatingPosition P s.reached_position
        (toFloat32 (positionError E.sqrt robot_pose goal)) = false →
      controllerCallback P E goal robot_pose ground_pcl s =
        ({ reached_position := true, timer_running := false }, Command.publish zeroTwist)) := by
  have h0 := orientationError_of_qnorm_lt robot_pose goal (qnorm_lt_of_norm_lt _ hq)
  refine ⟨h0, by rw [h0, toFloat32_zero], ?_⟩
  intro hnot
  apply (controllerCallback_not_regulating P E goal robot_pose ground_pcl s hnot).2
  rw [h0, toFloat32_zero, abs_zero]
  exact not_lt.2 (le_of_lt toDouble_fiftieth_pos)

theorem generateLocalTarget_none (P : Params) (E : TickEnv) (robot_pose : Pose)
    (ground_pcl : List PointXYZI)
    (hnone : E.ground_index.radiusSearch robot_pose.position P.local_target_radius = []) :
    generateLocalTarget P E robot_pose ground_pcl = none := by
  simp [generateLocalTarget, generateTarget, hnone, generateTargetLoop]

/-- C16 (tick on NoLocalTarget, amended): a tick in position regulation for which the radius
query around the robot returns no ground point publishes no velocity command and leaves
`reached_position_` clear and the timer untouched; the controller state is unchanged when
`reached_position_` was clear before the tick. -/
theorem controllerCallback_no_local_target (P : Params) (E : TickEnv) (goal robot_pose : Pose)
    (ground_pcl : List PointXYZI) (s : ControllerState)
    (hreg : regulatingPosition P s.reached_position
      (toFloat32 (positionError E.sqrt robot_pose goal)) = true)
    (hnone : E.ground_index.radiusSearch robot_pose.position P.local_target_radius = []) :
    controllerCallback P E goal robot_pose ground_pcl s =
      ({ s with reached_position := false }, Command.silent) ∧
    (s.reached_position = false →
      (controllerCallback P E goal robot_pose ground_pcl s).1 = s) := by
  have h : controllerCallback P E goal robot_pose ground_pcl s =
      ({ s with reached_position := false }, Command.silent) := by
    simp only [controllerCallback, hreg, if_true,
      generateLocalTarget_none P E robot_pose ground_pcl hnone]
  refine ⟨h, ?_⟩
  intro hs
  rw [h]
  cases s
  simp_all

/-! ### Controller examples -/

/-- C13 (amended) at a tick 0.3 from the goal with `reached_position_` set (threshold 0.2). -/
theorem controllerCallback_hysteresis_witness :
    toFloat32 (positionError exampleEnv.sqrt (poseAt (3 / 10) 0) (pointGoalAt 0 0)) ≤
      toDouble (2 * exampleParams.goal_reached_threshold) ∧
    (controllerCallback exampleParams exampleEnv (pointGoalAt 0 0) (poseAt (3 / 10) 0)
      fieldPoints ⟨true, true⟩).1.reached_position = true ∧
    ∃ tw, (controllerCallback exampleParams exampleEnv (pointGoalAt 0 0) (poseAt (3 / 10) 0)
        fieldPoints ⟨true, true⟩).2 = Command.publish tw ∧ tw.linear = ⟨0, 0, 0⟩ :=
  ⟨by decide!,
    (controllerCallback_hysteresis exampleParams exampleEnv (pointGoalAt 0 0) fieldPoints).1
      (poseAt (3 / 10) 0) ⟨true, true⟩ rfl (by decide!)⟩

/-- C13 as stated fails, at values of type `double`. With threshold 0.2 and `reached_position_`
set, a tick whose position error is 0.4, equal to twice the threshold, re-enters position
regulation: the narrowed error `ep.data` is above 0.4, the flag is cleared and a linear velocity is
commanded. With the flag clear, a tick whose position error is 0.2, equal to the threshold, is
in position regulation as well. -/
theorem controllerCallback_hysteresis_counterexample :
    doubleParams.goal_reached_threshold = toDouble (1 / 5) ∧
    positionError sideEnv.sqrt (poseAt 0 0) (pointGoalAt (toDouble (2 / 5)) 0) =
      2 * doubleParams.goal_reached_threshold ∧
    toFloat32 (positionError sideEnv.sqrt (poseAt 0 0) (pointGoalAt (toDouble (2 / 5)) 0)) =
      13421773 / 33554432 ∧
    (13421773 / 33554432 : ℚ) > 2 * doubleParams.goal_reached_threshold ∧
    controllerCallback doubleParams sideEnv (pointGoalAt (toDouble (2 / 5)) 0) (poseAt 0 0)
        sidePoints ⟨true, true⟩ =
      (⟨false, true⟩, Command.publish ⟨⟨355 / 452, 0, 0⟩, ⟨0, 0, 355 / 226⟩⟩) ∧
    positionError sideEnv.sqrt (poseAt 0 0) (pointGoalAt (toDouble (1 / 5)) 0) =
      doubleParams.goal_reached_threshold ∧
    regulatingPosition doubleParams false
      (toFloat32 (positionError sideEnv.sqrt (poseAt 0 0) (pointGoalAt (toDouble (1 / 5)) 0)))
      = true ∧
    controllerCallback doubleParams sideEnv (pointGoalAt (toDouble (1 / 5)) 0) (poseAt 0 0)
        sidePoints ⟨false, true⟩ =
      (⟨false, true⟩, Command.publish ⟨⟨355 / 452, 0, 0⟩, ⟨0, 0, 355 / 226⟩⟩) := by
  have h2 : positionError sideEnv.sqrt (poseAt 0 0) (pointGoalAt (toDouble (2 / 5)) 0) =
      toDouble (2 / 5) := by
    rw [show sideEnv.sqrt = Rat.sqrt from rfl, positionError_along_x]
    decide!
  have h1 : positionError sideEnv.sqrt (poseAt 0 0) (pointGoalAt (toDouble (1 / 5)) 0) =
      toDouble (1 / 5) := by
    rw [show sideEnv.sqrt = Rat.sqrt from rfl, positionError_along_x]
    decide!
  rw [controllerCallback, controllerCallback, h1, h2]
  decide!

/-- The same pose with `reached_position_` clear is in position regulation: 0.3 exceeds the
threshold 0.2 but not twice the threshold. -/
theorem regulatingPosition_band :
    regulatingPosition exampleParams false
      (toFloat32 (positionError exampleEnv.sqrt (poseAt (3 / 10) 0) (pointGoalAt 0 0))) = true ∧
    regulatingPosition exampleParams true
      (toFloat32 (positionError exampleEnv.sqrt (poseAt (3 / 10) 0) (pointGoalAt 0 0))) =
        false := by
  decide!

/-- The two ticks that end a run at the turned goal: orientation regulation while the robot
has the identity orientation, goal reached once it has the goal orientation. -/
theorem controllerCallback_turnedGoal :
    controllerCallback exampleParams exampleEnv turnedGoal (poseAt (1 / 10) 0) fieldPoints
      ⟨false, true⟩ = (⟨true, true⟩, Command.publish ⟨⟨0, 0, 0⟩, ⟨0, 0, 1⟩⟩) ∧
    controllerCallback exampleParams exampleEnv turnedGoal ⟨⟨1 / 10, 0, 0⟩, ⟨0, 0, 1, 0⟩⟩
      fieldPoints ⟨true, true⟩ = (⟨true, false⟩, Command.publish zeroTwist) := by
  decide!

/-- C15 at a goal given by position only (all-zero quaternion) and a tick 0.1 from it. -/
theorem orientationError_position_only_witness :
    Real.sqrt ((qnorm (pointGoalAt 0 0).orientation : ℚ) : ℝ) < 1 / 100000 ∧
    orientationError (poseAt (1 / 10) 0) (pointGoalAt 0 0) = 0 ∧
    toFloat32 (orientationError (poseAt (1 / 10) 0) (pointGoalAt 0 0)) = 0 ∧
    (regulatingPosition exampleParams false
        (toFloat32 (positionError exampleEnv.sqrt (poseAt (1 / 10) 0) (pointGoalAt 0 0)))
        = false →
      controllerCallback exampleParams exampleEnv (pointGoalAt 0 0) (poseAt (1 / 10) 0)
          fieldPoints ⟨false, true⟩ =
        ({ reached_position := true, timer_running := false }, Command.publish zeroTwist)) :=
  ⟨by simp [qnorm, pointGoalAt],
    orientationError_position_only exampleParams exampleEnv (pointGoalAt 0 0)
      (poseAt (1 / 10) 0) fieldPoints ⟨false, true⟩ (by simp [qnorm, pointGoalAt])⟩

/-- C16 as stated fails: with `reached_position_` set, the robot 10 from the goal (more than
twice the threshold 0.2) and no ground point within the lookahead radius 2, the tick publishes
nothing and leaves `reached_position_` clear, so the controller state has changed. -/
theorem controllerCallback_no_local_target_counterexample :
    exampleEnv.ground_index.radiusSearch (poseAt 10 0).position
      exampleParams.local_target_radius = [] ∧
    generateLocalTarget exampleParams exampleEnv (poseAt 10 0) fieldPoints = none ∧
    controllerCallback exampleParams exampleEnv (pointGoalAt 0 0) (poseAt 10 0) fieldPoints
      ⟨true, true⟩ = (⟨false, true⟩, Command.silent) ∧
    (controllerCallback exampleParams exampleEnv (pointGoalAt 0 0) (poseAt 10 0) fieldPoints
      ⟨true, true⟩).1 ≠ ⟨true, true⟩ := by
  decide!

/-- C16 (amended) at the same tick with `reached_position_` clear. -/
theorem controllerCallback_no_local_target_witness :
    regulatingPosition exampleParams false
      (toFloat32 (positionError exampleEnv.sqrt (poseAt 10 0) (pointGoalAt 0 0))) = true ∧
    exampleEnv.ground_index.radiusSearch (poseAt 10 0).position
      exampleParams.local_target_radius = [] ∧
    controllerCallback exampleParams exampleEnv (pointGoalAt 0 0) (poseAt 10 0) fieldPoints
      ⟨false, true⟩ = (⟨false, true⟩, Command.silent) ∧
    ((⟨false, true⟩ : ControllerState).reached_position = false →
      (controllerCallback exampleParams exampleEnv (pointGoalAt 0 0) (poseAt 10 0) fieldPoints
        ⟨false, true⟩).1 = ⟨false, true⟩) :=
  ⟨by decide!, by decide!,
    controllerCallback_no_local_target exampleParams exampleEnv (pointGoalAt 0 0) (poseAt 10 0)
      fieldPoints ⟨false, true⟩ (by decide!) (by decide!)⟩

/-! ### Goal handler -/

/-- When the nearest-point query finds ground point `i`, the goal handler stores the position
of that ground point and starts the controller. -/
theorem onGoalTry_projected (idx : GroundIndex) (pose : Pose) (s : PlannerState) (i : Nat)
    (p : PointXYZI) (hi : idx.nearestKSearch pose.position = some i)
    (hp : s.ground_pcl.get? i = some p) :
    (onGoalTry idx (some pose) s).goal.position = p.pos ∧
    (onGoalTry idx (some pose) s).goal.orientation = pose.orientation ∧
    (onGoalTry idx (some pose) s).controller = ⟨false, true⟩ := by
  rw [List.get?_eq_getElem?] at hp
  simp [onGoalTry, startController, projectGoalPositionToGround, hi, hp]

/-- When the nearest-point query finds no ground point, the goal handler still starts the
controller, on the goal as requested. -/
theorem onGoalTry_unprojected (idx : GroundIndex) (pose : Pose) (s : PlannerState)
    (hi : idx.nearestKSearch pose.position = none) :
    (onGoalTry idx (some pose) s).goal = pose ∧
    (onGoalTry idx (some pose) s).controller = ⟨false, true⟩ := by
  simp [onGoalTry, startController, projectGoalPositionToGround, hi]

/-- C17 at its failing input: with an empty ground cloud the point goal `(1, 2, 3)` cannot be
projected, and the handler leaves the controller started (timer running) with the stored goal
at the requested position `(1, 2, 3)`, which is the position of no ground point. -/
theorem onGoalPoint_empty_ground_starts_controller :
    (buildIndex []).nearestKSearch ⟨1, 2, 3⟩ = none ∧
    onGoalPoint (buildIndex []) (1 / 10) (some ⟨1, 2, 3⟩)
        ⟨pointGoalAt 0 0, [], ⟨true, false⟩⟩ =
      some ⟨⟨⟨1, 2, 3⟩, ⟨0, 0, 0, 0⟩⟩, [], ⟨false, true⟩⟩ := by
  decide!

/-! ### Degenerate ground clouds -/

theorem labelNeighbours_single (js : List Nat) (hjs : ∀ j ∈ js, j < 1) :
    labelNeighbours 0 js ([some 0], []) = ([some 0], []) := by
  induction js with
  | nil => rfl
  | cons j rest ih =>
    have hj : j = 0 := by
      have := hjs j (List.mem_cons_self _ _)
      omega
    subst hj
    rw [labelNeighbours]
    simp only [intensityAt, isfinite, List.getD_cons_zero, Option.isSome_some, if_true]
    exact ih (fun k hk => hjs k (List.mem_cons_of_mem _ hk))

theorem rawDistances_single (nbrs : Nat → List Nat) (v : Intensity)
    (hvalid : ∀ j ∈ nbrs 0, j < 1) : rawDistances nbrs 0 [v] = some [some 0] := by
  simp only [rawDistances, List.length_singleton, List.set_cons_zero]
  rw [wavefront, labelNeighbours_single (nbrs 0) hvalid]
  rfl

theorem normalize_single_zero : normalize [some 0] = some [some 0] := by
  simp [normalize, scanMin, scanMax, eps]

/-- A solve on a cloud of one ground point that the nearest-point query returns. -/
theorem computeDistanceTransform_single (idx : GroundIndex) (res : ℚ) (goal : PointXYZ)
    (p : PointXYZI) (hgoal : idx.nearestKSearch goal = some 0)
    (hvalid : ∀ q r j, j ∈ idx.radiusSearch q r → j < 1) :
    rawDistances (groundNbrs idx res [p]) 0 [p.intensity] = some [some 0] ∧
    computeDistanceTransform idx res goal [p] = some [{ p with intensity := some 0 }] := by
  have hn : ∀ j ∈ groundNbrs idx res [p] 0, j < 1 := by
    intro j hj
    simp only [groundNbrs, List.get?_cons_zero] at hj
    exact hvalid _ _ _ hj
  have hraw := rawDistances_single (groundNbrs idx res [p]) p.intensity hn
  refine ⟨hraw, ?_⟩
  simp [computeDistanceTransform, hgoal, hraw, normalize_single_zero, withIntensities]

theorem nearestKSearch_single (c goal : PointXYZ) :
    (buildIndex [c]).nearestKSearch goal = some 0 := by
  simp [buildIndex, nearestKSearch, nearestFrom]

/-- C18 (degenerate fields): on an empty ground cloud `computeDistanceTransform` returns the
cloud as it is; on a cloud of one ground point, whatever its intensity, with an index whose
nearest-point query returns that point and whose radius query returns only indices of the cloud,
the wavefront terminates with raw distance 0 at the point, the normalisation finds
`imin = imax = 0` and divides by `imax - imin + eps = 0.01`, which is not zero, and the function
leaves the point with value 0; this is the case for the index built over the one point; and the
normalisation of no intensity channel divides by zero. -/
theorem computeDistanceTransform_degenerate (idx : GroundIndex) (res : ℚ) (goal : PointXYZ) :
    computeDistanceTransform idx res goal [] = some [] ∧
    (∀ p : PointXYZI, idx.nearestKSearch goal = some 0 →
      (∀ q r j, j ∈ idx.radiusSearch q r → j < 1) →
      rawDistances (groundNbrs idx res [p]) 0 [p.intensity] = some [some 0] ∧
      scanMin [some 0] none = some 0 ∧ scanMax [some 0] none = some 0 ∧
      (0 : ℚ) - 0 + eps = 1 / 100 ∧ (0 : ℚ) - 0 + eps ≠ 0 ∧
      normalize [some 0] = some [some ((0 - 0) / ((0 : ℚ) - 0 + eps))] ∧
      computeDistanceTransform idx res goal [p] = some [{ p with intensity := some 0 }]) ∧
    (∀ p : PointXYZI, computeDistanceTransform (buildIndex [p.pos]) res goal [p] =
      some [{ p with intensity := some 0 }]) ∧
    (∀ I : List Intensity, ∃ N, normalize I = some N) := by
  refine ⟨by simp [computeDistanceTransform], ?_, ?_, normalize_total⟩
  · intro p hgoal hvalid
    obtain ⟨h1, h2⟩ := computeDistanceTransform_single idx res goal p hgoal hvalid
    refine ⟨h1, rfl, rfl, by norm_num [eps], by norm_num [eps], ?_, h2⟩
    rw [normalize_single_zero]
    norm_num [eps]
  · intro p
    apply (computeDistanceTransform_single _ res goal p (nearestKSearch_single _ _) ?_).2
    intro q r j hj
    simpa using radiusSearch_lt [p.pos] q r j hj

/-- C18 at a single ground point with infinite and with finite intensity. -/
theorem computeDistanceTransform_degenerate_witness :
    (buildIndex [⟨0, 0, 0⟩]).nearestKSearch ⟨5, 5, 5⟩ = some 0 ∧
    (rawDistances (groundNbrs (buildIndex [⟨0, 0, 0⟩]) 1 [⟨0, 0, 0, none⟩]) 0
        [(⟨0, 0, 0, none⟩ : PointXYZI).intensity] = some [some 0] ∧
      scanMin [some 0] none = some 0 ∧ scanMax [some 0] none = some 0 ∧
      (0 : ℚ) - 0 + eps = 1 / 100 ∧ (0 : ℚ) - 0 + eps ≠ 0 ∧
      normalize [some 0] = some [some ((0 - 0) / ((0 : ℚ) - 0 + eps))] ∧
      computeDistanceTransform (buildIndex [⟨0, 0, 0⟩]) 1 ⟨5, 5, 5⟩ [⟨0, 0, 0, none⟩] =
        some [{ (⟨0, 0, 0, none⟩ : PointXYZI) with intensity := some 0 }]) ∧
    computeDistanceTransform (buildIndex [⟨0, 0, 0⟩]) 1 ⟨5, 5, 5⟩ [⟨0, 0, 0, some (7 / 10)⟩] =
      some [⟨0, 0, 0, some 0⟩] :=
  ⟨by decide!,
    (computeDistanceTransform_degenerate (buildIndex [⟨0, 0, 0⟩]) 1 ⟨5, 5, 5⟩).2.1
      ⟨0, 0, 0, none⟩ (by decide!) (buildIndex_valid [⟨0, 0, 0, none⟩]),
    (computeDistanceTransform_degenerate (buildIndex [⟨0, 0, 0⟩]) 1 ⟨5, 5, 5⟩).2.2.1
      ⟨0, 0, 0, some (7 / 10)⟩⟩

/-! ### Wavefront log -/

/-- Dropping the log from the logged neighbour loop gives the neighbour loop. -/
theorem labelNeighboursLog_erase (i : Nat) (js : List Nat) :
    ∀ (I : List Intensity) (q log : List Nat),
      ((labelNeighboursLog i js (I, q, log)).1, (labelNeighboursLog i js (I, q, log)).2.1) =
        labelNeighbours i js (I, q) := by
  induction js with
  | nil => intro I q log; rfl
  | cons j rest ih =>
    intro I q log
    rw [labelNeighboursLog, labelNeighbours]
    by_cases hf : isfinite (intensityAt I j) = true
    · rw [if_pos hf, if_pos hf]; exact ih _ _ _
    · rw [if_neg hf, if_neg hf]; exact ih _ _ _

/-- Dropping the log from the logged wavefront gives the wavefront. -/
theorem wavefrontLog_erase (nbrs : Nat → List Nat) (fuel : Nat) :
    ∀ (I : List Intensity) (q log popped : List Nat),
      (wavefrontLog nbrs fuel I q log popped).map (fun r => r.1) = wavefront nbrs fuel I q := by
  induction fuel with
  | zero =>
    intro I q log popped
    cases q <;> simp [wavefrontLog, wavefront]
  | succ fuel ih =>
    intro I q log popped
    cases q with
    | nil => simp [wavefrontLog, wavefront]
    | cons i rest =>
      rw [wavefrontLog, wavefront, ih]
      have h := labelNeighboursLog_erase i (nbrs i) I rest log
      rw [← h]

theorem isfinite_set_of_isfinite (I : List Intensity) (j v : Nat) (x : ℚ)
    (h : isfinite (intensityAt I v) = true) :
    isfinite (intensityAt (I.set j (some x)) v) = true := by
  rcases Nat.lt_or_ge j I.length with hj | hj
  · rw [intensityAt_set _ _ _ _ hj]
    by_cases hv : v = j
    · simp [hv, isfinite]
    · simpa [hv] using h
  · rw [List.set_eq_of_length_le hj]; exact h

theorem isfinite_iff (v : Intensity) : isfinite v = true ↔ ∃ r, v = some r := by
  cases v <;> simp [isfinite]

/-- The logged neighbour loop keeps the log invariant while the popped index `i` has finite
intensity and the neighbours are indices of the cloud. -/
theorem labelNeighboursLog_inv (seed n i : Nat) (js : List Nat) :
    ∀ (I : List Intensity) (q log popped : List Nat), LogInv seed n I q log popped →
      isfinite (intensityAt I i) = true → (∀ j ∈ js, j < n) →
      LogInv seed n (labelNeighboursLog i js (I, q, log)).1
        (labelNeighboursLog i js (I, q, log)).2.1
        (labelNeighboursLog i js (I, q, log)).2.2 popped ∧
      isfinite (intensityAt (labelNeighboursLog i js (I, q, log)).1 i) = true := by
  induction js with
  | nil => intro I q log popped h hi _; exact ⟨h, hi⟩
  | cons j rest ih =>
    intro I q log popped h hi hlt
    have hlt1 : ∀ j ∈ rest, j < n := fun x hx => hlt x (List.mem_cons_of_mem _ hx)
    rw [labelNeighboursLog]
    by_cases hf : isfinite (intensityAt I j) = true
    · rw [if_pos hf]; exact ih _ _ _ _ h hi hlt1
    · rw [if_neg hf]
      obtain ⟨a, ha⟩ := (isfinite_iff _).1 hi
      have hnew : addOne (intensityAt I i) = some (a + 1) := by simp [addOne, ha]
      rw [hnew]
      have hjn : j < I.length := by rw [h.len]; exact hlt j (List.mem_cons_self _ _)
      have hatj : isfinite (intensityAt (I.set j (some (a + 1))) j) = true := by
        rw [intensityAt_set _ _ _ _ hjn]; simp [isfinite]
      apply ih _ _ _ _ _ (isfinite_set_of_isfinite I j i (a + 1) hi) hlt1
      refine ⟨by simp [h.len], isfinite_set_of_isfinite I j seed (a + 1) h.seedFinite, ?_, ?_,
        ?_, ?_, ?_⟩
      · intro x hx
        rcases List.mem_append.1 hx with hx | hx
        · exact isfinite_set_of_isfinite I j x (a + 1) (h.queued x hx)
        · have : x = j := by simpa using hx
          subst this; exact hatj
      · intro x hx
        rcases List.mem_append.1 hx with hx | hx
        · exact isfinite_set_of_isfinite I j x (a + 1) (h.logged x hx)
        · have : x = j := by simpa using hx
          subst this; exact hatj
      · rw [List.nodup_append]
        refine ⟨h.nodup, List.nodup_singleton j, ?_⟩
        intro x hx hx2
        have : x = j := by simpa using hx2
        subst this
        exact hf (h.logged x hx)
      · intro hmem
        rcases List.mem_append.1 hmem with hm | hm
        · exact h.seedFresh hm
        · have : seed = j := by simpa using hm
          subst this
          exact hf h.seedFinite
      · rw [← List.append_assoc, h.fifo]; simp

/-- When the logged wavefront returns, its log satisfies the invariant with an empty queue. -/
theorem wavefrontLog_inv (nbrs : Nat → List Nat) (seed n : Nat)
    (hvalid : ∀ i j, j ∈ nbrs i → j < n) (fuel : Nat) :
    ∀ (I : List Intensity) (q log popped : List Nat) (r : List Intensity × List Nat × List Nat),
      LogInv seed n I q log popped → wavefrontLog nbrs fuel I q log popped = some r →
      LogInv seed n r.1 [] r.2.1 r.2.2 := by
  induction fuel with
  | zero =>
    intro I q log popped r h hr
    cases q with
    | nil =>
      simp only [wavefrontLog, Option.some.injEq] at hr
      subst hr; exact h
    | cons i rest => simp [wavefrontLog] at hr
  | succ fuel ih =>
    intro I q log popped r h hr
    cases q with
    | nil =>
      simp only [wavefrontLog, Option.some.injEq] at hr
      subst hr; exact h
    | cons i rest =>
      rw [wavefrontLog] at hr
      have hpop : LogInv seed n I rest log (popped ++ [i]) :=
        { h with
          queued := fun x hx => h.queued x (List.mem_cons_of_mem _ hx)
          fifo := by rw [List.append_assoc]; exact h.fifo }
      have hi : isfinite (intensityAt I i) = true := h.queued i (List.mem_cons_self _ _)
      obtain ⟨h1, _⟩ := labelNeighboursLog_inv seed n i (nbrs i) I rest log (popped ++ [i]) hpop
        hi (fun j hj => hvalid i j hj)
      exact ih _ _ _ _ r h1 hr

/-- A list of pairwise distinct indices below `n` has at most `n` entries. -/
theorem length_le_of_nodup_lt (l : List Nat) (n : Nat) (hnd : l.Nodup)
    (hlt : ∀ x ∈ l, x < n) : l.length ≤ n := by
  have hsub : l ⊆ List.range n := fun x hx => List.mem_range.2 (hlt x hx)
  simpa using (List.subperm_of_subset hnd hsub).length_le

/-- C21 (wavefront termination): from an intensity channel of `n` points that are all
`+infinity`, for every neighbour relation over the cloud, the wavefront loop returns (the same
intensities as the loop without log); no index is written twice inside the loop and the goal
index is not written there at all, the indices pushed are the goal index followed by the indices
written, each once, the pops are these pushes in order, and there are at most `n` pops. -/
theorem rawDistancesLog_each_once (nbrs : Nat → List Nat) (goal_idx : Nat)
    (I : List Intensity) (hinf : ∀ v, intensityAt I v = none) (hgoal : goal_idx < I.length)
    (hvalid : ∀ i j, j ∈ nbrs i → j < I.length) :
    ∃ D log popped, rawDistancesLog nbrs goal_idx I = some (D, log, popped) ∧
      rawDistances nbrs goal_idx I = some D ∧
      log.Nodup ∧ goal_idx ∉ log ∧
      popped = goal_idx :: log ∧ popped.Nodup ∧
      (∀ j ∈ popped, j < I.length) ∧
      popped.length ≤ I.length := by
  obtain ⟨D, hD, _⟩ := wavefront_inv nbrs goal_idx I.length hvalid I.length _ _
    (WaveInv.init nbrs goal_idx I hgoal hinf)
    (by have := countInf_replicate_set I goal_idx hgoal; simpa using this)
  have herase := wavefrontLog_erase nbrs I.length (I.set goal_idx (some 0)) [goal_idx] [] []
  rw [hD] at herase
  cases hr : wavefrontLog nbrs I.length (I.set goal_idx (some 0)) [goal_idx] [] [] with
  | none => rw [hr] at herase; simp at herase
  | some r =>
    rw [hr] at herase
    obtain ⟨D1, log, popped⟩ := r
    have hD1 : D1 = D := by simpa using herase
    subst hD1
    have hinit : LogInv goal_idx I.length (I.set goal_idx (some 0)) [goal_idx] [] [] := by
      have hs : isfinite (intensityAt (I.set goal_idx (some 0)) goal_idx) = true := by
        rw [intensityAt_set _ _ _ _ hgoal]; simp [isfinite]
      refine ⟨by simp, hs, ?_, by simp, List.nodup_nil, by simp, by simp⟩
      intro x hx
      have : x = goal_idx := by simpa using hx
      subst this; exact hs
    have hfin := wavefrontLog_inv nbrs goal_idx I.length hvalid I.length _ _ _ _ _ hinit hr
    have hfifo : popped = goal_idx :: log := by simpa using hfin.fifo
    have hlen : D1.length = I.length := hfin.len
    have hlog_lt : ∀ j ∈ log, j < I.length := by
      intro j hj
      obtain ⟨x, hx⟩ := (isfinite_iff _).1 (hfin.logged j hj)
      rw [← hlen]; exact intensityAt_lt_length D1 j x hx
    have hnd : popped.Nodup := by
      rw [hfifo]
      exact List.nodup_cons.2 ⟨hfin.seedFresh, hfin.nodup⟩
    have hlt : ∀ j ∈ popped, j < I.length := by
      intro j hj
      rw [hfifo] at hj
      rcases List.mem_cons.1 hj with rfl | hj
      · exact hgoal
      · exact hlog_lt j hj
    exact ⟨D1, log, popped, by simp only [rawDistancesLog, hr], by simp only [rawDistances, hD],
      hfin.nodup, hfin.seedFresh, hfifo, hnd, hlt,
      length_le_of_nodup_lt popped I.length hnd hlt⟩

/-! ### Descent of the local target -/

theorem Intensity.le_of_not_lt (u t : Intensity) (xu : ℚ) (hu : u = some xu)
    (h : Intensity.lt u t = false) : ∃ xt, t = some xt ∧ xt ≤ xu := by
  subst hu
  cases t with
  | none => simp [Intensity.lt] at h
  | some xt => exact ⟨xt, rfl, by simpa [Intensity.lt] using h⟩

theorem mem_radiusSearch (cloud : List PointXYZ) (p : PointXYZ) (r : ℚ) (j : Nat) :
    j ∈ radiusSearch cloud p r ↔ ∃ c, cloud.get? j = some c ∧ sqDist c p ≤ r * r := by
  unfold radiusSearch
  rw [List.mem_filter, List.mem_range]
  simp only [List.get?_eq_getElem?]
  constructor
  · rintro ⟨hj, h⟩
    cases hc : cloud[j]? with
    | none => simp [hc] at h
    | some c => exact ⟨c, rfl, by simpa [hc] using h⟩
  · rintro ⟨c, hc, hle⟩
    refine ⟨?_, by simp [hc, hle]⟩
    rcases Nat.lt_or_ge j cloud.length with hl | hl
    · exact hl
    · rw [List.getElem?_eq_none hl] at hc; exact absurd hc (by simp)

/-- A radius query of the built index with a larger radius returns at least the same
indices. -/
theorem buildIndex_mono (cloud : List PointXYZ) :
    ∀ (c : PointXYZ) (r1 r2 : ℚ), 0 ≤ r1 → r1 ≤ r2 →
      ∀ j ∈ (buildIndex cloud).radiusSearch c r1, j ∈ (buildIndex cloud).radiusSearch c r2 := by
  intro c r1 r2 h0 h12 j hj
  change j ∈ radiusSearch cloud c r1 at hj
  change j ∈ radiusSearch cloud c r2
  rw [mem_radiusSearch] at hj ⊢
  obtain ⟨x, hx, hle⟩ := hj
  exact ⟨x, hx, le_trans hle (by nlinarith)⟩

theorem sqDist_comm (a b : PointXYZ) : sqDist a b = sqDist b a := by
  unfold sqDist; ring

/-- The neighbour relation of the built index is symmetric. -/
theorem groundNbrs_buildIndex_symm (res : ℚ) (ground_pcl : List PointXYZI) :
    ∀ i j, j ∈ groundNbrs (buildIndex (ground_pcl.map PointXYZI.pos)) res ground_pcl i →
      i ∈ groundNbrs (buildIndex (ground_pcl.map PointXYZI.pos)) res ground_pcl j := by
  intro i j hj
  unfold groundNbrs at hj ⊢
  cases hi : ground_pcl.get? i with
  | none => rw [hi] at hj; exact absurd hj (List.not_mem_nil _)
  | some pi =>
    rw [hi] at hj
    change j ∈ radiusSearch (ground_pcl.map PointXYZI.pos) pi.pos (18 / 10 * res) at hj
    rw [mem_radiusSearch] at hj
    obtain ⟨c, hc, hle⟩ := hj
    rw [List.get?_eq_getElem?, List.getElem?_map] at hc
    cases hjg : ground_pcl[j]? with
    | none => simp [hjg] at hc
    | some pj =>
      have hcj : pj.pos = c := by simpa [hjg] using hc
      rw [List.get?_eq_getElem?, hjg]
      change i ∈ radiusSearch (ground_pcl.map PointXYZI.pos) pj.pos (18 / 10 * res)
      rw [mem_radiusSearch]
      refine ⟨pi.pos, ?_, ?_⟩
      · rw [List.get?_eq_getElem?] at hi
        simp [List.get?_eq_getElem?, List.getElem?_map, hi]
      · rw [sqDist_comm, hcj]; exact hle

/-- On a field solved from infinite intensities with a symmetric neighbour relation, a
reachable point other than the goal point has a neighbour with a strictly smaller value, and
the selection loop run on a list that contains this neighbour returns a reachable point with
a strictly smaller value. -/
theorem descent_of_solved_field (idx : GroundIndex) (res : ℚ) (goal : PointXYZ)
    (ground_pcl : List PointXYZI) (goal_idx : Nat)
    (hinf : ∀ p ∈ ground_pcl, p.intensity = none)
    (hgoal : idx.nearestKSearch goal = some goal_idx) (hlt : goal_idx < ground_pcl.length)
    (hvalid : ∀ p r j, j ∈ idx.radiusSearch p r → j < ground_pcl.length)
    (hsymm : ∀ i j, j ∈ groundNbrs idx res ground_pcl i → i ∈ groundNbrs idx res ground_pcl j) :
    ∃ out, computeDistanceTransform idx res goal ground_pcl = some out ∧
      ∀ v, v < ground_pcl.length → v ≠ goal_idx →
        (∃ k, Walk (groundNbrs idx res ground_pcl) goal_idx v k) →
        ∃ (u : Nat) (xu y : ℚ), u ∈ groundNbrs idx res ground_pcl v ∧
          valueAt out u = some xu ∧ valueAt out v = some y ∧ xu < y ∧ y < 1 ∧
          ∀ pointIdx : List Nat, u ∈ pointIdx → (∀ j ∈ pointIdx, j < ground_pcl.length) →
            ∃ (t : Nat) (x : ℚ), generateTargetLoop out pointIdx (-1) none = (t : Int) ∧
              t ∈ pointIdx ∧ valueAt out t = some x ∧ x < y ∧ x ≠ 1 ∧
              ∃ k, Walk (groundNbrs idx res ground_pcl) goal_idx t k := by
  obtain ⟨D, hD, hlen0, h1, h2, h3, h4⟩ := rawDistances_spec (groundNbrs idx res ground_pcl)
    goal_idx (ground_pcl.map PointXYZI.intensity) (intensityAt_all_inf ground_pcl hinf)
    (by simpa using hlt) (groundNbrs_valid idx res ground_pcl hvalid)
  have hlen : D.length = ground_pcl.length := by simpa using hlen0
  have hseed : some (0 : ℚ) ∈ D := (mem_iff_intensityAt D 0).2 ⟨goal_idx, (h4 goal_idx).2 rfl⟩
  obtain ⟨imin, imax, N, m1, _, hb, hN, hnl, hn⟩ := normalize_spec D 0 hseed
  have hout := computeDistanceTransform_eq idx res goal ground_pcl goal_idx D N (by omega) hgoal
    hD hN
  have hden : 0 < imax - imin + 1 / 100 := by
    have := (hb imin m1).2
    linarith
  -- the value of a point with finite raw distance
  have hfin : ∀ w d, intensityAt D w = some d →
      valueAt (withIntensities ground_pcl N) w =
        some ((d - imin) / (imax - imin + 1 / 100)) ∧
      (d - imin) / (imax - imin + 1 / 100) < 1 := by
    intro w d hd
    have hw : w < D.length := intensityAt_lt_length D w d hd
    refine ⟨?_, ?_⟩
    · rw [valueAt_withIntensities ground_pcl _ w (by omega) (by omega)]
      exact (hn w hw).1 d hd
    · rw [div_lt_one hden]
      have := (hb d ((mem_iff_intensityAt D d).2 ⟨w, hd⟩)).2
      linarith
  -- a walk gives a finite raw distance not larger than its length
  have hwalk : ∀ w k, Walk (groundNbrs idx res ground_pcl) goal_idx w k →
      ∃ k0 : Nat, intensityAt D w = some (k0 : ℚ) ∧ k0 ≤ k := by
    intro w k hw
    cases hr : intensityAt D w with
    | none => exact absurd hw ((h2 w).1 hr k)
    | some r =>
      obtain ⟨k0, rfl⟩ := h3 w r hr
      exact ⟨k0, rfl, ((h1 w k0).1 hr).2 k hw⟩
  refine ⟨_, hout, ?_⟩
  intro v hv hne ⟨k, hw⟩
  obtain ⟨kv, hdv, _⟩ := hwalk v k hw
  obtain ⟨hwv, hminv⟩ := (h1 v kv).1 hdv
  -- the last edge of a shortest walk to v
  cases hwv with
  | nil => exact absurd rfl hne
  | @snoc u _ k1 hwu hedge =>
    obtain ⟨ku, hdu, hku⟩ := hwalk u k1 hwu
    obtain ⟨hvu, _⟩ := hfin u _ hdu
    obtain ⟨hvv, hv1⟩ := hfin v _ hdv
    have hlt_uv : ((ku : ℚ) - imin) / (imax - imin + 1 / 100) <
        (((k1 + 1 : Nat) : ℚ) - imin) / (imax - imin + 1 / 100) := by
      rw [div_lt_div_iff_of_pos_right hden]
      have : (ku : ℚ) < ((k1 + 1 : Nat) : ℚ) := by exact_mod_cast Nat.lt_succ_of_le hku
      linarith
    refine ⟨u, _, _, hsymm u v hedge, hvu, hvv, hlt_uv, hv1, ?_⟩
    intro pointIdx hu hidx
    have hnil : pointIdx ≠ [] := List.ne_nil_of_mem hu
    obtain ⟨pos, t, ht, hpos, hmin, _⟩ :=
      (generateTargetLoop_first_min (withIntensities ground_pcl N) pointIdx).2 hnil
    have htmem : t ∈ pointIdx := List.get?_mem hpos
    obtain ⟨q, hq⟩ := List.mem_iff_get?.1 hu
    obtain ⟨x, hx, hxle⟩ := Intensity.le_of_not_lt _ _ _ hvu (hmin q u hq)
    have hx1 : x < 1 := lt_trans (lt_of_le_of_lt hxle hlt_uv) hv1
    refine ⟨t, x, ht, htmem, hx, lt_of_le_of_lt hxle hlt_uv, ne_of_lt hx1, ?_⟩
    -- an unreachable point would hold the value 1
    by_contra hno
    have hnone : intensityAt D t = none := (h2 t).2 (fun k hk => hno ⟨k, hk⟩)
    have htn : t < ground_pcl.length := hidx t htmem
    have h1val : valueAt (withIntensities ground_pcl N) t = some 1 := by
      rw [valueAt_withIntensities ground_pcl _ t (by omega) htn]
      exact (hn t (by omega)).2 hnone
    rw [hx] at h1val
    have : x = 1 := by simpa using h1val
    exact absurd this (ne_of_lt hx1)

/-- C22 (descent of the local target): on a field solved from infinite intensities with a
symmetric neighbour relation, every reachable ground point `p` other than the goal point has a
neighbour within the propagation radius `1.8 * res` whose field value is strictly smaller; and
with the robot at the position of `p` and a lookahead radius of at least the propagation radius
(a larger radius returning at least the same indices), `generateTarget` returns a point of the
lookahead query whose field value is strictly smaller than that of `p`, which is below 1, so the
returned point is reachable and its value is not 1. -/
theorem generateTarget_descends (P : Params) (idx : GroundIndex) (res : ℚ) (goal : PointXYZ)
    (ground_pcl : List PointXYZI) (goal_idx : Nat)
    (hinf : ∀ p ∈ ground_pcl, p.intensity = none)
    (hgoal : idx.nearestKSearch goal = some goal_idx) (hlt : goal_idx < ground_pcl.length)
    (hvalid : ∀ p r j, j ∈ idx.radiusSearch p r → j < ground_pcl.length)
    (hsymm : ∀ i j, j ∈ groundNbrs idx res ground_pcl i → i ∈ groundNbrs idx res ground_pcl j)
    (hres : 0 ≤ res) (hR : 18 / 10 * res ≤ P.local_target_radius)
    (hmono : ∀ (c : PointXYZ) (r1 r2 : ℚ), 0 ≤ r1 → r1 ≤ r2 →
      ∀ j ∈ idx.radiusSearch c r1, j ∈ idx.radiusSearch c r2) :
    ∃ out, computeDistanceTransform idx res goal ground_pcl = some out ∧
      ∀ (v : Nat) (p : PointXYZI), ground_pcl.get? v = some p → v ≠ goal_idx →
        (∃ k, Walk (groundNbrs idx res ground_pcl) goal_idx v k) →
        ∃ (u : Nat) (xu y : ℚ), u ∈ groundNbrs idx res ground_pcl v ∧
          valueAt out u = some xu ∧ valueAt out v = some y ∧ xu < y ∧ y < 1 ∧
          ∃ (t : Nat) (x : ℚ), generateTarget P idx p.pos out = (t : Int) ∧
            t ∈ idx.radiusSearch p.pos P.local_target_radius ∧
            valueAt out t = some x ∧ x < y ∧ x ≠ 1 ∧
            ∃ k, Walk (groundNbrs idx res ground_pcl) goal_idx t k := by
  obtain ⟨out, hout, hall⟩ :=
    descent_of_solved_field idx res goal ground_pcl goal_idx hinf hgoal hlt hvalid hsymm
  refine ⟨out, hout, ?_⟩
  intro v p hget hne hreach
  have hv : v < ground_pcl.length := by
    rcases Nat.lt_or_ge v ground_pcl.length with hl | hl
    · exact hl
    · rw [List.get?_eq_none.2 hl] at hget; exact absurd hget (by simp)
  obtain ⟨u, xu, y, hu, hxu, hy, hlt1, hy1, hsel⟩ := hall v hv hne hreach
  refine ⟨u, xu, y, hu, hxu, hy, hlt1, hy1, ?_⟩
  have hu1 : u ∈ idx.radiusSearch p.pos (18 / 10 * res) := by
    unfold groundNbrs at hu
    rw [hget] at hu
    exact hu
  have hu2 : u ∈ idx.radiusSearch p.pos P.local_target_radius :=
    hmono p.pos _ _ (by linarith) hR u hu1
  exact hsel _ hu2 (fun j hj => hvalid _ _ j hj)

/-- On `threePoints` solved for the goal at the first point, the robot at the second point
(value 1 / 1.01) selects the first point (value 0). -/
theorem generateTarget_threePoints :
    generateTarget exampleParams threePointsIndex ⟨1, 0, 0⟩
      [⟨0, 0, 0, some 0⟩, ⟨1, 0, 0, some (100 / 101)⟩, ⟨5, 0, 0, some 1⟩] = 0 := by
  decide!

/-- C22 at `threePoints` with the goal at the first point and lookahead radius 2. -/
theorem generateTarget_descends_witness :
    (∀ p ∈ threePoints, p.intensity = none) ∧
    threePointsIndex.nearestKSearch ⟨0, 0, 0⟩ = some 0 ∧
    (0 : ℚ) ≤ 1 ∧ (18 / 10 * 1 : ℚ) ≤ exampleParams.local_target_radius ∧
    ∃ out, computeDistanceTransform threePointsIndex 1 ⟨0, 0, 0⟩ threePoints = some out ∧
      ∀ (v : Nat) (p : PointXYZI), threePoints.get? v = some p → v ≠ 0 →
        (∃ k, Walk (groundNbrs threePointsIndex 1 threePoints) 0 v k) →
        ∃ (u : Nat) (xu y : ℚ), u ∈ groundNbrs threePointsIndex 1 threePoints v ∧
          valueAt out u = some xu ∧ valueAt out v = some y ∧ xu < y ∧ y < 1 ∧
          ∃ (t : Nat) (x : ℚ), generateTarget exampleParams threePointsIndex p.pos out = (t : Int) ∧
            t ∈ threePointsIndex.radiusSearch p.pos exampleParams.local_target_radius ∧
            valueAt out t = some x ∧ x < y ∧ x ≠ 1 ∧
            ∃ k, Walk (groundNbrs threePointsIndex 1 threePoints) 0 t k :=
  ⟨by decide!, by decide!, by decide!, by decide!,
    generateTarget_descends exampleParams threePointsIndex 1 ⟨0, 0, 0⟩ threePoints 0
      (by decide!) (by decide!) (by decide) (buildIndex_valid threePoints)
      (groundNbrs_buildIndex_symm 1 threePoints) (by decide!) (by decide!)
      (buildIndex_mono (threePoints.map PointXYZI.pos))⟩

/-- The log of the wavefront on `threePoints`: the second point is written and pushed once,
and the pops are the first and the second point. -/
theorem rawDistancesLog_threePoints :
    rawDistancesLog (groundNbrs threePointsIndex 1 threePoints) 0
      (threePoints.map PointXYZI.intensity) = some ([some 0, some 1, none], [1], [0, 1]) := by
  decide!

/-- C21 at `threePoints` with the goal at the first point. -/
theorem rawDistancesLog_each_once_witness :
    (0 : Nat) < (threePoints.map PointXYZI.intensity).length ∧
    ∃ D log popped,
      rawDistancesLog (groundNbrs threePointsIndex 1 threePoints) 0
        (threePoints.map PointXYZI.intensity) = some (D, log, popped) ∧
      rawDistances (groundNbrs threePointsIndex 1 threePoints) 0
        (threePoints.map PointXYZI.intensity) = some D ∧
      log.Nodup ∧ 0 ∉ log ∧
      popped = 0 :: log ∧ popped.Nodup ∧
      (∀ j ∈ popped, j < (threePoints.map PointXYZI.intensity).length) ∧
      popped.length ≤ (threePoints.map PointXYZI.intensity).length :=
  ⟨by decide,
    rawDistancesLog_each_once (groundNbrs threePointsIndex 1 threePoints) 0
      (threePoints.map PointXYZI.intensity)
      (intensityAt_all_inf threePoints (by decide!)) (by decide)
      (groundNbrs_valid threePointsIndex 1 threePoints (buildIndex_valid threePoints))⟩

end OctomapPathPlanner
